import Mathlib

/-!
Verification of the Harlowe concurrent edit-coordination engine.

Shallow embedding of the core subsystems (merge coordinator, workspace
manager, git/version store layer, undo manager, thread data model) of the
Harlowe collaborative markdown editor, together with proofs and
refutations of the specification claims about them.

Python strings are modelled as `List Char`; Python dicts with fixed key
sets as structures; open string-keyed dicts as association lists; fallible
operations as `Option`; external subprocess results (git) as oracle
parameters.
-/

namespace Harlowe

/-- Text is modelled as a list of characters (a Python `str`). -/
abbrev Text := List Char

/-- Does `p` occur as a leading segment of `s`?  Models Python
`s.startswith(p)` / `str.find` anchored at the start. -/
def leadsWith : Text → Text → Bool
  | [], _ => true
  | _ :: _, [] => false
  | c :: p, d :: s => c = d && leadsWith p s

/-- Does `sep` occur as a contiguous substring of `s`?  Models Python
`sep in s`. -/
def containsSub (sep : Text) : Text → Bool
  | [] => leadsWith sep []
  | c :: t => leadsWith sep (c :: t) || containsSub sep t

/-- Auxiliary splitter for Python `s.split(sep)` (with non-empty `sep`):
scans `s` char by char; `skip` counts still-to-consume characters of a
separator occurrence that was just matched. -/
def pySplitAux (sep : Text) : Text → Nat → Text → List Text
  | [], _, acc => [acc.reverse]
  | _ :: t, skip + 1, acc => pySplitAux sep t skip acc
  | c :: t, 0, acc =>
    if leadsWith sep (c :: t) then
      acc.reverse :: pySplitAux sep t (sep.length - 1) []
    else
      pySplitAux sep t 0 (c :: acc)

/-- Python `s.split(sep)` for a non-empty separator: splits on each
non-overlapping occurrence of `sep`, left to right. -/
def pySplit (sep s : Text) : List Text :=
  pySplitAux sep s 0 []

/-- The characters Python `str.strip()` removes. -/
def isPySpace (c : Char) : Bool :=
  c = ' ' || c = '\t' || c = '\n' || c = '\x0d' || c = '\x0b' || c = '\x0c'

/-- Python `s.strip()`: remove leading and trailing whitespace. -/
def stripPy (s : Text) : Text :=
  ((s.dropWhile isPySpace).reverse.dropWhile isPySpace).reverse

/-- Python `s.lower()` restricted to ASCII case mapping (the only case
relevant to the texts the code inspects). -/
def lowerPy (s : Text) : Text :=
  s.map Char.toLower

/-- Decimal digit character for `d < 10` (`'0' + d`). -/
def digChar (d : Nat) : Char := Char.ofNat (48 + d)

/-- Fuel-driven decimal printer: prepends the digits of `n` (most
significant first) to `acc`.  `natChars` supplies enough fuel that the
fuel never runs out. -/
def natCharsAux : Nat → Nat → Text → Text
  | 0, _, acc => acc
  | fuel + 1, n, acc =>
    let c := digChar (n % 10)
    if n / 10 = 0 then c :: acc else natCharsAux fuel (n / 10) (c :: acc)

/-- Decimal representation of `n`, as Python `str(n)` produces it. -/
def natChars (n : Nat) : Text :=
  natCharsAux (n + 1) n []

/-- Most-significant-first accumulation of decimal digit characters. -/
def valStep (a : Nat) (c : Char) : Nat := 10 * a + (c.toNat - 48)

/-- Numeric value of a run of decimal digit characters. -/
def digitsVal (cs : Text) : Nat := cs.foldl valStep 0

/-- `n` printed in decimal and left-padded with zeros to width `w`. -/
def padNum (w n : Nat) : Text :=
  List.replicate (w - (natChars n).length) '0' ++ natChars n

/-- Read exactly `w` decimal digit characters, returning their value and
the rest of the input; `none` if a non-digit (or end of input) appears
first. -/
def readN : Nat → Text → Nat → Option (Nat × Text)
  | 0, cs, a => some (a, cs)
  | _ + 1, [], _ => none
  | w + 1, c :: t, a => if c.isDigit then readN w t (valStep a c) else none

/-- Expect the exact character `c` at the head of the input. -/
def expectChar (c : Char) : Text → Option Text
  | [] => none
  | d :: t => if c = d then some t else none

/-- Join lines with `'\n'` separators (Python `'\n'.join(lines)`). -/
def joinNl : List Text → Text
  | [] => []
  | [l] => l
  | l :: ls => l ++ '\n' :: joinNl ls

namespace MergeCoordinator

/-- Severity level of conflicts (`merge_coordinator.ConflictSeverity`). -/
inductive ConflictSeverity
  | minor
  | major
  | blocking
deriving DecidableEq, Repr

/-- Rank used to compare severities: MINOR < MAJOR < BLOCKING. -/
def ConflictSeverity.rank : ConflictSeverity → Nat
  | .minor => 0
  | .major => 1
  | .blocking => 2

/-- The larger of two severities. -/
def sevMax (a b : ConflictSeverity) : ConflictSeverity :=
  if a.rank ≤ b.rank then b else a

/-- A range of lines in a file (`merge_coordinator.LineRange`).  Line
numbers are Python ints, hence `Int`. -/
structure LineRange where
  file_path : Text
  start_line : Int
  end_line : Int
deriving DecidableEq, Repr

/-- `LineRange.overlaps` from `merge_coordinator.py`: false for distinct
paths, otherwise `not (end_a < start_b or start_a > end_b)`. -/
def LineRange.overlaps (self other : LineRange) : Bool :=
  if self.file_path ≠ other.file_path then false
  else !(self.end_line < other.start_line || self.start_line > other.end_line)

/-- `MergeCoordinator._assess_severity`: walks the conflicting pairs in
order and returns BLOCKING for the first pair with identical
`(start, end)`, MAJOR for the first pair whose overlap size
`min(ends) - max(starts)` exceeds 5, and MINOR when the walk finds
neither. -/
def assessSeverity : List (LineRange × LineRange) → ConflictSeverity
  | [] => .minor
  | (a, b) :: rest =>
    if a.start_line = b.start_line ∧ a.end_line = b.end_line then .blocking
    else if min a.end_line b.end_line - max a.start_line b.start_line > 5 then .major
    else assessSeverity rest

/-- Severity of a single overlapping pair under the rules of
`_assess_severity`, considered in isolation (the specification's
per-pair rating). -/
def pairSeverity (p : LineRange × LineRange) : ConflictSeverity :=
  if p.1.start_line = p.2.start_line ∧ p.1.end_line = p.2.end_line then .blocking
  else if min p.1.end_line p.2.end_line - max p.1.start_line p.2.start_line > 5 then .major
  else .minor

/-- The specification's overall severity: the maximum per-pair severity
over all overlapping pairs (MINOR for the empty list). -/
def maxSeverity (ranges : List (LineRange × LineRange)) : ConflictSeverity :=
  ranges.foldr (fun p acc => sevMax (pairSeverity p) acc) .minor

/-- Parse of the hunk-header regular expression
`@@ -(\d+),(\d+) \+(\d+),(\d+) @@` anchored at the start of a line
(`re.match`), as used by `_parse_line_ranges` and
`_apply_diff_manual`.  Returns `(a, b, c, d)` on a match. -/
def parseHunkHeader (line : Text) : Option (Nat × Nat × Nat × Nat) := do
  let r ← expectChar '@' line
  let r ← expectChar '@' r
  let r ← expectChar ' ' r
  let r ← expectChar '-' r
  let ds := r.takeWhile Char.isDigit
  guard (ds ≠ [])
  let a := digitsVal ds
  let r := r.dropWhile Char.isDigit
  let r ← expectChar ',' r
  let ds := r.takeWhile Char.isDigit
  guard (ds ≠ [])
  let b := digitsVal ds
  let r := r.dropWhile Char.isDigit
  let r ← expectChar ' ' r
  let r ← expectChar '+' r
  let ds := r.takeWhile Char.isDigit
  guard (ds ≠ [])
  let c := digitsVal ds
  let r := r.dropWhile Char.isDigit
  let r ← expectChar ',' r
  let ds := r.takeWhile Char.isDigit
  guard (ds ≠ [])
  let d := digitsVal ds
  let r := r.dropWhile Char.isDigit
  let r ← expectChar ' ' r
  let r ← expectChar '@' r
  let _ ← expectChar '@' r
  pure (a, b, c, d)

/-- A well-formed hunk header `@@ -a,b +c,d @@` as emitted in unified
diffs (the full form the coordinator's regex recognizes). -/
def mkHunkHeader (a b c d : Nat) : Text :=
  "@@ -".data ++ natChars a ++ [','] ++ natChars b ++ " +".data ++
    natChars c ++ [','] ++ natChars d ++ " @@".data

end MergeCoordinator

/-- Python line-boundary characters recognized by `str.splitlines`. -/
def isLineBreak (c : Char) : Bool :=
  c = '\n' || c = '\x0d' || c = '\x0b' || c = '\x0c' || c = '\x1c' ||
  c = '\x1d' || c = '\x1e' || c = '\x85' || c = '\u2028' || c = '\u2029'

/-- Python `s.splitlines(keepends=True)`: cut after every line boundary
(with `"\r\n"` kept as a single boundary), keeping the boundary
characters; a trailing segment without a boundary is kept, and no empty
trailing segment is produced. -/
def splitKeepNl : Text → Text → List Text
  | [], acc => if acc = [] then [] else [acc.reverse]
  | '\x0d' :: '\n' :: t, acc => (acc.reverse ++ ['\x0d', '\n']) :: splitKeepNl t []
  | c :: t, acc =>
    if isLineBreak c then (acc.reverse ++ [c]) :: splitKeepNl t []
    else splitKeepNl t (c :: acc)

/-- `s.splitlines(keepends=True)` (entry point). -/
def splitLinesKeep (s : Text) : List Text := splitKeepNl s []

namespace MergeCoordinator

/-- One step state of `_apply_diff_manual`: walks the pieces of
`diff.split('\n')` with the current original-line index `i` and the
accumulated output chunks (reversed).  Returns `none` on the IndexError
the Python code can raise while copying lines up to a hunk start (caught
by the surrounding `except`, which returns the original text). -/
def applyDiffAux (origLines : List Text) : List Text → Nat → List Text → Option (List Text)
  | [], i, acc => some (acc.reverse ++ origLines.drop i)
  | line :: rest, i, acc =>
    if leadsWith ['@', '@'] line then
      match parseHunkHeader line with
      | some (a, _, _, _) =>
        let oldStart := a - 1
        if oldStart ≤ origLines.length then
          applyDiffAux origLines rest (max i oldStart)
            (((origLines.drop i).take (oldStart - i)).reverse ++ acc)
        else if i < oldStart then none
        else applyDiffAux origLines rest i acc
      | none => applyDiffAux origLines rest i acc
    else if leadsWith ['+'] line && !leadsWith ['+', '+', '+'] line then
      applyDiffAux origLines rest i ((line.drop 1 ++ ['\n']) :: acc)
    else if leadsWith ['-'] line && !leadsWith ['-', '-', '-'] line then
      applyDiffAux origLines rest (i + 1) acc
    else if leadsWith [' '] line then
      if i < origLines.length then
        applyDiffAux origLines rest (i + 1) (origLines.getD i [] :: acc)
      else applyDiffAux origLines rest i acc
    else applyDiffAux origLines rest i acc

/-- `MergeCoordinator._apply_diff_manual`: interpret a unified diff
directly (the library-free patch strategy); any exception returns the
original text unchanged. -/
def applyDiffManual (original diff : Text) : Text :=
  match applyDiffAux (splitLinesKeep original) (pySplit ['\n'] diff) 0 [] with
  | some chunks => chunks.flatten
  | none => original

/-- `MergeCoordinator._parse_line_ranges`: for each changed file, scan the
unified diff for lines starting with `@@`, match the hunk-header regex,
and register the new-file range as `LineRange(path, c, c + d)`. -/
def parseLineRanges (files : List (Text × Text)) : List LineRange :=
  files.flatMap fun pf =>
    (pySplit ['\n'] pf.2).filterMap fun line =>
      if leadsWith ['@', '@'] line then
        (parseHunkHeader line).map fun q =>
          ⟨pf.1, (q.2.2.1 : Int), ((q.2.2.1 + q.2.2.2 : Nat) : Int)⟩
      else none

end MergeCoordinator

/-- A metadata value: Python booleans or strings are the only values the
core stores under the reserved thread-metadata keys. -/
inductive MetaVal
  | b (v : Bool)
  | s (v : Text)
deriving DecidableEq, Repr

/-- Modelled from the spec: `Thread.metadata` is an open map with
reserved keys `git_commit`, `reverted`, `revert_commit`, `redo_commit`
(the harlowe `models.py` that declares the field is not among the
sources; only its users are).  Modelled as an association list with
unique keys, Python-dict style. -/
abbrev Metadata := List (Text × MetaVal)

/-- Dict lookup (`md.get(k)` / `md[k]`). -/
def Metadata.get : Metadata → Text → Option MetaVal
  | [], _ => none
  | (k₀, v₀) :: t, k => if k₀ = k then some v₀ else Metadata.get t k

/-- Dict update (`md[k] = v`): replace in place, or append a new key. -/
def Metadata.set : Metadata → Text → MetaVal → Metadata
  | [], k, v => [(k, v)]
  | (k₀, v₀) :: t, k, v =>
    if k₀ = k then (k₀, v) :: t else (k₀, v₀) :: Metadata.set t k v

/-- Python `k in md`. -/
def Metadata.hasKey (md : Metadata) (k : Text) : Bool :=
  (md.get k).isSome

/-- Python truthiness of a metadata value (`False` and `""` are falsy). -/
def MetaVal.truthy : MetaVal → Bool
  | .b v => v
  | .s v => v ≠ []

/-- Python `bool(md.get(k, False))`: truthiness of the stored value,
false for a missing key. -/
def Metadata.truthyAt (md : Metadata) (k : Text) : Bool :=
  match md.get k with
  | some v => v.truthy
  | none => false

/-- The live documents, as a path-indexed store (an association list with
unique keys). -/
abbrev FileSys := List (Text × Text)

/-- Read a file's contents (`path.read_text()`; `none` models a missing
file, `path.exists()` false). -/
def FileSys.read : FileSys → Text → Option Text
  | [], _ => none
  | (p₀, c₀) :: t, p => if p₀ = p then some c₀ else FileSys.read t p

/-- Write a file (`path.write_text(content)`). -/
def FileSys.write : FileSys → Text → Text → FileSys
  | [], p, c => [(p, c)]
  | (p₀, c₀) :: t, p, c =>
    if p₀ = p then (p₀, c) :: t else (p₀, c₀) :: FileSys.write t p c

namespace MergeCoordinator

/-- Result of `_apply_merge`: the file store afterwards, the returned
boolean, the commit recorded (if any) and the thread metadata
afterwards. -/
structure ApplyMergeResult where
  fs : FileSys
  success : Bool
  commit : Option Text
  metadata : Metadata
deriving DecidableEq, Repr

/-- Loop of `MergeCoordinator._apply_merge` over
`merge.changes.files_changed.items()` (pairs of path and unified diff,
in order): read each file — returning failure the moment one is missing —
patch it with the diff interpreter and write it back; after the loop,
commit via the version store (outcome supplied as the oracle
`commitResult`) and on a non-empty hash record it under the thread's
`git_commit` metadata key. -/
def applyMergeAux (md : Metadata) (commitResult : Option Text) :
    FileSys → List (Text × Text) → ApplyMergeResult
  | fs, [] =>
    match commitResult with
    | some h => ⟨fs, true, some h, md.set "git_commit".data (.s h)⟩
    | none => ⟨fs, false, none, md⟩
  | fs, (p, diff) :: rest =>
    match fs.read p with
    | none => ⟨fs, false, none, md⟩
    | some content =>
      applyMergeAux md commitResult (fs.write p (applyDiffManual content diff)) rest

/-- `MergeCoordinator._apply_merge` (entry point). -/
def applyMerge (fs : FileSys) (md : Metadata) (files : List (Text × Text))
    (commitResult : Option Text) : ApplyMergeResult :=
  applyMergeAux md commitResult fs files

end MergeCoordinator

namespace GitManager

/-- `GitManager.commit_merge`'s commit message:
`"harlowe: Thread {tid} - {msg}"`, a `"\nLines: {lines}"` trailer when
`lines_affected` is truthy, then `"\nMessage: {tid}"`. -/
def commitMsg (thread_id message : Text) (lines_affected : Option Text) : Text :=
  "harlowe: Thread ".data ++ thread_id ++ " - ".data ++ message ++
    (match lines_affected with
     | some la => if la ≠ [] then "\nLines: ".data ++ la else []
     | none => []) ++
    "\nMessage: ".data ++ thread_id

/-- The metadata dict `GitManager.get_commit_metadata` builds. -/
structure CommitMeta where
  message : Text
  thread_id : Option Text
  lines_affected : Option Text
deriving DecidableEq, Repr

/-- The thread-id parse inside `GitManager.get_commit_metadata`:
`message.split("Thread ")[1].split(" ")[0]` when `"Thread "` occurs in
the message (an IndexError leaves the key absent, modelled by
`Option`). -/
def parseThreadId (message : Text) : Option Text :=
  if containsSub "Thread ".data message then
    ((pySplit "Thread ".data message).drop 1).head?.bind fun chunk =>
      (pySplit [' '] chunk).head?
  else none

/-- The lines-affected parse inside `GitManager.get_commit_metadata`:
`message.split("Lines: ")[1].split("\n")[0]` when `"Lines: "` occurs in
the message. -/
def parseLinesAffected (message : Text) : Option Text :=
  if containsSub "Lines: ".data message then
    ((pySplit "Lines: ".data message).drop 1).head?.bind fun chunk =>
      (pySplit ['\n'] chunk).head?
  else none

/-- `GitManager.get_commit_metadata`, applied to the raw commit message
returned by `git log -1 --format=%B`: strip it, then parse the thread id
and the affected lines out of it. -/
def getCommitMetadata (raw : Text) : CommitMeta :=
  let message := stripPy raw
  ⟨message, parseThreadId message, parseLinesAffected message⟩

/-- `git_manager.GitOperationResult`. -/
inductive GitOpResult
  | success
  | conflict
  | error
  | not_available
deriving DecidableEq, Repr

/-- Return value of `revert_commit`: a new commit hash or an error
status. -/
inductive RevertOutcome
  | hash (h : Text)
  | res (r : GitOpResult)
deriving DecidableEq, Repr

/-- A `subprocess.CompletedProcess` as far as `revert_commit` inspects
it. -/
structure ProcResult where
  returncode : Int
  stdout : Text
  stderr : Text

/-- `GitManager.revert_commit`, with the git subprocess behavior as
oracle inputs: `repoReady` is `ensure_repo()`, `revertRaises` models the
revert invocation raising `SubprocessError`, `res` is its completed
process otherwise, `parseRaises` models the final `rev-parse` raising,
and `headHash` is its stdout.  The second component records whether
`git revert --abort` was invoked before returning. -/
def revertCommit (repoReady : Bool) (revertRaises : Bool) (res : ProcResult)
    (parseRaises : Bool) (headHash : Text) : RevertOutcome × Bool :=
  if !repoReady then (.res .not_available, false)
  else if revertRaises then (.res .error, false)
  else if res.returncode ≠ 0 then
    if containsSub "conflict".data (lowerPy res.stdout) ||
       containsSub "conflict".data (lowerPy res.stderr) then
      (.res .conflict, true)
    else (.res .error, false)
  else if parseRaises then (.res .error, false)
  else (.hash (stripPy headHash), false)

end GitManager

namespace UndoManager

/-- Oracle for one `undo_thread` call: the `can_revert_cleanly` answer
and the revert outcome (`some hash` on success; `none` for a
`GitOperationResult` status or an exception). -/
structure UndoOracle where
  clean : Bool
  revert : Option Text
deriving DecidableEq, Repr

/-- An operation in a sequence of `undo_thread` / `redo_thread` calls on
one thread, with its git oracle. -/
inductive UndoOp
  | undo (o : UndoOracle)
  | redo (r : Option Text)
deriving DecidableEq, Repr

/-- Is the operation an undo? -/
def UndoOp.isUndo : UndoOp → Bool
  | .undo _ => true
  | .redo _ => false

/-- Effect of `UndoManager.undo_thread` on the thread's metadata:
ineligible threads (no `git_commit`, already `reverted`, falsy commit
hash) are left unchanged; a conflicted undo only spawns a resolution
thread; a clean, successful revert sets `reverted = True` and records
`revert_commit`. -/
def undoStep (md : Metadata) (o : UndoOracle) : Metadata :=
  if !md.hasKey "git_commit".data then md
  else if md.truthyAt "reverted".data then md
  else if !md.truthyAt "git_commit".data then md
  else if !o.clean then md
  else
    match o.revert with
    | none => md
    | some h => (md.set "reverted".data (.b true)).set "revert_commit".data (.s h)

/-- Effect of `UndoManager.redo_thread` on the thread's metadata:
ineligible threads (not `reverted`, missing or falsy `revert_commit`)
and failed reverts are left unchanged; a successful revert-of-the-revert
sets `reverted = False` and records `redo_commit`. -/
def redoStep (md : Metadata) (r : Option Text) : Metadata :=
  if !md.truthyAt "reverted".data then md
  else if !md.hasKey "revert_commit".data then md
  else if !md.truthyAt "revert_commit".data then md
  else
    match r with
    | none => md
    | some h => (md.set "reverted".data (.b false)).set "redo_commit".data (.s h)

/-- Run a sequence of undo/redo operations on a thread's metadata. -/
def runOps (md : Metadata) : List UndoOp → Metadata
  | [] => md
  | .undo o :: t => runOps (undoStep md o) t
  | .redo r :: t => runOps (redoStep md r) t

/-- The specification's invariant: `reverted` and `redo_commit` are not
both truthy. -/
def invariantOk (md : Metadata) : Bool :=
  !(md.truthyAt "reverted".data && md.truthyAt "redo_commit".data)

end UndoManager

namespace WorkspaceManager

/-- The workspace directory name built in `EphemeralWorkspace.__init__`:
`f"/tmp/harlowe_ws_{thread_id}_{message_id}_{timestamp}"` with
`timestamp = int(time.time() * 1000)` (milliseconds). -/
def workspaceDir (thread_id message_id : Text) (timestampMs : Nat) : Text :=
  "/tmp/harlowe_ws_".data ++ thread_id ++ ['_'] ++ message_id ++ ['_'] ++
    natChars timestampMs

end WorkspaceManager

namespace Models

/-- `models.MessageRole`. -/
inductive MessageRole
  | user
  | assistant
  | system
deriving DecidableEq, Repr

/-- The `.value` of each role. -/
def MessageRole.value : MessageRole → Text
  | .user => "user".data
  | .assistant => "assistant".data
  | .system => "system".data

/-- The `MessageRole(value)` enum lookup (a `ValueError` becomes
`none`). -/
def MessageRole.ofValue (v : Text) : Option MessageRole :=
  if v = "user".data then some .user
  else if v = "assistant".data then some .assistant
  else if v = "system".data then some .system
  else none

/-- `models.ThreadStatus`. -/
inductive ThreadStatus
  | pending
  | active
  | completed
  | failed
deriving DecidableEq, Repr

/-- The `.value` of each status. -/
def ThreadStatus.value : ThreadStatus → Text
  | .pending => "pending".data
  | .active => "active".data
  | .completed => "completed".data
  | .failed => "failed".data

/-- The `ThreadStatus(value)` enum lookup. -/
def ThreadStatus.ofValue (v : Text) : Option ThreadStatus :=
  if v = "pending".data then some .pending
  else if v = "active".data then some .active
  else if v = "completed".data then some .completed
  else if v = "failed".data then some .failed
  else none

/-- A naive `datetime.datetime` value.  The code builds timestamps only
through `datetime.now()`, which is timezone-naive. -/
structure PyDateTime where
  year : Nat
  month : Nat
  day : Nat
  hour : Nat
  minute : Nat
  second : Nat
  microsecond : Nat
deriving DecidableEq, Repr

/-- The field ranges `datetime` enforces at construction. -/
def PyDateTime.valid (t : PyDateTime) : Prop :=
  1 ≤ t.year ∧ t.year ≤ 9999 ∧ 1 ≤ t.month ∧ t.month ≤ 12 ∧
    1 ≤ t.day ∧ t.day ≤ 31 ∧ t.hour ≤ 23 ∧ t.minute ≤ 59 ∧
    t.second ≤ 59 ∧ t.microsecond ≤ 999999

instance (t : PyDateTime) : Decidable t.valid := by
  unfold PyDateTime.valid
  infer_instance

/-- `datetime.isoformat()` for a naive timestamp:
`YYYY-MM-DDTHH:MM:SS`, with `.ffffff` appended when the microsecond
field is nonzero. -/
def PyDateTime.isoformat (t : PyDateTime) : Text :=
  padNum 4 t.year ++ ['-'] ++ padNum 2 t.month ++ ['-'] ++ padNum 2 t.day ++
    ['T'] ++ padNum 2 t.hour ++ [':'] ++ padNum 2 t.minute ++ [':'] ++
    padNum 2 t.second ++
    (if t.microsecond ≠ 0 then ['.'] ++ padNum 6 t.microsecond else [])

/-- `datetime.fromisoformat` on the canonical strings `isoformat`
emits (the stdlib parser also accepts other variants; only the canonical
grammar is reachable from the round-trip). -/
def fromisoformat (s : Text) : Option PyDateTime := do
  let (y, r) ← readN 4 s 0
  let r ← expectChar '-' r
  let (mo, r) ← readN 2 r 0
  let r ← expectChar '-' r
  let (d, r) ← readN 2 r 0
  let r ← expectChar 'T' r
  let (h, r) ← readN 2 r 0
  let r ← expectChar ':' r
  let (mi, r) ← readN 2 r 0
  let r ← expectChar ':' r
  let (sec, r) ← readN 2 r 0
  match r with
  | [] => pure ⟨y, mo, d, h, mi, sec, 0⟩
  | '.' :: r2 => do
    let (us, r3) ← readN 6 r2 0
    match r3 with
    | [] => pure ⟨y, mo, d, h, mi, sec, us⟩
    | _ => none
  | _ => none

/-- Lowercase hexadecimal digit character, as `'%x'` formatting
produces. -/
def hexChar (d : Nat) : Char :=
  if d < 10 then Char.ofNat (48 + d) else Char.ofNat (87 + d)

/-- Value of a hexadecimal digit character (`int(c, 16)` semantics for
`0-9a-fA-F`). -/
def hexVal (c : Char) : Nat :=
  if c.isDigit then c.toNat - 48
  else if 'a' ≤ c ∧ c ≤ 'f' then c.toNat - 87
  else c.toNat - 55

/-- Is `c` a hexadecimal digit (`int(_, 16)` accepts it)? -/
def isHexDig (c : Char) : Bool :=
  c.isDigit || ('a' ≤ c && c ≤ 'f') || ('A' ≤ c && c ≤ 'F')

/-- Fuel-driven hexadecimal printer (mirror of `natCharsAux` in base
16). -/
def hexCharsAux : Nat → Nat → Text → Text
  | 0, _, acc => acc
  | fuel + 1, n, acc =>
    let c := hexChar (n % 16)
    if n / 16 = 0 then c :: acc else hexCharsAux fuel (n / 16) (c :: acc)

/-- Hexadecimal representation of `n` (`'%x' % n`). -/
def hexChars (n : Nat) : Text :=
  hexCharsAux (n + 1) n []

/-- `'%032x' % n` — the 32-digit zero-padded hex of a UUID value. -/
def hex32 (n : Nat) : Text :=
  List.replicate (32 - (hexChars n).length) '0' ++ hexChars n

/-- `str(uuid)`: the canonical 8-4-4-4-12 dashed lowercase form of the
128-bit value. -/
def uuidStr (n : Nat) : Text :=
  (hex32 n).take 8 ++ ['-'] ++ ((hex32 n).drop 8).take 4 ++ ['-'] ++
    ((hex32 n).drop 12).take 4 ++ ['-'] ++ ((hex32 n).drop 16).take 4 ++
    ['-'] ++ (hex32 n).drop 20

/-- `uuid.UUID(hex_string)` on canonical input: the constructor removes
the dashes, requires 32 hex digits and parses them as the 128-bit
integer value (a `ValueError` becomes `none`). -/
def uuidParse (s : Text) : Option Nat :=
  let h := s.filter fun c => c != '-'
  if h.length = 32 ∧ (∀ c ∈ h, isHexDig c = true) then
    some (h.foldl (fun a c => 16 * a + hexVal c) 0)
  else none

/-- `models.Message` (role, content, timestamp). -/
structure Message where
  role : MessageRole
  content : Text
  timestamp : PyDateTime
deriving DecidableEq, Repr

/-- The dict produced by `Message.to_dict` (fixed keys `role`,
`content`, `timestamp`). -/
structure MsgDict where
  role : Text
  content : Text
  timestamp : Text
deriving DecidableEq, Repr

/-- `Message.to_dict`. -/
def Message.to_dict (m : Message) : MsgDict :=
  ⟨m.role.value, m.content, m.timestamp.isoformat⟩

/-- `Message.from_dict`; parse failures (enum lookup, timestamp parse)
raise in Python and are modelled as `none`. -/
def Message.from_dict (d : MsgDict) : Option Message := do
  let r ← MessageRole.ofValue d.role
  let t ← fromisoformat d.timestamp
  pure ⟨r, d.content, t⟩

/-- `models.CommentThread`; the UUID field is its 128-bit integer
value. -/
structure CommentThread where
  id : Nat
  session_id : Option Text
  selected_text : Text
  initial_comment : Text
  line_start : Int
  line_end : Int
  status : ThreadStatus
  messages : List Message
  error : Option Text
  created_at : PyDateTime
  updated_at : PyDateTime
  last_viewed_at : Option PyDateTime
  awaiting_response : Bool
deriving DecidableEq, Repr

/-- The dict produced by `CommentThread.to_dict` (fixed key set). -/
structure ThreadDict where
  id : Text
  session_id : Option Text
  selected_text : Text
  initial_comment : Text
  line_start : Int
  line_end : Int
  status : Text
  messages : List MsgDict
  error : Option Text
  created_at : Text
  updated_at : Text
  last_viewed_at : Option Text
  awaiting_response : Bool
deriving DecidableEq, Repr

/-- `CommentThread.to_dict`: stringify the id, the enum value, every
message and every timestamp (`last_viewed_at` only when truthy — a
`datetime` object is always truthy). -/
def CommentThread.to_dict (t : CommentThread) : ThreadDict :=
  ⟨uuidStr t.id, t.session_id, t.selected_text, t.initial_comment,
    t.line_start, t.line_end, t.status.value,
    t.messages.map Message.to_dict, t.error, t.created_at.isoformat,
    t.updated_at.isoformat,
    (match t.last_viewed_at with
     | some lv => some lv.isoformat
     | none => none),
    t.awaiting_response⟩

/-- The `last_viewed_at` handling of `CommentThread.from_dict`:
`fromisoformat(last_viewed) if last_viewed else None`, where both a
missing key and an empty string are falsy. -/
def lvParse : Option Text → Option (Option PyDateTime)
  | none => some none
  | some s => if s = [] then some none else (fromisoformat s).map some

/-- `CommentThread.from_dict`. -/
def CommentThread.from_dict (d : ThreadDict) : Option CommentThread := do
  let i ← uuidParse d.id
  let st ← ThreadStatus.ofValue d.status
  let msgs ← d.messages.mapM Message.from_dict
  let ca ← fromisoformat d.created_at
  let ua ← fromisoformat d.updated_at
  let lv ← lvParse d.last_viewed_at
  pure ⟨i, d.session_id, d.selected_text, d.initial_comment, d.line_start,
    d.line_end, st, msgs, d.error, ca, ua, lv, d.awaiting_response⟩

/-- Well-formedness of a thread value: the UUID value fits in 128 bits
and every timestamp has in-range fields (guaranteed by the `uuid4()` and
`datetime.now()` constructors in the code). -/
def CommentThread.wf (t : CommentThread) : Prop :=
  t.id < 2 ^ 128 ∧ t.created_at.valid ∧ t.updated_at.valid ∧
    (∀ lv, t.last_viewed_at = some lv → lv.valid) ∧
    (∀ m ∈ t.messages, m.timestamp.valid)

instance (t : CommentThread) : Decidable t.wf := by
  unfold CommentThread.wf
  infer_instance

end Models

/-! ## Difflib model: the unified-diff generator used by `FileChange.from_diff` -/

/-- The slice `l[i:k]` of a list (Python slicing with `0 ≤ i ≤ k`). -/
def sliceL (l : List Text) (i k : Nat) : List Text :=
  (l.drop i).take (k - i)

namespace Difflib

/-- Opcode tags of `difflib.SequenceMatcher.get_opcodes`. -/
inductive Tag
  | equal
  | replace
  | delete
  | insert
deriving DecidableEq, Repr

/-- One opcode `(tag, i1, i2, j1, j2)` of `get_opcodes`. -/
structure Opcode where
  tag : Tag
  i1 : Nat
  i2 : Nat
  j1 : Nat
  j2 : Nat
deriving DecidableEq, Repr

/-- Modelled from the spec: the documented contract of
`difflib.SequenceMatcher.get_opcodes` (stdlib code outside this
repository).  `chainSeg a b i j ops e f` states that `ops` tiles `a[i:e]`
against `b[j:f]` contiguously and in order: each opcode starts where the
previous one ended, `equal` opcodes relate identical slices of equal
length, `insert` opcodes consume nothing of `a`, and `delete` opcodes
nothing of `b`. -/
def chainSeg (a b : List Text) : Nat → Nat → List Opcode → Nat → Nat → Bool
  | i, j, [], e, f => decide (i = e) && decide (j = f)
  | i, j, op :: rest, e, f =>
    decide (op.i1 = i) && decide (op.j1 = j) &&
    decide (i ≤ op.i2) && decide (j ≤ op.j2) &&
    decide (op.i2 ≤ a.length) && decide (op.j2 ≤ b.length) &&
    (decide (op.tag ≠ .equal) ||
      (decide (op.i2 - op.i1 = op.j2 - op.j1) &&
       decide (sliceL a op.i1 op.i2 = sliceL b op.j1 op.j2))) &&
    (decide (op.tag ≠ .insert) || decide (op.i2 = op.i1)) &&
    (decide (op.tag ≠ .delete) || decide (op.j2 = op.j1)) &&
    chainSeg a b op.i2 op.j2 rest e f

/-- The `get_opcodes` contract for a complete opcode list: it tiles all
of `a` against all of `b`. -/
def validOpcodes (a b : List Text) (ops : List Opcode) : Bool :=
  chainSeg a b 0 0 ops a.length b.length

/-- Length of the common prefix of two line lists. -/
def commonPfxLen : List Text → List Text → Nat
  | x :: xs, y :: ys => if x = y then commonPfxLen xs ys + 1 else 0
  | _, _ => 0

/-- Modelled from the spec: `difflib.SequenceMatcher`'s matching
algorithm is stdlib code outside this repository, and `from_diff` relies
only on the `validOpcodes` contract of its output.  This executable
matcher — longest common prefix, longest disjoint common suffix, one
replace/delete/insert opcode in between — satisfies that contract and
stands in for the stdlib matcher in concrete evaluations; the round-trip
theorem quantifies over every opcode list satisfying the contract, hence
also over the stdlib matcher's actual output. -/
def getOpcodes (a b : List Text) : List Opcode :=
  let p := commonPfxLen a b
  let q := commonPfxLen (a.drop p).reverse (b.drop p).reverse
  let e := a.length - q
  let f := b.length - q
  (if 0 < p then [⟨.equal, 0, p, 0, p⟩] else []) ++
  (if p < e ∧ p < f then [⟨.replace, p, e, p, f⟩]
   else if p < e then [⟨.delete, p, e, p, p⟩]
   else if p < f then [⟨.insert, p, p, p, f⟩]
   else []) ++
  (if 0 < q then [⟨.equal, e, a.length, f, b.length⟩] else [])

/-- `difflib.SequenceMatcher.get_grouped_opcodes`, head fixup: if the
first opcode is `equal`, keep only its last `n` lines of context. -/
def fixHead (n : Nat) : List Opcode → List Opcode
  | [] => []
  | op :: rest =>
    if op.tag = .equal then
      ⟨op.tag, max op.i1 (op.i2 - n), op.i2, max op.j1 (op.j2 - n), op.j2⟩ :: rest
    else op :: rest

/-- `get_grouped_opcodes`, tail fixup: if the last opcode is `equal`,
keep only its first `n` lines of context. -/
def fixLast (n : Nat) : List Opcode → List Opcode
  | [] => []
  | [op] =>
    if op.tag = .equal then
      [⟨op.tag, op.i1, min op.i2 (op.i1 + n), op.j1, min op.j2 (op.j1 + n)⟩]
    else [op]
  | op :: rest => op :: fixLast n rest

/-- The grouping loop of `get_grouped_opcodes`: walk the opcodes keeping
the current group (accumulated in reverse); an `equal` opcode spanning
more than `2n` lines ends the current group (padded with `n` trailing
context lines) and starts the next (with `n` leading context lines); at
the end the last group is emitted unless it is a single `equal` opcode. -/
def groupLoop (n : Nat) : List Opcode → List Opcode → List (List Opcode)
  | [], group =>
    match group with
    | [] => []
    | [op] => if op.tag = .equal then [] else [[op]]
    | _ => [group.reverse]
  | op :: rest, group =>
    if op.tag = .equal ∧ op.i2 - op.i1 > n + n then
      (⟨.equal, op.i1, min op.i2 (op.i1 + n), op.j1, min op.j2 (op.j1 + n)⟩ :: group).reverse ::
        groupLoop n rest [⟨.equal, max op.i1 (op.i2 - n), op.i2, max op.j1 (op.j2 - n), op.j2⟩]
    else
      groupLoop n rest (op :: group)

/-- `difflib.SequenceMatcher.get_grouped_opcodes(n)` applied to an
opcode list: substitute a unit `equal` opcode when the list is empty, fix
up the leading and trailing context, and run the grouping loop. -/
def getGroupedOpcodes (n : Nat) (codes : List Opcode) : List (List Opcode) :=
  let codes := if codes = [] then [⟨.equal, 0, 1, 0, 1⟩] else codes
  groupLoop n (fixLast n (fixHead n codes)) []

/-- `difflib._format_range_unified`: `start+1` alone for a length-1
range, otherwise `beginning,length` with `beginning` not incremented for
an empty range. -/
def formatRangeUnified (start stop : Nat) : Text :=
  let beginning := start + 1
  let length := stop - start
  if length = 1 then natChars beginning
  else natChars (if length = 0 then beginning - 1 else beginning) ++ ',' :: natChars length

/-- The body lines `difflib.unified_diff` emits for one opcode: context
lines prefixed `' '` for `equal`, removed lines prefixed `'-'` for
`replace`/`delete`, added lines prefixed `'+'` for `replace`/`insert`. -/
def opLines (a b : List Text) (op : Opcode) : List Text :=
  match op.tag with
  | .equal => (sliceL a op.i1 op.i2).map (fun l => ' ' :: l)
  | .replace =>
    (sliceL a op.i1 op.i2).map (fun l => '-' :: l) ++
      (sliceL b op.j1 op.j2).map (fun l => '+' :: l)
  | .delete => (sliceL a op.i1 op.i2).map (fun l => '-' :: l)
  | .insert => (sliceL b op.j1 op.j2).map (fun l => '+' :: l)

/-- The `@@ -r1 +r2 @@` header `unified_diff` emits for one group,
formatted from the group's first and last opcodes. -/
def groupHeader (group : List Opcode) : Text :=
  match group.head?, group.getLast? with
  | some f, some l =>
    "@@ -".data ++ formatRangeUnified f.i1 l.i2 ++ " +".data ++
      formatRangeUnified f.j1 l.j2 ++ " @@".data
  | _, _ => []

/-- All lines `unified_diff` emits for one group: its header followed by
the per-opcode body lines. -/
def groupElems (a b : List Text) (group : List Opcode) : List Text :=
  groupHeader group :: group.flatMap (opLines a b)

/-- `difflib.unified_diff(a, b, fromfile, tofile, lineterm='')` over
already-grouped opcodes: the two file-header lines (emitted only when at
least one group exists) followed by each group's lines. -/
def unifiedDiffLines (fromfile tofile : Text) (a b : List Text)
    (groups : List (List Opcode)) : List Text :=
  if groups = [] then []
  else
    ("--- ".data ++ fromfile) :: ("+++ ".data ++ tofile) ::
      groups.flatMap (groupElems a b)

end Difflib

namespace WorkspaceManager

/-- `workspace_manager.FileChange`: the fields `from_diff` computes from
the two contents (paths and checksums aside). -/
structure FileChange where
  unified_diff : Text
  lines_added : Nat
  lines_removed : Nat
  lines_modified : Nat
deriving DecidableEq, Repr

/-- `FileChange.from_diff`: `None` when the contents are identical
(sha256 checksum equality is modelled as content equality); otherwise the
unified diff of the two line lists joined with `'\n'`, with added/removed
lines counted over the diff's `'\n'`-split pieces. -/
def FileChange.from_diff (name original new : Text) : Option FileChange :=
  if original = new then none
  else
    let ud := joinNl (Difflib.unifiedDiffLines
      ("original/".data ++ name) ("workspace/".data ++ name)
      (splitLinesKeep original) (splitLinesKeep new)
      (Difflib.getGroupedOpcodes 3
        (Difflib.getOpcodes (splitLinesKeep original) (splitLinesKeep new))))
    let added := ((pySplit ['\n'] ud).filter fun l =>
      leadsWith ['+'] l && !leadsWith ['+', '+', '+'] l).length
    let removed := ((pySplit ['\n'] ud).filter fun l =>
      leadsWith ['-'] l && !leadsWith ['-', '-', '-'] l).length
    some ⟨ud, added, removed, min added removed⟩

end WorkspaceManager

namespace MergeCoordinator

/-- One step of `applyDiffAux` on a single piece of the diff (proof
infrastructure: `applyDiffAux` is shown below to be the fold of this step
followed by the final flush of the remaining original lines). -/
def applyStep (origLines : List Text) (st : Nat × List Text) (line : Text) :
    Option (Nat × List Text) :=
  if leadsWith ['@', '@'] line then
    match parseHunkHeader line with
    | some (a, _, _, _) =>
      let oldStart := a - 1
      if oldStart ≤ origLines.length then
        some (max st.1 oldStart,
          ((origLines.drop st.1).take (oldStart - st.1)).reverse ++ st.2)
      else if st.1 < oldStart then none
      else some st
    | none => some st
  else if leadsWith ['+'] line && !leadsWith ['+', '+', '+'] line then
    some (st.1, (line.drop 1 ++ ['\n']) :: st.2)
  else if leadsWith ['-'] line && !leadsWith ['-', '-', '-'] line then
    some (st.1 + 1, st.2)
  else if leadsWith [' '] line then
    if st.1 < origLines.length then
      some (st.1 + 1, origLines.getD st.1 [] :: st.2)
    else some st
  else some st

/-- Fold of `applyStep` over a list of diff pieces. -/
def applySteps (origLines : List Text) : List Text → Nat × List Text → Option (Nat × List Text)
  | [], st => some st
  | p :: ps, st => (applyStep origLines st p).bind (applySteps origLines ps)

/-- A line of text keeps its trailing newline, or gains one: the form in
which `_apply_diff_manual` re-emits added lines. -/
def nlT (l : Text) : Text :=
  if l.getLast? = some '\n' then l else l ++ ['\n']

/-- Invariant of the applier's accumulated output while walking a diff of
`b`: the flattened output equals the flattened first `j` lines of `b`,
or — once an unterminated final line of `b` has been re-emitted with a
forced newline — all of `b` plus one trailing `'\n'`. -/
def ContentInv (b : List Text) (j : Nat) (acc : List Text) : Prop :=
  acc.reverse.flatten = (b.take j).flatten ∨
    (j = b.length ∧ acc.reverse.flatten = b.flatten ++ ['\n'])

/-- The per-group invariant the applier needs of grouped opcodes:
each group is a contiguous valid chain, consecutive groups are separated
by gaps on which `a` and `b` agree (as are the text's head before the
first group and tail after the last), and any group whose header would
use the short or empty range form starts exactly at the current
position. -/
def groupsOk (a b : List Text) : Nat → Nat → List (List Difflib.Opcode) → Prop
  | i, j, [] => a.drop i = b.drop j
  | i, j, g :: gs =>
    ∃ f l, g.head? = some f ∧ g.getLast? = some l ∧
      i ≤ f.i1 ∧ j ≤ f.j1 ∧ f.i1 ≤ a.length ∧ f.j1 ≤ b.length ∧
      sliceL a i f.i1 = sliceL b j f.j1 ∧
      Difflib.chainSeg a b f.i1 f.j1 g l.i2 l.j2 = true ∧
      ((l.i2 - f.i1 ≤ 1 ∨ l.j2 - f.j1 ≤ 1) → f.i1 = i) ∧
      groupsOk a b l.i2 l.j2 gs

end MergeCoordinator

/-! ## Association-list and store lemmas -/

theorem Metadata.get_set_self (md : Metadata) (k : Text) (v : MetaVal) :
    (md.set k v).get k = some v := by
  induction md with
  | nil => simp [Metadata.set, Metadata.get]
  | cons kv t ih =>
    obtain ⟨k₀, v₀⟩ := kv
    by_cases hk : k₀ = k
    · simp [Metadata.set, Metadata.get, hk]
    · simp [Metadata.set, Metadata.get, hk, ih]

theorem Metadata.get_set_ne (md : Metadata) (k k' : Text) (v : MetaVal)
    (h : k ≠ k') : (md.set k v).get k' = md.get k' := by
  induction md with
  | nil => simp [Metadata.set, Metadata.get, h]
  | cons kv t ih =>
    obtain ⟨k₀, v₀⟩ := kv
    by_cases hk : k₀ = k
    · subst hk
      simp [Metadata.set, Metadata.get, h]
    · by_cases hk' : k₀ = k'
      · simp [Metadata.set, Metadata.get, hk, hk', Ne.symm h]
      · simp [Metadata.set, Metadata.get, hk, hk', ih]

theorem FileSys.read_write (fs : FileSys) (p q c : Text) :
    (fs.write p c).read q = if p = q then some c else fs.read q := by
  induction fs with
  | nil =>
    simp only [FileSys.write, FileSys.read]
  | cons pc t ih =>
    obtain ⟨p₀, c₀⟩ := pc
    by_cases hp : p₀ = p
    · subst hp
      by_cases hq : p₀ = q
      · simp [FileSys.write, FileSys.read, hq]
      · simp [FileSys.write, FileSys.read, hq]
    · by_cases hq : p₀ = q
      · subst hq
        have : p ≠ p₀ := fun h => hp h.symm
        simp [FileSys.write, FileSys.read, hp, this]
      · simp [FileSys.write, FileSys.read, hp, hq, ih]

/-! ## String-scanning lemmas (Python split / strip / `in`) -/

theorem leadsWith_append_self (p t : Text) : leadsWith p (p ++ t) = true := by
  induction p with
  | nil => rfl
  | cons c p ih => simp [leadsWith, ih]

theorem leadsWith_take (p s : Text) (m : Nat) (h : leadsWith p s = true)
    (hm : p.length ≤ m) : leadsWith p (s.take m) = true := by
  induction p generalizing s m with
  | nil => rfl
  | cons c p ih =>
    cases s with
    | nil => simp [leadsWith] at h
    | cons d s =>
      cases m with
      | zero => simp at hm
      | succ m =>
        simp only [leadsWith, Bool.and_eq_true, decide_eq_true_eq] at h
        simp only [List.take, leadsWith, Bool.and_eq_true, decide_eq_true_eq]
        exact ⟨h.1, ih s m h.2 (Nat.succ_le_succ_iff.mp hm)⟩

theorem containsSub_of_leadsWith (sep s : Text) (h : leadsWith sep s = true) :
    containsSub sep s = true := by
  cases s with
  | nil => exact h
  | cons c t => simp [containsSub, h]

theorem containsSub_append_mid (sep a b : Text) :
    containsSub sep (a ++ sep ++ b) = true := by
  induction a with
  | nil =>
    exact containsSub_of_leadsWith _ _ (leadsWith_append_self sep b)
  | cons c a ih =>
    simp only [containsSub, List.cons_append, Bool.or_eq_true]
    right
    simpa using ih

theorem containsSub_singleton_eq_false (c : Char) (s : Text) (h : c ∉ s) :
    containsSub [c] s = false := by
  induction s with
  | nil => rfl
  | cons d t ih =>
    simp only [List.mem_cons, not_or] at h
    simp [containsSub, leadsWith, h.1, ih h.2]

theorem dropLast_cons_ne_nil (c : Char) (l : Text) (h : l ≠ []) :
    (c :: l).dropLast = c :: l.dropLast := by
  cases l with
  | nil => exact absurd rfl h
  | cons x xs => rfl

theorem dropLast_append_ne_nil (x y : Text) (h : y ≠ []) :
    (x ++ y).dropLast = x ++ y.dropLast := by
  induction x with
  | nil => rfl
  | cons c x ih =>
    have hx : x ++ y ≠ [] := by
      cases x <;> simp [h]
    simp only [List.cons_append, dropLast_cons_ne_nil _ _ hx, ih]

theorem pySplitAux_skip (sep : Text) (u rest acc : Text) :
    pySplitAux sep (u ++ rest) u.length acc = pySplitAux sep rest 0 acc := by
  induction u with
  | nil => rfl
  | cons c u ih => simpa [pySplitAux] using ih

theorem pySplitAux_no_occurrence (sep s acc : Text)
    (h : containsSub sep s = false) :
    pySplitAux sep s 0 acc = [acc.reverse ++ s] := by
  induction s generalizing acc with
  | nil => simp [pySplitAux]
  | cons c t ih =>
    simp only [containsSub, Bool.or_eq_false_iff] at h
    simp only [pySplitAux, h.1, Bool.false_eq_true, if_false, ih _ h.2,
      List.reverse_cons, List.append_assoc, List.cons_append, List.nil_append]

theorem leadsWith_imp_containsSub_dropLast (sep a b : Text) (ha : a ≠ [])
    (h : leadsWith sep (a ++ sep ++ b) = true) :
    containsSub sep ((a ++ sep).dropLast) = true := by
  have hlen : sep.length ≤ (a ++ sep).length - 1 := by
    have : 1 ≤ a.length := by
      cases a with
      | nil => exact absurd rfl ha
      | cons _ _ => simp
    simp only [List.length_append]
    omega
  have htake : leadsWith sep ((a ++ sep ++ b).take ((a ++ sep).length - 1)) = true :=
    leadsWith_take _ _ _ h hlen
  have heq : (a ++ sep ++ b).take ((a ++ sep).length - 1) = (a ++ sep).dropLast := by
    rw [List.dropLast_eq_take]
    rw [List.append_assoc] at htake ⊢
    rw [← List.append_assoc]
    exact List.take_append_of_le_length (by omega)
  rw [heq] at htake
  exact containsSub_of_leadsWith _ _ htake

theorem pySplitAux_boundary (sep a b acc : Text) (hsep : sep ≠ [])
    (h : containsSub sep ((a ++ sep).dropLast) = false) :
    pySplitAux sep (a ++ sep ++ b) 0 acc = (acc.reverse ++ a) :: pySplit sep b := by
  induction a generalizing acc with
  | nil =>
    cases sep with
    | nil => exact absurd rfl hsep
    | cons c sep' =>
      have hlw : leadsWith (c :: sep') ((c :: sep') ++ b) = true :=
        leadsWith_append_self _ _
      simp only [List.nil_append, List.cons_append] at hlw ⊢
      simp only [pySplitAux, hlw, if_true, List.length_cons,
        Nat.add_sub_cancel]
      have := pySplitAux_skip (c :: sep') sep' b []
      rw [this]
      simp [pySplit, List.append_nil]
  | cons c a ih =>
    have hrest : containsSub sep ((a ++ sep).dropLast) = false := by
      have hne : a ++ sep ≠ [] := by
        cases a <;> simp [hsep]
      rw [List.cons_append, dropLast_cons_ne_nil _ _ hne] at h
      simp only [containsSub, Bool.or_eq_false_iff] at h
      exact h.2
    have hstep : (c :: a) ++ sep ++ b = c :: (a ++ sep ++ b) := by simp
    rw [hstep]
    cases hlw : leadsWith sep (c :: (a ++ sep ++ b)) with
    | true =>
      have hlw' : leadsWith sep ((c :: a) ++ sep ++ b) = true := by
        rw [hstep]; exact hlw
      have hcs := leadsWith_imp_containsSub_dropLast sep (c :: a) b (by simp) hlw'
      rw [hcs] at h
      exact Bool.noConfusion h
    | false =>
      simp only [pySplitAux, hlw, Bool.false_eq_true, if_false]
      rw [ih (c :: acc) hrest]
      simp

theorem pySplit_boundary (sep a b : Text) (hsep : sep ≠ [])
    (h : containsSub sep ((a ++ sep).dropLast) = false) :
    pySplit sep (a ++ sep ++ b) = a :: pySplit sep b := by
  have := pySplitAux_boundary sep a b [] hsep h
  simpa [pySplit] using this

theorem pySplit_no_occurrence (sep s : Text) (h : containsSub sep s = false) :
    pySplit sep s = [s] := by
  have := pySplitAux_no_occurrence sep s [] h
  simpa [pySplit] using this

theorem getLast?_append_right (x y : Text) (h : y ≠ []) :
    (x ++ y).getLast? = y.getLast? := by
  rw [← List.head?_reverse, ← List.head?_reverse, List.reverse_append]
  cases hy : y.reverse with
  | nil =>
    have : y = [] := by simpa using congrArg List.reverse hy
    exact absurd this h
  | cons d r => simp

theorem mem_of_getLast? (l : Text) (c : Char) (h : l.getLast? = some c) :
    c ∈ l := by
  induction l with
  | nil => exact Option.noConfusion h
  | cons a t ih =>
    cases t with
    | nil =>
      have : a = c := by simpa using h
      rw [this]
      exact List.mem_cons_self _ _
    | cons b u =>
      have h' : (b :: u).getLast? = some c := by simpa using h
      exact List.mem_cons_of_mem _ (ih h')

theorem stripPy_eq_self (s : Text)
    (h1 : ∀ c, s.head? = some c → isPySpace c = false)
    (h2 : ∀ c, s.getLast? = some c → isPySpace c = false) :
    stripPy s = s := by
  cases s with
  | nil => rfl
  | cons c t =>
    have hc : isPySpace c = false := h1 c rfl
    unfold stripPy
    rw [List.dropWhile_cons, hc]
    simp only [Bool.false_eq_true, if_false]
    cases hrev : (c :: t).reverse with
    | nil =>
      have : (c :: t).reverse ≠ [] := by simp
      exact absurd hrev this
    | cons d r =>
      have hd : (c :: t).getLast? = some d := by
        rw [← List.head?_reverse, hrev]
        rfl
      rw [List.dropWhile_cons, h2 d hd]
      simp only [Bool.false_eq_true, if_false]
      rw [← hrev, List.reverse_reverse]

/-! ## Decimal printing and parsing lemmas -/

theorem digChar_isDigit (d : Nat) (h : d < 10) : (digChar d).isDigit = true := by
  interval_cases d <;> decide

theorem digChar_toNat (d : Nat) (h : d < 10) : (digChar d).toNat = 48 + d := by
  interval_cases d <;> decide

theorem natCharsAux_acc (fuel : Nat) : ∀ (n : Nat) (acc : Text),
    natCharsAux fuel n acc = natCharsAux fuel n [] ++ acc := by
  induction fuel with
  | zero => intro n acc; simp [natCharsAux]
  | succ f ih =>
    intro n acc
    simp only [natCharsAux]
    by_cases h0 : n / 10 = 0
    · simp [h0]
    · rw [if_neg h0, if_neg h0, ih (n / 10) (digChar (n % 10) :: acc),
        ih (n / 10) [digChar (n % 10)]]
      simp

theorem natCharsAux_fuel (n : Nat) : ∀ f g : Nat, n < 10 ^ (f + 1) →
    n < 10 ^ (g + 1) → natCharsAux (f + 1) n [] = natCharsAux (g + 1) n [] := by
  induction n using Nat.strong_induction_on with
  | _ n ih =>
    intro f g hf hg
    simp only [natCharsAux]
    by_cases h0 : n / 10 = 0
    · simp [h0]
    · rw [if_neg h0, if_neg h0]
      have hn10 : 10 ≤ n := by
        by_contra hlt
        push_neg at hlt
        exact h0 (Nat.div_eq_of_lt hlt)
      obtain ⟨f', rfl⟩ : ∃ f', f = f' + 1 := by
        cases f with
        | zero => exfalso; simp at hf; omega
        | succ f' => exact ⟨f', rfl⟩
      obtain ⟨g', rfl⟩ : ∃ g', g = g' + 1 := by
        cases g with
        | zero => exfalso; simp at hg; omega
        | succ g' => exact ⟨g', rfl⟩
      have hdivf : n / 10 < 10 ^ (f' + 1) := by
        rw [Nat.div_lt_iff_lt_mul (by norm_num)]
        have hp : 10 ^ (f' + 1) * 10 = 10 ^ (f' + 2) := by ring
        omega
      have hdivg : n / 10 < 10 ^ (g' + 1) := by
        rw [Nat.div_lt_iff_lt_mul (by norm_num)]
        have hp : 10 ^ (g' + 1) * 10 = 10 ^ (g' + 2) := by ring
        omega
      rw [natCharsAux_acc (f' + 1) (n / 10) [digChar (n % 10)],
        natCharsAux_acc (g' + 1) (n / 10) [digChar (n % 10)]]
      rw [ih (n / 10) (Nat.div_lt_self (by omega) (by norm_num)) f' g' hdivf hdivg]

theorem natChars_eq (n : Nat) :
    natChars n = if n < 10 then [digChar (n % 10)]
      else natChars (n / 10) ++ [digChar (n % 10)] := by
  by_cases h : n < 10
  · have h0 : n / 10 = 0 := Nat.div_eq_of_lt h
    simp [natChars, natCharsAux, h0, h]
  · have h0 : ¬ n / 10 = 0 := by
      intro hc
      rw [Nat.div_eq_zero_iff (by norm_num)] at hc
      exact h hc
    rw [if_neg h]
    show natCharsAux (n + 1) n [] = _
    rw [show n + 1 = n + 1 from rfl]
    simp only [natCharsAux, if_neg h0]
    rw [natCharsAux_acc n (n / 10) [digChar (n % 10)]]
    congr 1
    obtain ⟨m, rfl⟩ : ∃ m, n = m + 1 := ⟨n - 1, by omega⟩
    show natCharsAux (m + 1) ((m + 1) / 10) [] =
      natCharsAux ((m + 1) / 10 + 1) ((m + 1) / 10) []
    by_cases hm0 : m = 0
    · subst hm0; simp at h
    apply natCharsAux_fuel
    · have h1 : (m + 1) / 10 < m + 1 := Nat.div_lt_self (by omega) (by norm_num)
      have h2 : m + 1 ≤ 10 ^ (m + 1) := by
        have := Nat.lt_pow_self (show 1 < 10 by norm_num) (m + 1)
        omega
      have h3 : 10 ^ (m + 1) ≤ 10 ^ (m + 1) := le_refl _
      have h4 : (m + 1) / 10 < 10 ^ m := by
        have h5 : m < 10 ^ m := Nat.lt_pow_self (by norm_num) m
        omega
      have h6 : (10 : Nat) ^ m ≤ 10 ^ (m + 1) :=
        Nat.pow_le_pow_right (by norm_num) (by omega)
      omega
    · have h5 : (m + 1) / 10 < 10 ^ ((m + 1) / 10) :=
        Nat.lt_pow_self (by norm_num) _
      have h6 : (10 : Nat) ^ ((m + 1) / 10) ≤ 10 ^ ((m + 1) / 10 + 1) :=
        Nat.pow_le_pow_right (by norm_num) (by omega)
      omega

theorem natChars_all_digit (n : Nat) : ∀ x ∈ natChars n, x.isDigit = true := by
  induction n using Nat.strong_induction_on with
  | _ n ih =>
    intro x hx
    rw [natChars_eq] at hx
    by_cases h : n < 10
    · rw [if_pos h] at hx
      simp only [List.mem_singleton] at hx
      rw [hx]
      exact digChar_isDigit _ (Nat.mod_lt _ (by norm_num))
    · rw [if_neg h, List.mem_append] at hx
      cases hx with
      | inl hx =>
        exact ih (n / 10) (Nat.div_lt_self (by omega) (by norm_num)) x hx
      | inr hx =>
        simp only [List.mem_singleton] at hx
        rw [hx]
        exact digChar_isDigit _ (Nat.mod_lt _ (by norm_num))

theorem natChars_ne_nil (n : Nat) : natChars n ≠ [] := by
  rw [natChars_eq]
  by_cases h : n < 10
  · simp [h]
  · simp [h]

theorem digitsVal_natChars (n : Nat) : digitsVal (natChars n) = n := by
  induction n using Nat.strong_induction_on with
  | _ n ih =>
    rw [natChars_eq]
    by_cases h : n < 10
    · rw [if_pos h]
      simp only [digitsVal, List.foldl_cons, List.foldl_nil, valStep,
        digChar_toNat _ (Nat.mod_lt _ (by norm_num))]
      omega
    · rw [if_neg h]
      have hv := ih (n / 10) (Nat.div_lt_self (by omega) (by norm_num))
      simp only [digitsVal] at hv ⊢
      rw [List.foldl_append, hv]
      simp only [List.foldl_cons, List.foldl_nil, valStep,
        digChar_toNat _ (Nat.mod_lt _ (by norm_num))]
      omega

theorem natChars_length_le (n : Nat) : ∀ w : Nat, 0 < w → n < 10 ^ w →
    (natChars n).length ≤ w := by
  induction n using Nat.strong_induction_on with
  | _ n ih =>
    intro w hw h
    rw [natChars_eq]
    by_cases hlt : n < 10
    · rw [if_pos hlt]
      simpa using hw
    · rw [if_neg hlt, List.length_append]
      simp only [List.length_cons, List.length_nil]
      have hw2 : 2 ≤ w := by
        by_contra hc
        push_neg at hc
        have hw1 : w = 1 := by omega
        rw [hw1] at h
        simp at h
        omega
      have hdiv : n / 10 < 10 ^ (w - 1) := by
        rw [Nat.div_lt_iff_lt_mul (by norm_num)]
        have hp : 10 ^ (w - 1) * 10 = 10 ^ w := by
          rw [← pow_succ]
          congr 1
          omega
        omega
      have := ih (n / 10) (Nat.div_lt_self (by omega) (by norm_num))
        (w - 1) (by omega) hdiv
      omega

theorem takeWhile_app (p : Char → Bool) (ds : Text) (y : Char) (rest : Text)
    (hds : ∀ x ∈ ds, p x = true) (hy : p y = false) :
    (ds ++ y :: rest).takeWhile p = ds := by
  induction ds with
  | nil => simp [List.takeWhile_cons, hy]
  | cons x t ih =>
    have hx : p x = true := hds x (List.mem_cons_self _ _)
    simp only [List.cons_append, List.takeWhile_cons, hx, if_true]
    rw [ih fun z hz => hds z (List.mem_cons_of_mem _ hz)]

theorem dropWhile_app (p : Char → Bool) (ds : Text) (y : Char) (rest : Text)
    (hds : ∀ x ∈ ds, p x = true) (hy : p y = false) :
    (ds ++ y :: rest).dropWhile p = y :: rest := by
  induction ds with
  | nil => simp [List.dropWhile_cons, hy]
  | cons x t ih =>
    have hx : p x = true := hds x (List.mem_cons_self _ _)
    simp only [List.cons_append, List.dropWhile_cons, hx, if_true]
    exact ih fun z hz => hds z (List.mem_cons_of_mem _ hz)

theorem guard_pos {p : Prop} [Decidable p] (hp : p) :
    (guard p : Option Unit) = some () := by
  simp [guard, hp]

theorem expectChar_cons_self (ch : Char) (t : Text) :
    expectChar ch (ch :: t) = some t := by
  simp [expectChar]

/-! ## Claim C2: conflict severity -/

namespace MergeCoordinator

theorem maxSeverity_cons (p : LineRange × LineRange)
    (l : List (LineRange × LineRange)) :
    maxSeverity (p :: l) = sevMax (pairSeverity p) (maxSeverity l) := rfl

theorem sevMax_blocking_left (x : ConflictSeverity) :
    sevMax .blocking x = .blocking := by cases x <;> rfl

theorem sevMax_minor_left (x : ConflictSeverity) : sevMax .minor x = x := by
  cases x <;> rfl

/-- Claim C2 counterexample: a list of genuinely overlapping pairs on
which `_assess_severity` answers MAJOR although the maximum per-pair
severity is BLOCKING — the first pair overlaps by more than 5 lines and
triggers the early MAJOR return before the identical second pair is
inspected. -/
theorem assessSeverity_not_max_cex :
    assessSeverity
        [(⟨"doc.md".data, 1, 10⟩, ⟨"doc.md".data, 3, 20⟩),
         (⟨"doc.md".data, 1, 5⟩, ⟨"doc.md".data, 1, 5⟩)] = .major ∧
      maxSeverity
        [(⟨"doc.md".data, 1, 10⟩, ⟨"doc.md".data, 3, 20⟩),
         (⟨"doc.md".data, 1, 5⟩, ⟨"doc.md".data, 1, 5⟩)] = .blocking ∧
      LineRange.overlaps ⟨"doc.md".data, 1, 10⟩ ⟨"doc.md".data, 3, 20⟩ = true ∧
      LineRange.overlaps ⟨"doc.md".data, 1, 5⟩ ⟨"doc.md".data, 1, 5⟩ = true := by
  decide

/-- Claim C2 (amended): `_assess_severity` returns the severity of the
first pair in list order that rates BLOCKING (identical `(start, end)`)
or MAJOR (`min(ends) - max(starts) > 5`), and MINOR when no pair rates;
this equals the maximum severity over all pairs except that it may
return MAJOR when a MAJOR-rated pair precedes every BLOCKING-rated
pair. -/
theorem assessSeverity_eq_max_or_early_major
    (ranges : List (LineRange × LineRange)) :
    assessSeverity ranges = maxSeverity ranges ∨
      (assessSeverity ranges = .major ∧ maxSeverity ranges = .blocking) := by
  induction ranges with
  | nil => exact Or.inl rfl
  | cons p rest ih =>
    obtain ⟨a, b⟩ := p
    by_cases h1 : a.start_line = b.start_line ∧ a.end_line = b.end_line
    · left
      have ha : assessSeverity ((a, b) :: rest) = .blocking := by
        simp [assessSeverity, h1]
      have hp : pairSeverity (a, b) = .blocking := by
        simp [pairSeverity, h1]
      rw [ha, maxSeverity_cons, hp, sevMax_blocking_left]
    · by_cases h2 : min a.end_line b.end_line - max a.start_line b.start_line > 5
      · have ha : assessSeverity ((a, b) :: rest) = .major := by
          simp [assessSeverity, h1, h2]
        have hp : pairSeverity (a, b) = .major := by
          simp [pairSeverity, h1, h2]
        rw [ha, maxSeverity_cons, hp]
        cases hm : maxSeverity rest <;> decide
      · have ha : assessSeverity ((a, b) :: rest) = assessSeverity rest := by
          simp [assessSeverity, h1, h2]
        have hp : pairSeverity (a, b) = .minor := by
          simp [pairSeverity, h1, h2]
        rw [ha, maxSeverity_cons, hp, sevMax_minor_left]
        exact ih

end MergeCoordinator

/-! ## Claim C4: hunk ranges and the overlap key -/

namespace MergeCoordinator

theorem mkHunkHeader_form (a b c d : Nat) :
    mkHunkHeader a b c d =
      '@' :: '@' :: ' ' :: '-' ::
        (natChars a ++ ',' :: (natChars b ++ ' ' :: '+' ::
          (natChars c ++ ',' :: (natChars d ++ [' ', '@', '@'])))) := by
  simp [mkHunkHeader, List.append_assoc]

theorem parseHunkHeader_generic (A B C D : Text)
    (hA : ∀ x ∈ A, x.isDigit = true) (hA0 : A ≠ [])
    (hB : ∀ x ∈ B, x.isDigit = true) (hB0 : B ≠ [])
    (hC : ∀ x ∈ C, x.isDigit = true) (hC0 : C ≠ [])
    (hD : ∀ x ∈ D, x.isDigit = true) (hD0 : D ≠ []) :
    parseHunkHeader ('@' :: '@' :: ' ' :: '-' ::
        (A ++ ',' :: (B ++ ' ' :: '+' :: (C ++ ',' :: (D ++ [' ', '@', '@']))))) =
      some (digitsVal A, digitsVal B, digitsVal C, digitsVal D) := by
  have e1 := takeWhile_app Char.isDigit A ','
    (B ++ ' ' :: '+' :: (C ++ ',' :: (D ++ [' ', '@', '@']))) hA (by decide)
  have e2 := dropWhile_app Char.isDigit A ','
    (B ++ ' ' :: '+' :: (C ++ ',' :: (D ++ [' ', '@', '@']))) hA (by decide)
  have e3 := takeWhile_app Char.isDigit B ' '
    ('+' :: (C ++ ',' :: (D ++ [' ', '@', '@']))) hB (by decide)
  have e4 := dropWhile_app Char.isDigit B ' '
    ('+' :: (C ++ ',' :: (D ++ [' ', '@', '@']))) hB (by decide)
  have e5 := takeWhile_app Char.isDigit C ',' (D ++ [' ', '@', '@']) hC (by decide)
  have e6 := dropWhile_app Char.isDigit C ',' (D ++ [' ', '@', '@']) hC (by decide)
  have e7 := takeWhile_app Char.isDigit D ' ' ['@', '@'] hD (by decide)
  have e8 := dropWhile_app Char.isDigit D ' ' ['@', '@'] hD (by decide)
  simp only [parseHunkHeader, Bind.bind, Option.bind, expectChar_cons_self,
    e1, e2, e3, e4, e5, e6, e7, e8,
    guard_pos hA0, guard_pos hB0, guard_pos hC0, guard_pos hD0, pure]

theorem parseHunkHeader_mk (a b c d : Nat) :
    parseHunkHeader (mkHunkHeader a b c d) = some (a, b, c, d) := by
  rw [mkHunkHeader_form]
  rw [parseHunkHeader_generic _ _ _ _ (natChars_all_digit a) (natChars_ne_nil a)
    (natChars_all_digit b) (natChars_ne_nil b) (natChars_all_digit c)
    (natChars_ne_nil c) (natChars_all_digit d) (natChars_ne_nil d)]
  rw [digitsVal_natChars, digitsVal_natChars, digitsVal_natChars,
    digitsVal_natChars]

theorem nl_not_mem_mkHunkHeader (a b c d : Nat) :
    '\n' ∉ mkHunkHeader a b c d := by
  have hA : '\n' ∉ natChars a :=
    fun h => absurd (natChars_all_digit a '\n' h) (by decide)
  have hB : '\n' ∉ natChars b :=
    fun h => absurd (natChars_all_digit b '\n' h) (by decide)
  have hC : '\n' ∉ natChars c :=
    fun h => absurd (natChars_all_digit c '\n' h) (by decide)
  have hD : '\n' ∉ natChars d :=
    fun h => absurd (natChars_all_digit d '\n' h) (by decide)
  rw [mkHunkHeader_form]
  simp [hA, hB, hC, hD]

theorem leadsWith_atat_mk (a b c d : Nat) :
    leadsWith ['@', '@'] (mkHunkHeader a b c d) = true := by
  rw [mkHunkHeader_form]
  rfl

theorem pySplit_joinNl (ls : List Text) (h : ∀ l ∈ ls, '\n' ∉ l)
    (hne : ls ≠ []) : pySplit ['\n'] (joinNl ls) = ls := by
  induction ls with
  | nil => exact absurd rfl hne
  | cons l t ih =>
    cases t with
    | nil =>
      exact pySplit_no_occurrence _ _
        (containsSub_singleton_eq_false '\n' l (h l (List.mem_cons_self _ _)))
    | cons l₂ t₂ =>
      have hj : joinNl (l :: l₂ :: t₂) = l ++ ['\n'] ++ joinNl (l₂ :: t₂) := by
        simp [joinNl]
      rw [hj]
      have hcond : containsSub ['\n'] ((l ++ ['\n']).dropLast) = false := by
        rw [dropLast_append_ne_nil _ _ (by simp)]
        simpa using containsSub_singleton_eq_false '\n' l
          (h l (List.mem_cons_self _ _))
      rw [pySplit_boundary ['\n'] l (joinNl (l₂ :: t₂)) (by simp) hcond]
      rw [ih (fun l' h' => h l' (List.mem_cons_of_mem _ h')) (by simp)]

theorem hunks_filterMap (p : Text) (l : List (Nat × Nat × Nat × Nat)) :
    (l.map fun q => mkHunkHeader q.1 q.2.1 q.2.2.1 q.2.2.2).filterMap
        (fun line => if leadsWith ['@', '@'] line then
            (parseHunkHeader line).map fun q =>
              LineRange.mk p (q.2.2.1 : Int) ((q.2.2.1 + q.2.2.2 : Nat) : Int)
          else none) =
      l.map fun q =>
        LineRange.mk p (q.2.2.1 : Int) ((q.2.2.1 + q.2.2.2 : Nat) : Int) := by
  induction l with
  | nil => rfl
  | cons q t ih =>
    simp only [List.map_cons, List.filterMap_cons, leadsWith_atat_mk, if_true,
      parseHunkHeader_mk, Option.map_some']
    rw [ih]

/-- Claim C4 counterexample: two hunks `@@ -1,3 +1,3 @@` and
`@@ -4,3 +4,3 @@` have disjoint half-open new-file ranges `[1,4)` and
`[4,7)` (third conjunct), yet the ranges `_parse_line_ranges` registers
for them are treated by `overlaps` as overlapping. -/
theorem parseLineRanges_touching_hunks_overlap_cex :
    parseLineRanges [("doc.md".data,
        "@@ -1,3 +1,3 @@\n x\n@@ -4,3 +4,3 @@\n y".data)] =
        [⟨"doc.md".data, 1, 4⟩, ⟨"doc.md".data, 4, 7⟩] ∧
      LineRange.overlaps ⟨"doc.md".data, 1, 4⟩ ⟨"doc.md".data, 4, 7⟩ = true ∧
      (∀ n : Int, ¬((1 ≤ n ∧ n < 1 + 3) ∧ (4 ≤ n ∧ n < 4 + 3))) :=
  ⟨by decide, by decide, by intro n; omega⟩

/-- Claim C4 (amended): for every hunk header `@@ -a,b +c,d @@` in a
queued diff, `_parse_line_ranges` registers the range with
`start_line = c` and `end_line = c + d` (one past the last line of the
half-open new-file range `[c, c+d)`), but `overlaps` treats the
registered ranges as *closed* intervals: two registered hunks are
non-overlapping iff `c + d < e` or `c > e + f`, so hunks whose half-open
ranges merely touch (one ending exactly where the other begins) are
treated as overlapping. -/
theorem parseLineRanges_registers_closed_ranges (p : Text)
    (hs : List (Nat × Nat × Nat × Nat)) :
    parseLineRanges [(p, joinNl
          (hs.map fun q => mkHunkHeader q.1 q.2.1 q.2.2.1 q.2.2.2))] =
        (hs.map fun q =>
          LineRange.mk p (q.2.2.1 : Int) ((q.2.2.1 + q.2.2.2 : Nat) : Int)) ∧
      ∀ c d e f : Nat,
        (LineRange.mk p (c : Int) ((c + d : Nat) : Int)).overlaps
            (LineRange.mk p (e : Int) ((e + f : Nat) : Int)) = false ↔
          (((c + d : Nat) : Int) < (e : Int) ∨
            ((c : Nat) : Int) > ((e + f : Nat) : Int)) := by
  constructor
  · cases hs with
    | nil => rfl
    | cons q t =>
      have hnl : ∀ l ∈ ((q :: t).map fun q =>
          mkHunkHeader q.1 q.2.1 q.2.2.1 q.2.2.2), '\n' ∉ l := by
        intro l hl
        rw [List.mem_map] at hl
        obtain ⟨q', _, rfl⟩ := hl
        exact nl_not_mem_mkHunkHeader _ _ _ _
      simp only [parseLineRanges, List.flatMap_cons, List.flatMap_nil,
        List.append_nil]
      rw [pySplit_joinNl _ hnl (by simp)]
      exact hunks_filterMap p (q :: t)
  · intro c d e f
    unfold LineRange.overlaps
    rw [if_neg (show ¬(p ≠ p) from fun h => h rfl)]
    simp only [Bool.not_eq_false', Bool.or_eq_true, decide_eq_true_eq]

end MergeCoordinator

/-! ## Claim C8: workspace directory uniqueness -/

/-- Claim C8 (code bug, failing input): the workspace directory is a pure
function of thread id, message id and the millisecond timestamp, so two
acquisitions with the same thread and message ids in the same
millisecond receive this one identical directory — there is no further
entropy or sequence number in the name. -/
theorem workspaceDir_same_millisecond_collision :
    WorkspaceManager.workspaceDir "t1".data "msg-1".data 1700000000000 =
      "/tmp/harlowe_ws_t1_msg-1_1700000000000".data := by decide

/-! ## Claim C9: revert failure paths and abort -/

namespace GitManager

/-- Claim C9 counterexample: a revert subprocess that fails (non-zero
exit) without conflict markers in its output makes `revert_commit`
return ERROR without ever invoking `git revert --abort`. -/
theorem revertCommit_error_without_abort_cex :
    revertCommit true false ⟨1, "fatal: bad object abc123".data, []⟩ false [] =
      (.res .error, false) := by decide

/-- Claim C9 (amended): `revert_commit` invokes the abort operation
exactly on the CONFLICT path; ERROR and NOT_AVAILABLE returns (and
successful reverts) leave the revert un-aborted. -/
theorem revertCommit_abort_iff_conflict (repo r1 : Bool) (res : ProcResult)
    (r2 : Bool) (h : Text) :
    (revertCommit repo r1 res r2 h).2 = true ↔
      (revertCommit repo r1 res r2 h).1 = .res .conflict := by
  unfold revertCommit
  split_ifs <;> simp

end GitManager

/-! ## Claim C5: commit metadata round-trip -/

theorem leadsWith_take_eq (p s : Text) (h : leadsWith p s = true) :
    s.take p.length = p := by
  induction p generalizing s with
  | nil => simp
  | cons c p ih =>
    cases s with
    | nil => simp [leadsWith] at h
    | cons d s =>
      simp only [leadsWith, Bool.and_eq_true, decide_eq_true_eq] at h
      simp only [List.length_cons, List.take_succ_cons, ih s h.2, h.1]

theorem pySplitAux_consume (sep u w acc : Text)
    (h : ∀ p q, u = p ++ q → q ≠ [] → leadsWith sep (q ++ w) = false) :
    pySplitAux sep (u ++ w) 0 acc = pySplitAux sep w 0 (u.reverse ++ acc) := by
  induction u generalizing acc with
  | nil => simp
  | cons c u ih =>
    have hlw : leadsWith sep (c :: (u ++ w)) = false := by
      have := h [] (c :: u) rfl (by simp)
      simpa using this
    have hrec : ∀ p q, u = p ++ q → q ≠ [] → leadsWith sep (q ++ w) = false := by
      intro p q hpq hqne
      exact h (c :: p) q (by rw [hpq]; rfl) hqne
    simp only [List.cons_append, pySplitAux, List.append_eq, hlw,
      Bool.false_eq_true, if_false]
    rw [ih (c :: acc) hrec]
    simp

theorem pySplitAux_head_acc (sep : Text) (s : Text) : ∀ acc : Text,
    ∃ g, (pySplitAux sep s 0 acc).head? = some (acc.reverse ++ g) := by
  induction s with
  | nil =>
    intro acc
    exact ⟨[], by simp [pySplitAux]⟩
  | cons c t ih =>
    intro acc
    cases hlw : leadsWith sep (c :: t) with
    | true =>
      refine ⟨[], ?_⟩
      simp [pySplitAux, hlw]
    | false =>
      obtain ⟨g, hg⟩ := ih (c :: acc)
      refine ⟨c :: g, ?_⟩
      simp only [pySplitAux, hlw, Bool.false_eq_true, if_false]
      rw [hg]
      simp

theorem pySplit_head_extends (sep u w : Text)
    (h : ∀ p q, u = p ++ q → q ≠ [] → leadsWith sep (q ++ w) = false) :
    ∃ g, (pySplit sep (u ++ w)).head? = some (u ++ g) := by
  unfold pySplit
  rw [pySplitAux_consume sep u w [] h]
  obtain ⟨g, hg⟩ := pySplitAux_head_acc sep w (u.reverse ++ [])
  refine ⟨g, ?_⟩
  simpa using hg

theorem thread_sep_no_overlap (tid w : Text)
    (hsp : ' ' ∉ tid)
    (hsuf : ¬ ("Thread".data <:+ tid)) :
    ∀ p q, tid ++ [' '] = p ++ q → q ≠ [] →
      leadsWith "Thread ".data (q ++ w) = false := by
  intro p q hpq hq
  cases hval : leadsWith "Thread ".data (q ++ w) with
  | false => rfl
  | true =>
    exfalso
    obtain ⟨q0, c, hqe⟩ : ∃ q0 c, q = q0 ++ [c] :=
      ⟨q.dropLast, q.getLast hq, (List.dropLast_append_getLast hq).symm⟩
    rw [hqe] at hpq hval
    have hpq2 : tid ++ [' '] = (p ++ q0) ++ [c] := by
      rw [hpq, List.append_assoc]
    have hinj := List.append_inj' hpq2 (by simp)
    have htid2 : tid = p ++ q0 := hinj.1
    have hc : c = ' ' := by simpa using hinj.2.symm
    subst hc
    have htk0 : ((q0 ++ [' ']) ++ w).take ("Thread ".data.length) =
        "Thread ".data := leadsWith_take_eq _ _ hval
    have h7 : ("Thread ".data).length = 7 := by decide
    rw [h7] at htk0
    rcases Nat.lt_or_ge q0.length 6 with hlt | hge
    · have h1 : ((q0 ++ [' ']) ++ w).take (q0.length + 1) = q0 ++ [' '] := by
        rw [List.take_append_of_le_length (by simp),
          List.take_of_length_le (by simp)]
      have h2 : "Thread ".data.take (q0.length + 1) = q0 ++ [' '] := by
        rw [← htk0, List.take_take,
          show min (q0.length + 1) 7 = q0.length + 1 from by omega, h1]
      have hsp_q : ' ' ∈ "Thread ".data.take (q0.length + 1) := by
        rw [h2]; simp
      rw [show "Thread ".data = "Thread".data ++ [' '] from by decide,
        List.take_append_of_le_length
          (by rw [show ("Thread".data).length = 6 from by decide]; omega)]
        at hsp_q
      have : ' ' ∈ "Thread".data := List.mem_of_mem_take hsp_q
      exact absurd this (by decide)
    · have hql : (q0 ++ [' ']).length = q0.length + 1 := by simp
      rcases Nat.eq_or_lt_of_le hge with heq | hgt
      · have hqthread : q0 ++ [' '] = "Thread ".data := by
          rw [← htk0, List.take_append_of_le_length (by omega),
            List.take_of_length_le (by omega)]
        have hsplitT : q0 ++ [' '] = "Thread".data ++ [' '] := by
          rw [hqthread]; decide
        have hq0T : q0 = "Thread".data := (List.append_inj' hsplitT (by simp)).1
        exact hsuf ⟨p, by rw [← hq0T, ← htid2]⟩
      · have htk7 : q0.take 7 = "Thread ".data := by
          rw [← htk0,
            List.take_append_of_le_length
              (show (7 : Nat) ≤ (q0 ++ [' ']).length from by rw [hql]; omega),
            List.take_append_of_le_length
              (show (7 : Nat) ≤ q0.length from by omega)]
        have hspm : ' ' ∈ q0.take 7 := by
          rw [htk7]; decide
        have hmem : ' ' ∈ q0 := List.mem_of_mem_take hspm
        exact hsp (by rw [htid2]; exact List.mem_append_right p hmem)

namespace GitManager

/-- Claim C5 counterexample: a thread id containing a space does not
round-trip — `commit_merge` embeds `"a b"` in the commit message but
`get_commit_metadata` parses the id back as `"a"` (the parse cuts at the
first space). -/
theorem commit_metadata_roundtrip_cex :
    (getCommitMetadata (commitMsg "a b".data "m".data
        (some "1-2".data))).thread_id = some "a".data ∧
      some "a".data ≠ some "a b".data := by decide

set_option maxHeartbeats 1600000 in
/-- Claim C5 (amended): the commit-metadata round-trip holds under the
side conditions the parse grammar forces — the thread id is non-empty,
whitespace-free, and does not end in `"Thread"` (the parse cuts the id
at the next `"Thread "` occurrence, which a trailing `"Thread"` makes
start inside the id itself); `"Lines: "` occurs neither before the
trailer's own occurrence nor after it; and `lines_affected` is non-empty
and newline-free.  Then parsing the commit message built by
`commit_merge` returns the original `thread_id` and `lines_affected`.
In particular `"Thread "` may recur in the message body — as in the
coordinator's production messages `"Thread {tid} changes"` — without
breaking the parse, since the id is read only up to the first space
after the header's occurrence. -/
theorem commit_metadata_roundtrip (tid msg la : Text)
    (htid : tid ≠ [])
    (hws : ∀ c ∈ tid, isPySpace c = false)
    (hthr : ¬ ("Thread".data <:+ tid))
    (hl1 : containsSub "Lines: ".data
        ("harlowe: ".data ++ "Thread ".data ++ tid ++ " - ".data ++ msg ++ ['\n'] ++
          "Lines:".data) = false)
    (hl2 : containsSub "Lines: ".data
        (la ++ ['\n'] ++ "Message: ".data ++ tid) = false)
    (hla : la ≠ []) (hnl : '\n' ∉ la) :
    (getCommitMetadata (commitMsg tid msg (some la))).thread_id = some tid ∧
      (getCommitMetadata (commitMsg tid msg (some la))).lines_affected =
        some la := by
  have hM : commitMsg tid msg (some la) =
      "harlowe: ".data ++ "Thread ".data ++
        (tid ++ " - ".data ++ msg ++ ['\n'] ++ "Lines: ".data ++ la ++ ['\n'] ++
          "Message: ".data ++ tid) := by
    simp only [commitMsg]
    rw [if_pos hla]
    simp [List.append_assoc]
  have hA : commitMsg tid msg (some la) =
      ("harlowe: ".data ++ "Thread ".data ++ tid ++ " - ".data ++ msg ++
          ['\n']) ++ "Lines: ".data ++
        (la ++ ['\n'] ++ "Message: ".data ++ tid) := by
    rw [hM]
    simp [List.append_assoc]
  have hPrefTid : commitMsg tid msg (some la) =
      ("harlowe: ".data ++ "Thread ".data ++ tid ++ " - ".data ++ msg ++
        ['\n'] ++ "Lines: ".data ++ la ++ ['\n'] ++ "Message: ".data) ++ tid := by
    rw [hM]
    simp [List.append_assoc]
  have hstrip : stripPy (commitMsg tid msg (some la)) =
      commitMsg tid msg (some la) := by
    apply stripPy_eq_self
    · intro c hc
      rw [hM] at hc
      have h2 : ("harlowe: ".data ++ "Thread ".data ++
          (tid ++ " - ".data ++ msg ++ ['\n'] ++ "Lines: ".data ++ la ++ ['\n'] ++
            "Message: ".data ++ tid)).head? = some 'h' := rfl
      rw [h2] at hc
      have hch : c = 'h' := (Option.some.inj hc).symm
      rw [hch]
      decide
    · intro c hc
      rw [hPrefTid, getLast?_append_right _ _ htid] at hc
      exact hws c (mem_of_getLast? _ _ hc)
  have hsp_mem : ' ' ∉ tid := by
    intro hin
    have := hws ' ' hin
    simp [isPySpace] at this
  have hcsT : containsSub "Thread ".data (commitMsg tid msg (some la)) = true := by
    rw [hM]
    exact containsSub_append_mid _ _ _
  have hsplitT : pySplit "Thread ".data (commitMsg tid msg (some la)) =
      "harlowe: ".data ::
        pySplit "Thread ".data
          (tid ++ " - ".data ++ msg ++ ['\n'] ++ "Lines: ".data ++ la ++ ['\n'] ++
            "Message: ".data ++ tid) := by
    rw [hM]
    refine pySplit_boundary _ _ _ ?_ ?_
    · decide
    · decide
  have hRsp : tid ++ " - ".data ++ msg ++ ['\n'] ++ "Lines: ".data ++ la ++
      ['\n'] ++ "Message: ".data ++ tid =
      (tid ++ [' ']) ++ ("- ".data ++ msg ++ ['\n'] ++ "Lines: ".data ++ la ++
        ['\n'] ++ "Message: ".data ++ tid) := by
    simp [List.append_assoc]
  have hTidSp : containsSub [' '] ((tid ++ [' ']).dropLast) = false := by
    rw [dropLast_append_ne_nil _ _ (by simp)]
    simpa using containsSub_singleton_eq_false ' ' tid hsp_mem
  obtain ⟨g, hg⟩ := pySplit_head_extends "Thread ".data (tid ++ [' '])
    ("- ".data ++ msg ++ ['\n'] ++ "Lines: ".data ++ la ++ ['\n'] ++
      "Message: ".data ++ tid)
    (thread_sep_no_overlap tid _ hsp_mem hthr)
  have hTid : parseThreadId (stripPy (commitMsg tid msg (some la))) = some tid := by
    rw [hstrip]
    unfold parseThreadId
    rw [if_pos hcsT, hsplitT]
    simp only [List.drop_succ_cons, List.drop_zero]
    rw [hRsp, hg]
    simp only [Option.some_bind]
    rw [pySplit_boundary [' '] tid g (by simp) hTidSp]
    rfl
  have hcsL : containsSub "Lines: ".data (commitMsg tid msg (some la)) = true := by
    rw [hA]
    exact containsSub_append_mid _ _ _
  have hcondL : containsSub "Lines: ".data
      ((("harlowe: ".data ++ "Thread ".data ++ tid ++ " - ".data ++ msg ++
        ['\n']) ++ "Lines: ".data).dropLast) = false := by
    rw [dropLast_append_ne_nil _ _ (by decide)]
    rw [show ("Lines: ".data.dropLast) = "Lines:".data by decide]
    simpa [List.append_assoc] using hl1
  have hsplitL : pySplit "Lines: ".data (commitMsg tid msg (some la)) =
      ("harlowe: ".data ++ "Thread ".data ++ tid ++ " - ".data ++ msg ++
          ['\n']) ::
        pySplit "Lines: ".data (la ++ ['\n'] ++ "Message: ".data ++ tid) := by
    rw [hA]
    exact pySplit_boundary _ _ _ (by decide) hcondL
  have hsplitL2 : pySplit "Lines: ".data
      (la ++ ['\n'] ++ "Message: ".data ++ tid) =
      [la ++ ['\n'] ++ "Message: ".data ++ tid] :=
    pySplit_no_occurrence _ _ hl2
  have hcondNl : containsSub ['\n'] ((la ++ ['\n']).dropLast) = false := by
    rw [dropLast_append_ne_nil _ _ (by simp)]
    simpa using containsSub_singleton_eq_false '\n' la hnl
  have hBsp : la ++ ['\n'] ++ "Message: ".data ++ tid =
      la ++ ['\n'] ++ ("Message: ".data ++ tid) := by
    simp [List.append_assoc]
  have hLa : parseLinesAffected (stripPy (commitMsg tid msg (some la))) =
      some la := by
    rw [hstrip]
    unfold parseLinesAffected
    rw [if_pos hcsL, hsplitL]
    simp only [List.drop_succ_cons, List.drop_zero]
    rw [hsplitL2]
    simp only [List.head?, Option.some_bind]
    rw [hBsp, pySplit_boundary _ _ _ (by decide) hcondNl]
  exact ⟨hTid, hLa⟩

/-- Witness for the amended Claim C5 theorem at a concrete input shaped
like the merge coordinator's production commits: the human message
`"Thread t1 changes"` itself contains `"Thread "`, and the round-trip
still holds. -/
theorem commit_metadata_roundtrip_witness :
    ("t1".data ≠ ([] : Text)) ∧
      containsSub "Thread ".data "Thread t1 changes".data = true ∧
      (getCommitMetadata (commitMsg "t1".data "Thread t1 changes".data
          (some "10-25".data))).thread_id = some "t1".data ∧
      (getCommitMetadata (commitMsg "t1".data "Thread t1 changes".data
          (some "10-25".data))).lines_affected = some "10-25".data :=
  ⟨by decide, by decide,
    (commit_metadata_roundtrip "t1".data "Thread t1 changes".data "10-25".data
      (by decide) (by decide) (by decide) (by decide) (by decide) (by decide)
      (by decide)).1,
    (commit_metadata_roundtrip "t1".data "Thread t1 changes".data "10-25".data
      (by decide) (by decide) (by decide) (by decide) (by decide) (by decide)
      (by decide)).2⟩

end GitManager

/-! ## Claim C7: the reverted / redo_commit invariant -/

namespace UndoManager

theorem undoStep_get_redo_commit (md : Metadata) (o : UndoOracle) :
    (undoStep md o).get "redo_commit".data = md.get "redo_commit".data := by
  unfold undoStep
  split_ifs <;> try rfl
  cases o.revert with
  | none => rfl
  | some h =>
    rw [Metadata.get_set_ne _ _ _ _ (by decide),
        Metadata.get_set_ne _ _ _ _ (by decide)]

theorem invariantOk_redoStep (md : Metadata) (r : Option Text)
    (h : invariantOk md = true) : invariantOk (redoStep md r) = true := by
  unfold redoStep
  split_ifs <;> try exact h
  cases r with
  | none => exact h
  | some hh =>
    have hrev : Metadata.truthyAt
        ((md.set "reverted".data (.b false)).set "redo_commit".data (.s hh))
        "reverted".data = false := by
      unfold Metadata.truthyAt
      rw [Metadata.get_set_ne _ _ _ _ (by decide), Metadata.get_set_self]
      rfl
    simp [invariantOk, hrev]

theorem runOps_append (md : Metadata) (l₁ l₂ : List UndoOp) :
    runOps md (l₁ ++ l₂) = runOps (runOps md l₁) l₂ := by
  induction l₁ generalizing md with
  | nil => rfl
  | cons op t ih => cases op <;> simp [runOps, ih]

theorem runOps_undos_get_redo_commit (md : Metadata) (us : List UndoOp)
    (hu : ∀ op ∈ us, op.isUndo = true) :
    (runOps md us).get "redo_commit".data = md.get "redo_commit".data := by
  induction us generalizing md with
  | nil => rfl
  | cons op t ih =>
    cases op with
    | undo o =>
      rw [runOps, ih _ fun op' h' => hu op' (List.mem_cons_of_mem _ h'),
          undoStep_get_redo_commit]
    | redo r =>
      have := hu (.redo r) (List.mem_cons_self _ _)
      simp [UndoOp.isUndo] at this

theorem invariantOk_runOps_redos (md : Metadata) (rs : List UndoOp)
    (hr : ∀ op ∈ rs, op.isUndo = false) (h : invariantOk md = true) :
    invariantOk (runOps md rs) = true := by
  induction rs generalizing md with
  | nil => exact h
  | cons op t ih =>
    cases op with
    | undo o =>
      have := hr (.undo o) (List.mem_cons_self _ _)
      simp [UndoOp.isUndo] at this
    | redo r =>
      exact ih (redoStep md r) (fun op' h' => hr op' (List.mem_cons_of_mem _ h'))
        (invariantOk_redoStep md r h)

/-- Claim C7 counterexample: starting from a merged thread, the sequence
undo, redo, undo leaves `reverted = True` while the `redo_commit`
recorded by the redo is still present and truthy — the invariant as
stated is violated, because a later undo never clears `redo_commit`. -/
theorem undo_after_redo_invariant_violation_cex :
    invariantOk (runOps [("git_commit".data, .s "h0".data)]
      [.undo ⟨true, some "r1".data⟩, .redo (some "d1".data),
       .undo ⟨true, some "r2".data⟩]) = false := by decide

/-- Claim C7 (amended): along every sequence of `undo_thread` and
`redo_thread` calls in which every undo precedes every redo — in
particular for any number of undos followed by any number of redos —
a thread that starts without a truthy `redo_commit` never reaches a
state with `reverted` and `redo_commit` simultaneously truthy.  (The
unrestricted claim fails because an undo after a successful redo leaves
the stale `redo_commit` in place.) -/
theorem invariant_holds_undos_before_redos (md0 : Metadata)
    (us rs : List UndoOp)
    (hu : ∀ op ∈ us, op.isUndo = true) (hr : ∀ op ∈ rs, op.isUndo = false)
    (h0 : md0.truthyAt "redo_commit".data = false) :
    invariantOk (runOps md0 (us ++ rs)) = true := by
  rw [runOps_append]
  have hbase : invariantOk (runOps md0 us) = true := by
    have hg := runOps_undos_get_redo_commit md0 us hu
    unfold Metadata.truthyAt at h0
    have : Metadata.truthyAt (runOps md0 us) "redo_commit".data = false := by
      unfold Metadata.truthyAt
      rw [hg]
      exact h0
    simp [invariantOk, this]
  exact invariantOk_runOps_redos _ rs hr hbase

/-- Witness for the amended Claim C7 theorem at a concrete input. -/
theorem invariant_holds_undos_before_redos_witness :
    (∀ op ∈ [UndoOp.undo ⟨true, some "r1".data⟩], op.isUndo = true) ∧
      (∀ op ∈ [UndoOp.redo (some "d1".data)], op.isUndo = false) ∧
      Metadata.truthyAt [("git_commit".data, .s "h0".data)]
        "redo_commit".data = false ∧
      invariantOk (runOps [("git_commit".data, .s "h0".data)]
        ([UndoOp.undo ⟨true, some "r1".data⟩] ++
          [UndoOp.redo (some "d1".data)])) = true :=
  ⟨by decide, by decide, by decide,
    invariant_holds_undos_before_redos _ _ _ (by decide) (by decide) (by decide)⟩

end UndoManager

/-! ## Claim C10: thread serialization round-trip -/

theorem readN_exact (ds : Text) : ∀ (rest : Text) (a : Nat),
    (∀ c ∈ ds, c.isDigit = true) →
    readN ds.length (ds ++ rest) a = some (ds.foldl valStep a, rest) := by
  induction ds with
  | nil => intro rest a _; rfl
  | cons x t ih =>
    intro rest a h
    have hx := h x (List.mem_cons_self _ _)
    simp only [List.length_cons, List.cons_append, readN, hx, if_true,
      List.foldl_cons]
    exact ih rest (valStep a x) fun z hz => h z (List.mem_cons_of_mem _ hz)

theorem foldl_valStep_zeros (k : Nat) : ∀ a : Nat,
    List.foldl valStep a (List.replicate k '0') = a * 10 ^ k := by
  induction k with
  | zero => intro a; simp
  | succ k ih =>
    intro a
    simp only [List.replicate_succ, List.foldl_cons]
    rw [ih]
    have h0 : valStep a '0' = 10 * a := by
      simp only [valStep]
      have hz : '0'.toNat - 48 = 0 := by decide
      omega
    rw [h0]
    ring

theorem padNum_all_digit (w n : Nat) : ∀ c ∈ padNum w n, c.isDigit = true := by
  intro c hc
  unfold padNum at hc
  rw [List.mem_append] at hc
  cases hc with
  | inl hc =>
    rw [List.mem_replicate] at hc
    rw [hc.2]
    decide
  | inr hc => exact natChars_all_digit n c hc

theorem padNum_length (w n : Nat) (h : n < 10 ^ w) (hw : 0 < w) :
    (padNum w n).length = w := by
  unfold padNum
  rw [List.length_append, List.length_replicate]
  have := natChars_length_le n w hw h
  omega

theorem foldl_padNum (w n : Nat) : List.foldl valStep 0 (padNum w n) = n := by
  unfold padNum
  rw [List.foldl_append, foldl_valStep_zeros]
  have := digitsVal_natChars n
  simp only [digitsVal] at this
  simpa using this

theorem readN_padNum (w n : Nat) (rest : Text) (h : n < 10 ^ w) (hw : 0 < w) :
    readN w (padNum w n ++ rest) 0 = some (n, rest) := by
  have hl := padNum_length w n h hw
  have step := readN_exact (padNum w n) rest 0 (padNum_all_digit w n)
  rw [hl, foldl_padNum] at step
  exact step

namespace Models

theorem hexChar_isHexDig (d : Nat) (h : d < 16) : isHexDig (hexChar d) = true := by
  interval_cases d <;> decide

theorem hexVal_hexChar (d : Nat) (h : d < 16) : hexVal (hexChar d) = d := by
  interval_cases d <;> decide

theorem hexCharsAux_acc (fuel : Nat) : ∀ (n : Nat) (acc : Text),
    hexCharsAux fuel n acc = hexCharsAux fuel n [] ++ acc := by
  induction fuel with
  | zero => intro n acc; simp [hexCharsAux]
  | succ f ih =>
    intro n acc
    simp only [hexCharsAux]
    by_cases h0 : n / 16 = 0
    · simp [h0]
    · rw [if_neg h0, if_neg h0, ih (n / 16) (hexChar (n % 16) :: acc),
        ih (n / 16) [hexChar (n % 16)]]
      simp

theorem hexCharsAux_fuel (n : Nat) : ∀ f g : Nat, n < 16 ^ (f + 1) →
    n < 16 ^ (g + 1) → hexCharsAux (f + 1) n [] = hexCharsAux (g + 1) n [] := by
  induction n using Nat.strong_induction_on with
  | _ n ih =>
    intro f g hf hg
    simp only [hexCharsAux]
    by_cases h0 : n / 16 = 0
    · simp [h0]
    · rw [if_neg h0, if_neg h0]
      have hn16 : 16 ≤ n := by
        by_contra hlt
        push_neg at hlt
        exact h0 (Nat.div_eq_of_lt hlt)
      obtain ⟨f', rfl⟩ : ∃ f', f = f' + 1 := by
        cases f with
        | zero => exfalso; simp at hf; omega
        | succ f' => exact ⟨f', rfl⟩
      obtain ⟨g', rfl⟩ : ∃ g', g = g' + 1 := by
        cases g with
        | zero => exfalso; simp at hg; omega
        | succ g' => exact ⟨g', rfl⟩
      have hdivf : n / 16 < 16 ^ (f' + 1) := by
        rw [Nat.div_lt_iff_lt_mul (by norm_num)]
        have hp : 16 ^ (f' + 1) * 16 = 16 ^ (f' + 2) := by ring
        omega
      have hdivg : n / 16 < 16 ^ (g' + 1) := by
        rw [Nat.div_lt_iff_lt_mul (by norm_num)]
        have hp : 16 ^ (g' + 1) * 16 = 16 ^ (g' + 2) := by ring
        omega
      rw [hexCharsAux_acc (f' + 1) (n / 16) [hexChar (n % 16)],
        hexCharsAux_acc (g' + 1) (n / 16) [hexChar (n % 16)]]
      rw [ih (n / 16) (Nat.div_lt_self (by omega) (by norm_num)) f' g' hdivf hdivg]

theorem hexChars_eq (n : Nat) :
    hexChars n = if n < 16 then [hexChar (n % 16)]
      else hexChars (n / 16) ++ [hexChar (n % 16)] := by
  by_cases h : n < 16
  · have h0 : n / 16 = 0 := Nat.div_eq_of_lt h
    simp [hexChars, hexCharsAux, h0, h]
  · have h0 : ¬ n / 16 = 0 := by
      intro hc
      rw [Nat.div_eq_zero_iff (by norm_num)] at hc
      exact h hc
    rw [if_neg h]
    show hexCharsAux (n + 1) n [] = _
    simp only [hexCharsAux, if_neg h0]
    rw [hexCharsAux_acc n (n / 16) [hexChar (n % 16)]]
    congr 1
    obtain ⟨m, rfl⟩ : ∃ m, n = m + 1 := ⟨n - 1, by omega⟩
    show hexCharsAux (m + 1) ((m + 1) / 16) [] =
      hexCharsAux ((m + 1) / 16 + 1) ((m + 1) / 16) []
    apply hexCharsAux_fuel
    · have h1 : (m + 1) / 16 < m + 1 := Nat.div_lt_self (by omega) (by norm_num)
      have h4 : m < 16 ^ m := Nat.lt_pow_self (by norm_num) m
      have h6 : (16 : Nat) ^ m ≤ 16 ^ (m + 1) :=
        Nat.pow_le_pow_right (by norm_num) (by omega)
      omega
    · have h5 : (m + 1) / 16 < 16 ^ ((m + 1) / 16) :=
        Nat.lt_pow_self (by norm_num) _
      have h6 : (16 : Nat) ^ ((m + 1) / 16) ≤ 16 ^ ((m + 1) / 16 + 1) :=
        Nat.pow_le_pow_right (by norm_num) (by omega)
      omega

theorem hexChars_all_hex (n : Nat) : ∀ x ∈ hexChars n, isHexDig x = true := by
  induction n using Nat.strong_induction_on with
  | _ n ih =>
    intro x hx
    rw [hexChars_eq] at hx
    by_cases h : n < 16
    · rw [if_pos h] at hx
      simp only [List.mem_singleton] at hx
      rw [hx]
      exact hexChar_isHexDig _ (Nat.mod_lt _ (by norm_num))
    · rw [if_neg h, List.mem_append] at hx
      cases hx with
      | inl hx =>
        exact ih (n / 16) (Nat.div_lt_self (by omega) (by norm_num)) x hx
      | inr hx =>
        simp only [List.mem_singleton] at hx
        rw [hx]
        exact hexChar_isHexDig _ (Nat.mod_lt _ (by norm_num))

theorem hexFold_hexChars (n : Nat) :
    (hexChars n).foldl (fun a c => 16 * a + hexVal c) 0 = n := by
  induction n using Nat.strong_induction_on with
  | _ n ih =>
    rw [hexChars_eq]
    by_cases h : n < 16
    · rw [if_pos h]
      simp only [List.foldl_cons, List.foldl_nil,
        hexVal_hexChar _ (Nat.mod_lt _ (by norm_num))]
      omega
    · rw [if_neg h]
      have hv := ih (n / 16) (Nat.div_lt_self (by omega) (by norm_num))
      rw [List.foldl_append, hv]
      simp only [List.foldl_cons, List.foldl_nil,
        hexVal_hexChar _ (Nat.mod_lt _ (by norm_num))]
      omega

theorem hexChars_length_le (n : Nat) : ∀ w : Nat, 0 < w → n < 16 ^ w →
    (hexChars n).length ≤ w := by
  induction n using Nat.strong_induction_on with
  | _ n ih =>
    intro w hw h
    rw [hexChars_eq]
    by_cases hlt : n < 16
    · rw [if_pos hlt]
      simpa using hw
    · rw [if_neg hlt, List.length_append]
      simp only [List.length_cons, List.length_nil]
      have hw2 : 2 ≤ w := by
        by_contra hc
        push_neg at hc
        have hw1 : w = 1 := by omega
        rw [hw1] at h
        simp at h
        omega
      have hdiv : n / 16 < 16 ^ (w - 1) := by
        rw [Nat.div_lt_iff_lt_mul (by norm_num)]
        have hp : 16 ^ (w - 1) * 16 = 16 ^ w := by
          rw [← pow_succ]
          congr 1
          omega
        omega
      have := ih (n / 16) (Nat.div_lt_self (by omega) (by norm_num))
        (w - 1) (by omega) hdiv
      omega

theorem foldl_hexStep_zeros (k : Nat) : ∀ a : Nat,
    List.foldl (fun a c => 16 * a + hexVal c) a (List.replicate k '0') =
      a * 16 ^ k := by
  induction k with
  | zero => intro a; simp
  | succ k ih =>
    intro a
    simp only [List.replicate_succ, List.foldl_cons]
    rw [ih]
    have hv : hexVal '0' = 0 := by decide
    rw [hv]
    ring

theorem hex32_length (n : Nat) (h : n < 2 ^ 128) : (hex32 n).length = 32 := by
  unfold hex32
  rw [List.length_append, List.length_replicate]
  have h16 : (16 : Nat) ^ 32 = 2 ^ 128 := by norm_num
  have := hexChars_length_le n 32 (by norm_num) (by omega)
  omega

theorem hex32_all_hex (n : Nat) : ∀ c ∈ hex32 n, isHexDig c = true := by
  intro c hc
  unfold hex32 at hc
  rw [List.mem_append] at hc
  cases hc with
  | inl hc =>
    rw [List.mem_replicate] at hc
    rw [hc.2]
    decide
  | inr hc => exact hexChars_all_hex n c hc

theorem foldl_hex32 (n : Nat) :
    (hex32 n).foldl (fun a c => 16 * a + hexVal c) 0 = n := by
  unfold hex32
  rw [List.foldl_append, foldl_hexStep_zeros]
  simpa using hexFold_hexChars n

theorem filter_ne_dash_eq_self (l : Text) (h : ∀ c ∈ l, isHexDig c = true) :
    (l.filter fun c => c != '-') = l := by
  rw [List.filter_eq_self]
  intro a ha
  have hh := h a ha
  by_cases hd : a = '-'
  · rw [hd] at hh
    exact absurd hh (by decide)
  · simp [bne_iff_ne, hd]

/-- Claim C10: the thread serialization round-trip for uuids. -/
theorem uuidParse_uuidStr (n : Nat) (h : n < 2 ^ 128) :
    uuidParse (uuidStr n) = some n := by
  have hlen := hex32_length n h
  have hhex := hex32_all_hex n
  have hsub : ∀ (l : Text), l.Sublist (hex32 n) →
      (l.filter fun c => c != '-') = l := by
    intro l hl
    exact filter_ne_dash_eq_self l fun c hc => hhex c (hl.subset hc)
  have h8 := hsub _ (List.take_sublist 8 _)
  have h12 := hsub _ ((List.take_sublist 4 _).trans (List.drop_sublist 8 _))
  have h16 := hsub _ ((List.take_sublist 4 _).trans (List.drop_sublist 12 _))
  have h20 := hsub _ ((List.take_sublist 4 _).trans (List.drop_sublist 16 _))
  have h20' := hsub _ (List.drop_sublist 20 _)
  have hdash : (['-'].filter fun c => c != '-') = [] := by decide
  have hre : (hex32 n).take 8 ++ ((hex32 n).drop 8).take 4 ++
      ((hex32 n).drop 12).take 4 ++ ((hex32 n).drop 16).take 4 ++
      (hex32 n).drop 20 = hex32 n := by
    have e20 : ((hex32 n).drop 16).take 4 ++ (hex32 n).drop 20 =
        (hex32 n).drop 16 := by
      have hd : ((hex32 n).drop 16).drop 4 = (hex32 n).drop 20 := by
        rw [List.drop_drop]
      rw [← hd, List.take_append_drop]
    have e16 : ((hex32 n).drop 12).take 4 ++ (hex32 n).drop 16 =
        (hex32 n).drop 12 := by
      have hd : ((hex32 n).drop 12).drop 4 = (hex32 n).drop 16 := by
        rw [List.drop_drop]
      rw [← hd, List.take_append_drop]
    have e12 : ((hex32 n).drop 8).take 4 ++ (hex32 n).drop 12 =
        (hex32 n).drop 8 := by
      have hd : ((hex32 n).drop 8).drop 4 = (hex32 n).drop 12 := by
        rw [List.drop_drop]
      rw [← hd, List.take_append_drop]
    calc (hex32 n).take 8 ++ ((hex32 n).drop 8).take 4 ++
        ((hex32 n).drop 12).take 4 ++ ((hex32 n).drop 16).take 4 ++
        (hex32 n).drop 20
        = (hex32 n).take 8 ++ (((hex32 n).drop 8).take 4 ++
          (((hex32 n).drop 12).take 4 ++ (((hex32 n).drop 16).take 4 ++
            (hex32 n).drop 20))) := by simp [List.append_assoc]
      _ = (hex32 n).take 8 ++ (hex32 n).drop 8 := by rw [e20, e16, e12]
      _ = hex32 n := List.take_append_drop _ _
  unfold uuidParse uuidStr
  simp only [List.filter_append, h8, h12, h16, h20, h20', hdash,
    List.append_nil]
  rw [hre]
  rw [if_pos (And.intro hlen hhex)]
  rw [foldl_hex32]

theorem fromiso_steps_nil (y mo d hh mi s : Nat)
    (hy : y < 10000) (hmo : mo < 100) (hd : d < 100) (hhh : hh < 100)
    (hmi : mi < 100) (hs : s < 100) :
    fromisoformat (padNum 4 y ++ '-' :: (padNum 2 mo ++ '-' :: (padNum 2 d ++
        'T' :: (padNum 2 hh ++ ':' :: (padNum 2 mi ++ ':' ::
          (padNum 2 s ++ [])))))) =
      some ⟨y, mo, d, hh, mi, s, 0⟩ := by
  have r1 : readN 4 (padNum 4 y ++ '-' :: (padNum 2 mo ++ '-' :: (padNum 2 d ++
      'T' :: (padNum 2 hh ++ ':' :: (padNum 2 mi ++ ':' ::
        (padNum 2 s ++ [])))))) 0 =
      some (y, '-' :: (padNum 2 mo ++ '-' :: (padNum 2 d ++
        'T' :: (padNum 2 hh ++ ':' :: (padNum 2 mi ++ ':' ::
          (padNum 2 s ++ [])))))) := readN_padNum _ _ _ hy (by norm_num)
  have r2 : readN 2 (padNum 2 mo ++ '-' :: (padNum 2 d ++
      'T' :: (padNum 2 hh ++ ':' :: (padNum 2 mi ++ ':' ::
        (padNum 2 s ++ []))))) 0 =
      some (mo, '-' :: (padNum 2 d ++ 'T' :: (padNum 2 hh ++ ':' ::
        (padNum 2 mi ++ ':' :: (padNum 2 s ++ []))))) :=
    readN_padNum _ _ _ hmo (by norm_num)
  have r3 : readN 2 (padNum 2 d ++ 'T' :: (padNum 2 hh ++ ':' ::
      (padNum 2 mi ++ ':' :: (padNum 2 s ++ [])))) 0 =
      some (d, 'T' :: (padNum 2 hh ++ ':' :: (padNum 2 mi ++ ':' ::
        (padNum 2 s ++ [])))) := readN_padNum _ _ _ hd (by norm_num)
  have r4 : readN 2 (padNum 2 hh ++ ':' :: (padNum 2 mi ++ ':' ::
      (padNum 2 s ++ []))) 0 =
      some (hh, ':' :: (padNum 2 mi ++ ':' :: (padNum 2 s ++ []))) :=
    readN_padNum _ _ _ hhh (by norm_num)
  have r5 : readN 2 (padNum 2 mi ++ ':' :: (padNum 2 s ++ [])) 0 =
      some (mi, ':' :: (padNum 2 s ++ [])) := readN_padNum _ _ _ hmi (by norm_num)
  have r6 : readN 2 (padNum 2 s ++ []) 0 = some (s, []) :=
    readN_padNum _ _ _ hs (by norm_num)
  simp only [fromisoformat, Bind.bind, Option.bind, expectChar_cons_self,
    r1, r2, r3, r4, r5, r6, pure]

theorem fromiso_steps_frac (y mo d hh mi s us : Nat)
    (hy : y < 10000) (hmo : mo < 100) (hd : d < 100) (hhh : hh < 100)
    (hmi : mi < 100) (hs : s < 100) (hus : us < 1000000) :
    fromisoformat (padNum 4 y ++ '-' :: (padNum 2 mo ++ '-' :: (padNum 2 d ++
        'T' :: (padNum 2 hh ++ ':' :: (padNum 2 mi ++ ':' ::
          (padNum 2 s ++ '.' :: (padNum 6 us ++ []))))))) =
      some ⟨y, mo, d, hh, mi, s, us⟩ := by
  have r1 : readN 4 (padNum 4 y ++ '-' :: (padNum 2 mo ++ '-' :: (padNum 2 d ++
      'T' :: (padNum 2 hh ++ ':' :: (padNum 2 mi ++ ':' ::
        (padNum 2 s ++ '.' :: (padNum 6 us ++ []))))))) 0 =
      some (y, '-' :: (padNum 2 mo ++ '-' :: (padNum 2 d ++
        'T' :: (padNum 2 hh ++ ':' :: (padNum 2 mi ++ ':' ::
          (padNum 2 s ++ '.' :: (padNum 6 us ++ []))))))) :=
    readN_padNum _ _ _ hy (by norm_num)
  have r2 : readN 2 (padNum 2 mo ++ '-' :: (padNum 2 d ++
      'T' :: (padNum 2 hh ++ ':' :: (padNum 2 mi ++ ':' ::
        (padNum 2 s ++ '.' :: (padNum 6 us ++ [])))))) 0 =
      some (mo, '-' :: (padNum 2 d ++ 'T' :: (padNum 2 hh ++ ':' ::
        (padNum 2 mi ++ ':' :: (padNum 2 s ++ '.' :: (padNum 6 us ++ [])))))) :=
    readN_padNum _ _ _ hmo (by norm_num)
  have r3 : readN 2 (padNum 2 d ++ 'T' :: (padNum 2 hh ++ ':' ::
      (padNum 2 mi ++ ':' :: (padNum 2 s ++ '.' :: (padNum 6 us ++ []))))) 0 =
      some (d, 'T' :: (padNum 2 hh ++ ':' :: (padNum 2 mi ++ ':' ::
        (padNum 2 s ++ '.' :: (padNum 6 us ++ []))))) :=
    readN_padNum _ _ _ hd (by norm_num)
  have r4 : readN 2 (padNum 2 hh ++ ':' :: (padNum 2 mi ++ ':' ::
      (padNum 2 s ++ '.' :: (padNum 6 us ++ [])))) 0 =
      some (hh, ':' :: (padNum 2 mi ++ ':' :: (padNum 2 s ++ '.' ::
        (padNum 6 us ++ [])))) := readN_padNum _ _ _ hhh (by norm_num)
  have r5 : readN 2 (padNum 2 mi ++ ':' :: (padNum 2 s ++ '.' ::
      (padNum 6 us ++ []))) 0 =
      some (mi, ':' :: (padNum 2 s ++ '.' :: (padNum 6 us ++ []))) :=
    readN_padNum _ _ _ hmi (by norm_num)
  have r6 : readN 2 (padNum 2 s ++ '.' :: (padNum 6 us ++ [])) 0 =
      some (s, '.' :: (padNum 6 us ++ [])) := readN_padNum _ _ _ hs (by norm_num)
  have r7 : readN 6 (padNum 6 us ++ []) 0 = some (us, []) :=
    readN_padNum _ _ _ hus (by norm_num)
  simp only [fromisoformat, Bind.bind, Option.bind, expectChar_cons_self,
    r1, r2, r3, r4, r5, r6, r7, pure]

/-- Claim C10: the timestamp serialization round-trip. -/
theorem fromisoformat_isoformat (t : PyDateTime) (h : t.valid) :
    fromisoformat t.isoformat = some t := by
  obtain ⟨y, mo, d, hh, mi, s, us⟩ := t
  unfold PyDateTime.valid at h
  dsimp only at h
  obtain ⟨h1, h2, h3, h4, h5, h6, h7, h8, h9, h10⟩ := h
  by_cases hus : us = 0
  · subst hus
    have hform : PyDateTime.isoformat ⟨y, mo, d, hh, mi, s, 0⟩ =
        padNum 4 y ++ '-' :: (padNum 2 mo ++ '-' :: (padNum 2 d ++
          'T' :: (padNum 2 hh ++ ':' :: (padNum 2 mi ++ ':' ::
            (padNum 2 s ++ []))))) := by
      simp [PyDateTime.isoformat, List.append_assoc]
    rw [hform]
    exact fromiso_steps_nil y mo d hh mi s (by omega) (by omega) (by omega)
      (by omega) (by omega) (by omega)
  · have hform : PyDateTime.isoformat ⟨y, mo, d, hh, mi, s, us⟩ =
        padNum 4 y ++ '-' :: (padNum 2 mo ++ '-' :: (padNum 2 d ++
          'T' :: (padNum 2 hh ++ ':' :: (padNum 2 mi ++ ':' ::
            (padNum 2 s ++ '.' :: (padNum 6 us ++ [])))))) := by
      simp [PyDateTime.isoformat, hus, List.append_assoc]
    rw [hform]
    exact fromiso_steps_frac y mo d hh mi s us (by omega) (by omega) (by omega)
      (by omega) (by omega) (by omega) (by omega)

theorem isoformat_ne_nil (t : PyDateTime) : t.isoformat ≠ [] := by
  unfold PyDateTime.isoformat
  intro hc
  have hlen := congrArg List.length hc
  have hL : 0 < (natChars t.year).length := List.length_pos.mpr (natChars_ne_nil _)
  simp [List.length_append, padNum] at hlen

theorem roleOfValue_value (r : MessageRole) :
    MessageRole.ofValue r.value = some r := by
  cases r <;> rfl

theorem statusOfValue_value (st : ThreadStatus) :
    ThreadStatus.ofValue st.value = some st := by
  cases st <;> rfl

theorem msg_from_to (m : Message) (h : m.timestamp.valid) :
    Message.from_dict (Message.to_dict m) = some m := by
  obtain ⟨r, ct, ts⟩ := m
  simp only [Message.to_dict, Message.from_dict, Bind.bind, Option.bind,
    roleOfValue_value, fromisoformat_isoformat _ h, pure]

theorem mapM_from_to (msgs : List Message)
    (h : ∀ m ∈ msgs, m.timestamp.valid) :
    (msgs.map Message.to_dict).mapM Message.from_dict = some msgs := by
  induction msgs with
  | nil => rfl
  | cons m tl ih =>
    rw [List.map_cons, List.mapM_cons]
    rw [msg_from_to m (h m (List.mem_cons_self _ _))]
    rw [ih fun m' hm' => h m' (List.mem_cons_of_mem _ hm')]
    rfl

/-- Claim C10 (confirmed): thread serialization round-trips —
`CommentThread.from_dict (t.to_dict())` reconstructs every field of `t`
(id, session id, selection, comment, line range, status, the full
ordered message list with roles, contents and timestamps, error,
created/updated/last-viewed timestamps and the awaiting flag), for every
well-formed thread (uuid value in 128 bits, timestamp fields in
range — guaranteed by the `uuid4()`/`datetime.now()` constructors). -/
theorem commentThread_serialization_roundtrip (t : CommentThread)
    (h : t.wf) : CommentThread.from_dict (CommentThread.to_dict t) = some t := by
  obtain ⟨i, sid, sel, ic, ls, le, st, msgs, err, ca, ua, lv, ar⟩ := t
  obtain ⟨hid, hca, hua, hlv, hmsgs⟩ := h
  have h1 := uuidParse_uuidStr i hid
  have h2 := statusOfValue_value st
  have hm := mapM_from_to msgs hmsgs
  have h3 := fromisoformat_isoformat _ hca
  have h4 := fromisoformat_isoformat _ hua
  cases lv with
  | none =>
    simp only [CommentThread.to_dict, CommentThread.from_dict, Bind.bind,
      Option.bind, h1, h2, hm, h3, h4, lvParse, pure]
  | some lvv =>
    have h5 := fromisoformat_isoformat lvv (hlv lvv rfl)
    have h6 : ¬(lvv.isoformat = []) := isoformat_ne_nil lvv
    simp only [CommentThread.to_dict, CommentThread.from_dict, Bind.bind,
      Option.bind, h1, h2, hm, h3, h4, lvParse, if_neg h6, h5,
      Option.map_some', pure]

/-- Witness for the Claim C10 theorem at a concrete thread. -/
theorem commentThread_serialization_roundtrip_witness :
    (CommentThread.wf ⟨77, some "sess".data, "sel".data, "why".data, 3, 9,
        .active, [⟨.user, "hello".data, ⟨2026, 1, 2, 3, 4, 5, 6⟩⟩,
          ⟨.assistant, "done".data, ⟨2026, 1, 2, 3, 4, 6, 0⟩⟩],
        none, ⟨2026, 1, 1, 0, 0, 0, 0⟩, ⟨2026, 1, 2, 3, 4, 6, 0⟩,
        some ⟨2026, 1, 2, 3, 5, 0, 0⟩, true⟩) ∧
      CommentThread.from_dict (CommentThread.to_dict
        ⟨77, some "sess".data, "sel".data, "why".data, 3, 9,
          .active, [⟨.user, "hello".data, ⟨2026, 1, 2, 3, 4, 5, 6⟩⟩,
            ⟨.assistant, "done".data, ⟨2026, 1, 2, 3, 4, 6, 0⟩⟩],
          none, ⟨2026, 1, 1, 0, 0, 0, 0⟩, ⟨2026, 1, 2, 3, 4, 6, 0⟩,
          some ⟨2026, 1, 2, 3, 5, 0, 0⟩, true⟩) =
        some ⟨77, some "sess".data, "sel".data, "why".data, 3, 9,
          .active, [⟨.user, "hello".data, ⟨2026, 1, 2, 3, 4, 5, 6⟩⟩,
            ⟨.assistant, "done".data, ⟨2026, 1, 2, 3, 4, 6, 0⟩⟩],
          none, ⟨2026, 1, 1, 0, 0, 0, 0⟩, ⟨2026, 1, 2, 3, 4, 6, 0⟩,
          some ⟨2026, 1, 2, 3, 5, 0, 0⟩, true⟩ :=
  ⟨by decide, commentThread_serialization_roundtrip _ (by decide)⟩

end Models

/-! ## Claims C1 and C6: merge application -/

namespace MergeCoordinator

/-- Claim C6 counterexample: a thread whose metadata already records
`git_commit = "h1"` goes through a later successful merge committing
`"h2"`; `_apply_merge` overwrites the stored value. -/
theorem applyMerge_overwrites_git_commit_cex :
    (applyMerge [("doc.md".data, "a\n".data)]
        [("git_commit".data, .s "h1".data)]
        [("doc.md".data, "@@ -1,1 +1,1 @@\n-a\n+b\n".data)]
        (some "h2".data)).success = true ∧
      (applyMerge [("doc.md".data, "a\n".data)]
        [("git_commit".data, .s "h1".data)]
        [("doc.md".data, "@@ -1,1 +1,1 @@\n-a\n+b\n".data)]
        (some "h2".data)).metadata.get "git_commit".data =
          some (.s "h2".data) ∧
      some (MetaVal.s "h2".data) ≠ some (MetaVal.s "h1".data) := by decide

/-- Claim C6 (amended): every successful `_apply_merge` records the
newly returned commit hash under `metadata['git_commit']`, overwriting
any previously recorded value (so the key always holds the most recent
merge commit); a failed apply leaves the metadata untouched. -/
theorem applyMerge_metadata_latest_commit (fs : FileSys) (md : Metadata)
    (files : List (Text × Text)) (h : Text) :
    (applyMerge fs md files (some h)).metadata =
      if (applyMerge fs md files (some h)).success = true
      then md.set "git_commit".data (.s h) else md := by
  unfold applyMerge
  induction files generalizing fs with
  | nil => simp [applyMergeAux]
  | cons pf rest ih =>
    obtain ⟨p, d⟩ := pf
    cases hr : fs.read p with
    | none => simp [applyMergeAux, hr]
    | some content =>
      simp only [applyMergeAux, hr]
      exact ih _

/-- Claim C1 counterexample: a two-file merge whose second file is
missing fails as a whole (no commit recorded), yet the first file has
already been patched and written to the live store — the application is
not atomic. -/
theorem applyMerge_partial_write_cex :
    (applyMerge [("doc.md".data, "a\n".data)] []
        [("doc.md".data, "@@ -1,1 +1,1 @@\n-a\n+b\n".data),
         ("notes.md".data, [])]
        (some "h".data)).success = false ∧
      (applyMerge [("doc.md".data, "a\n".data)] []
        [("doc.md".data, "@@ -1,1 +1,1 @@\n-a\n+b\n".data),
         ("notes.md".data, [])]
        (some "h".data)).commit = none ∧
      (applyMerge [("doc.md".data, "a\n".data)] []
        [("doc.md".data, "@@ -1,1 +1,1 @@\n-a\n+b\n".data),
         ("notes.md".data, [])]
        (some "h".data)).fs.read "doc.md".data = some "b\n".data ∧
      ("b\n".data ≠ "a\n".data) := by decide

/-- Claim C1 (amended): when some referenced file is missing at apply
time, `_apply_merge` fails the merge and records no commit and no
metadata, and neither the missing file nor any file after it is
written; however every file *before* the missing one in iteration order
has already been patched (the store ends exactly as if only those
earlier files had been merged).  Full atomicity — the store completely
untouched — holds exactly when the missing file comes first, in
particular for single-file merges. -/
theorem applyMerge_missing_file_prefix_written (fs : FileSys) (md : Metadata)
    (pre : List (Text × Text)) (p₀ d₀ : Text) (rest : List (Text × Text))
    (cr : Option Text)
    (hpre : ∀ q ∈ pre, (fs.read q.1).isSome = true)
    (h0 : fs.read p₀ = none) :
    (applyMerge fs md (pre ++ (p₀, d₀) :: rest) cr).success = false ∧
      (applyMerge fs md (pre ++ (p₀, d₀) :: rest) cr).commit = none ∧
      (applyMerge fs md (pre ++ (p₀, d₀) :: rest) cr).metadata = md ∧
      (applyMerge fs md (pre ++ (p₀, d₀) :: rest) cr).fs =
        (applyMerge fs md pre cr).fs ∧
      (pre = [] → (applyMerge fs md (pre ++ (p₀, d₀) :: rest) cr).fs = fs) := by
  induction pre generalizing fs with
  | nil =>
    have hmain : applyMerge fs md ([] ++ (p₀, d₀) :: rest) cr =
        ⟨fs, false, none, md⟩ := by
      simp [applyMerge, applyMergeAux, h0]
    have hpre0 : (applyMerge fs md [] cr).fs = fs := by
      cases cr <;> rfl
    rw [hmain, hpre0]
    exact ⟨rfl, rfl, rfl, rfl, fun _ => rfl⟩
  | cons q pre' ih =>
    obtain ⟨pq, dq⟩ := q
    have hq : (fs.read pq).isSome = true := hpre (pq, dq) (List.mem_cons_self _ _)
    obtain ⟨c, hc⟩ := Option.isSome_iff_exists.mp hq
    have hne : pq ≠ p₀ := by
      intro h
      rw [h, h0] at hc
      exact Option.noConfusion hc
    have hpre' : ∀ q' ∈ pre',
        ((fs.write pq (applyDiffManual c dq)).read q'.1).isSome = true := by
      intro q' h'
      rw [FileSys.read_write]
      split
      · rfl
      · exact hpre q' (List.mem_cons_of_mem _ h')
    have h0' : (fs.write pq (applyDiffManual c dq)).read p₀ = none := by
      rw [FileSys.read_write, if_neg hne]
      exact h0
    have step := ih (fs.write pq (applyDiffManual c dq)) hpre' h0'
    refine ⟨?_, ?_, ?_, ?_, ?_⟩
    · simpa only [List.cons_append, applyMerge, applyMergeAux, hc] using step.1
    · simpa only [List.cons_append, applyMerge, applyMergeAux, hc] using step.2.1
    · simpa only [List.cons_append, applyMerge, applyMergeAux, hc] using step.2.2.1
    · simpa only [List.cons_append, applyMerge, applyMergeAux, hc] using step.2.2.2.1
    · intro h
      exact absurd h (by simp)

/-- Witness for the amended Claim C1 theorem at a concrete input: first
file present and patched, second file missing. -/
theorem applyMerge_missing_file_prefix_written_witness :
    (∀ q ∈ [("doc.md".data, "@@ -1,1 +1,1 @@\n-a\n+b\n".data)],
        (FileSys.read [("doc.md".data, "a\n".data)] q.1).isSome = true) ∧
      FileSys.read [("doc.md".data, "a\n".data)] "notes.md".data = none ∧
      ((applyMerge [("doc.md".data, "a\n".data)] []
          ([("doc.md".data, "@@ -1,1 +1,1 @@\n-a\n+b\n".data)] ++
            ("notes.md".data, []) :: []) (some "h".data)).success = false ∧
        (applyMerge [("doc.md".data, "a\n".data)] []
          ([("doc.md".data, "@@ -1,1 +1,1 @@\n-a\n+b\n".data)] ++
            ("notes.md".data, []) :: []) (some "h".data)).commit = none ∧
        (applyMerge [("doc.md".data, "a\n".data)] []
          ([("doc.md".data, "@@ -1,1 +1,1 @@\n-a\n+b\n".data)] ++
            ("notes.md".data, []) :: []) (some "h".data)).metadata = [] ∧
        (applyMerge [("doc.md".data, "a\n".data)] []
          ([("doc.md".data, "@@ -1,1 +1,1 @@\n-a\n+b\n".data)] ++
            ("notes.md".data, []) :: []) (some "h".data)).fs =
          (applyMerge [("doc.md".data, "a\n".data)] []
            [("doc.md".data, "@@ -1,1 +1,1 @@\n-a\n+b\n".data)]
            (some "h".data)).fs ∧
        ([("doc.md".data, "@@ -1,1 +1,1 @@\n-a\n+b\n".data)] = [] →
          (applyMerge [("doc.md".data, "a\n".data)] []
            ([("doc.md".data, "@@ -1,1 +1,1 @@\n-a\n+b\n".data)] ++
              ("notes.md".data, []) :: []) (some "h".data)).fs =
            [("doc.md".data, "a\n".data)])) :=
  ⟨by decide, by decide,
    applyMerge_missing_file_prefix_written _ _ _ _ _ _ _
      (by decide) (by decide)⟩

end MergeCoordinator

/-! ## Diff round-trip: slice and split lemmas -/

theorem sliceL_self (a : List Text) (i : Nat) : sliceL a i i = [] := by
  simp [sliceL]

theorem sliceL_to_end (a : List Text) (i : Nat) : sliceL a i a.length = a.drop i := by
  unfold sliceL
  exact List.take_of_length_le (by simp)

theorem sliceL_length (b : List Text) (j k : Nat) (h1 : j ≤ k) (h2 : k ≤ b.length) :
    (sliceL b j k).length = k - j := by
  unfold sliceL
  simp only [List.length_take, List.length_drop]
  omega

theorem drop_eq_slice_append (a : List Text) (i k : Nat) (h : i ≤ k) :
    a.drop i = sliceL a i k ++ a.drop k := by
  unfold sliceL
  conv_lhs => rw [← List.take_append_drop (k - i) (a.drop i)]
  rw [List.drop_drop]
  congr 2
  omega

theorem take_eq_take_append_slice (b : List Text) (j k : Nat) (h1 : j ≤ k) :
    b.take k = b.take j ++ sliceL b j k := by
  unfold sliceL
  rw [← List.drop_take]
  conv_lhs => rw [← List.take_append_drop j (b.take k)]
  congr 1
  rw [List.take_take]
  congr 1
  omega

theorem sliceL_sub (l : List Text) (i k d1 d2 : Nat) (hd : d2 ≤ k - i) :
    sliceL l (i + d1) (i + d2) = ((sliceL l i k).drop d1).take (d2 - d1) := by
  unfold sliceL
  rw [List.drop_take, List.take_take, List.drop_drop]
  have hmin : (d2 - d1) ⊓ (k - i - d1) = d2 - d1 := by omega
  rw [hmin]
  congr 1
  omega

theorem sliceL_restrict (a b : List Text) (i1 i2 j1 j2 d1 d2 : Nat)
    (heq : sliceL a i1 i2 = sliceL b j1 j2) (hlen : i2 - i1 = j2 - j1)
    (hd : d2 ≤ i2 - i1) :
    sliceL a (i1 + d1) (i1 + d2) = sliceL b (j1 + d1) (j1 + d2) := by
  rw [sliceL_sub a i1 i2 d1 d2 hd, sliceL_sub b j1 j2 d1 d2 (by omega), heq]

theorem sliceL_getD (b : List Text) (j k n : Nat) (h1 : n < k - j) (h2 : k ≤ b.length) :
    (sliceL b j k).getD n [] = b.getD (j + n) [] := by
  have hlen : (sliceL b j k).length = k - j := sliceL_length b j k (by omega) h2
  have hn : n < (sliceL b j k).length := by omega
  have hb : j + n < b.length := by omega
  rw [List.getD_eq_getElem _ _ hn, List.getD_eq_getElem _ _ hb]
  unfold sliceL
  rw [List.getElem_take, List.getElem_drop]

theorem mem_of_mem_sliceL (b : List Text) (j k : Nat) (l : Text)
    (h : l ∈ sliceL b j k) : l ∈ b :=
  List.mem_of_mem_drop (List.mem_of_mem_take h)

theorem flatten_take_slice (b : List Text) (j k : Nat) (h1 : j ≤ k) :
    (b.take k).flatten = (b.take j).flatten ++ (sliceL b j k).flatten := by
  rw [take_eq_take_append_slice b j k h1, List.flatten_append]

theorem pySplitAux_nl_append (x y : Text) : ∀ acc : Text,
    pySplitAux ['\n'] (x ++ '\n' :: y) 0 acc =
      pySplitAux ['\n'] x 0 acc ++ pySplit ['\n'] y := by
  induction x with
  | nil =>
    intro acc
    simp [pySplitAux, pySplit, leadsWith]
  | cons c t ih =>
    intro acc
    by_cases hc : c = '\n'
    · subst hc
      simp only [List.cons_append, pySplitAux, leadsWith]
      simp [ih]
    · simp only [List.cons_append, pySplitAux, leadsWith]
      have hd : ('\n' = c) = False := by simp [Ne.symm hc]
      simp [hd, ih]

theorem pySplit_nl_append (x y : Text) :
    pySplit ['\n'] (x ++ '\n' :: y) = pySplit ['\n'] x ++ pySplit ['\n'] y :=
  pySplitAux_nl_append x y []

theorem pySplit_joinNl_flatMap (ls : List Text) (h : ls ≠ []) :
    pySplit ['\n'] (joinNl ls) = ls.flatMap (pySplit ['\n']) := by
  induction ls with
  | nil => exact absurd rfl h
  | cons e es ih =>
    cases es with
    | nil => simp [joinNl]
    | cons e2 es2 =>
      show pySplit ['\n'] (e ++ '\n' :: joinNl (e2 :: es2)) = _
      rw [pySplit_nl_append, ih (by simp)]
      simp [List.flatMap_cons]

set_option maxHeartbeats 8000000 in
theorem splitKeepNl_flatten : ∀ (s acc : Text),
    (splitKeepNl s acc).flatten = acc.reverse ++ s := by
  intro s acc
  induction s, acc using splitKeepNl.induct with
  | case1 => simp [splitKeepNl.eq_1]
  | case2 acc hne => simp [splitKeepNl.eq_1, hne]
  | case3 t acc ih => rw [splitKeepNl.eq_2]; simp [ih]
  | case4 c t acc hov hbr ih => rw [splitKeepNl.eq_3 _ _ _ hov, if_pos hbr]; simp [ih]
  | case5 c t acc hov hbr ih => rw [splitKeepNl.eq_3 _ _ _ hov, if_neg hbr]; simp [ih]

theorem splitLinesKeep_flatten (s : Text) : (splitLinesKeep s).flatten = s := by
  simpa using splitKeepNl_flatten s []

theorem splitKeepNl_interior : ∀ (s acc : Text), '\n' ∉ acc →
    ∀ l ∈ splitKeepNl s acc, '\n' ∉ l.dropLast := by
  intro s acc
  induction s, acc using splitKeepNl.induct with
  | case1 => intro _ l hl; simp [splitKeepNl.eq_1] at hl
  | case2 acc hne =>
    intro hacc l hl
    simp [splitKeepNl.eq_1, hne] at hl
    subst hl
    intro hmem
    exact hacc (by simpa using List.dropLast_subset _ hmem)
  | case3 t acc ih =>
    intro hacc l hl
    rw [splitKeepNl.eq_2] at hl
    rcases List.mem_cons.1 hl with hl | hl
    · subst hl
      rw [show acc.reverse ++ ['\x0d', '\n'] = (acc.reverse ++ ['\x0d']) ++ ['\n'] by simp,
        List.dropLast_concat]
      intro hmem
      rcases List.mem_append.1 hmem with hm | hm
      · exact hacc (by simpa using hm)
      · simp at hm
    · exact ih (by simp) l hl
  | case4 c t acc hov hbr ih =>
    intro hacc l hl
    rw [splitKeepNl.eq_3 _ _ _ hov, if_pos hbr] at hl
    rcases List.mem_cons.1 hl with hl | hl
    · subst hl
      rw [List.dropLast_concat]
      intro hmem
      exact hacc (by simpa using hmem)
    · exact ih (by simp) l hl
  | case5 c t acc hov hbr ih =>
    intro hacc l hl
    rw [splitKeepNl.eq_3 _ _ _ hov, if_neg hbr] at hl
    refine ih ?_ l hl
    intro hmem
    rcases List.mem_cons.1 hmem with hm | hm
    · rw [← hm] at hbr
      simp [isLineBreak] at hbr
    · exact hacc hm

theorem splitLinesKeep_interior (s : Text) : ∀ l ∈ splitLinesKeep s, '\n' ∉ l.dropLast :=
  splitKeepNl_interior s [] (by simp)

theorem splitKeepNl_pos_terminated : ∀ (s acc : Text),
    (∀ c ∈ s, isLineBreak c = true → c = '\n') →
    ∀ k, k + 1 < (splitKeepNl s acc).length →
      ((splitKeepNl s acc).getD k []).getLast? = some '\n' := by
  intro s acc
  induction s, acc using splitKeepNl.induct with
  | case1 => intro _ k hk; simp [splitKeepNl.eq_1] at hk
  | case2 acc hne => intro _ k hk; simp [splitKeepNl.eq_1, hne] at hk
  | case3 t acc ih =>
    intro hs
    exact absurd (hs '\x0d' (by simp) (by simp [isLineBreak])) (by decide)
  | case4 c t acc hov hbr ih =>
    intro hs k hk
    have hc : c = '\n' := hs c (by simp) hbr
    rw [splitKeepNl.eq_3 _ _ _ hov, if_pos hbr] at hk ⊢
    cases k with
    | zero =>
      simp only [List.getD_cons_zero]
      rw [hc, List.getLast?_concat]
    | succ k =>
      simp only [List.length_cons] at hk
      simp only [List.getD_cons_succ]
      exact ih (fun c hc => hs c (by simp [hc])) k (by omega)
  | case5 c t acc hov hbr ih =>
    intro hs k hk
    rw [splitKeepNl.eq_3 _ _ _ hov, if_neg hbr] at hk ⊢
    exact ih (fun c hc => hs c (by simp [hc])) k hk

theorem splitLinesKeep_pos_terminated (s : Text)
    (hs : ∀ c ∈ s, isLineBreak c = true → c = '\n') :
    ∀ k, k + 1 < (splitLinesKeep s).length →
      ((splitLinesKeep s).getD k []).getLast? = some '\n' :=
  splitKeepNl_pos_terminated s [] hs

theorem leadsWith_mono_append (p x y : Text) (h : leadsWith p x = true) :
    leadsWith p (x ++ y) = true := by
  induction p generalizing x with
  | nil => simp [leadsWith]
  | cons c p ih =>
    cases x with
    | nil => simp [leadsWith] at h
    | cons d t =>
      simp only [leadsWith, Bool.and_eq_true, decide_eq_true_eq] at h
      simp only [List.cons_append, leadsWith, Bool.and_eq_true, decide_eq_true_eq]
      exact ⟨h.1, ih t h.2⟩

namespace MergeCoordinator

theorem applySteps_append (ol : List Text) (ps qs : List Text) : ∀ st : Nat × List Text,
    applySteps ol (ps ++ qs) st =
      (applySteps ol ps st).bind (applySteps ol qs) := by
  induction ps with
  | nil => intro st; simp [applySteps]
  | cons p ps ih =>
    intro st
    simp only [List.cons_append, applySteps]
    cases applyStep ol st p with
    | none => simp
    | some st' => simp [ih st']

theorem applyDiffAux_eq_applySteps (ol : List Text) (ps : List Text) :
    ∀ (i : Nat) (acc : List Text),
    applyDiffAux ol ps i acc =
      (applySteps ol ps (i, acc)).map fun st => st.2.reverse ++ ol.drop st.1 := by
  induction ps with
  | nil => intro i acc; simp [applyDiffAux, applySteps]
  | cons p ps ih =>
    intro i acc
    simp only [applyDiffAux, applySteps, applyStep]
    by_cases h1 : leadsWith ['@', '@'] p = true
    · rw [if_pos h1, if_pos h1]
      cases hp : parseHunkHeader p with
      | none => exact ih i acc
      | some q =>
        obtain ⟨A, B, C, D⟩ := q
        dsimp only
        by_cases h2 : A - 1 ≤ ol.length
        · rw [if_pos h2, if_pos h2]
          simp only [Option.some_bind]
          exact ih _ _
        · rw [if_neg h2, if_neg h2]
          by_cases h3 : i < A - 1
          · rw [if_pos h3, if_pos h3]
            simp
          · rw [if_neg h3, if_neg h3]
            simp only [Option.some_bind]
            exact ih _ _
    · rw [if_neg h1, if_neg h1]
      by_cases h2 : (leadsWith ['+'] p && !leadsWith ['+', '+', '+'] p) = true
      · rw [if_pos h2, if_pos h2]
        simp only [Option.some_bind]
        exact ih _ _
      · rw [if_neg h2, if_neg h2]
        by_cases h3 : (leadsWith ['-'] p && !leadsWith ['-', '-', '-'] p) = true
        · rw [if_pos h3, if_pos h3]
          simp only [Option.some_bind]
          exact ih _ _
        · rw [if_neg h3, if_neg h3]
          by_cases h4 : leadsWith [' '] p = true
          · rw [if_pos h4, if_pos h4]
            by_cases h5 : i < ol.length
            · rw [if_pos h5, if_pos h5]
              simp only [Option.some_bind]
              exact ih _ _
            · rw [if_neg h5, if_neg h5]
              simp only [Option.some_bind]
              exact ih _ _
          · rw [if_neg h4, if_neg h4]
            simp only [Option.some_bind]
            exact ih _ _

end MergeCoordinator


/-! ## Diff round-trip: piece-level behavior of the applier -/

theorem concat_getLast? (l : Text) (h : l.getLast? = some '\n') :
    l = l.dropLast ++ ['\n'] := by
  rcases List.eq_nil_or_concat l with rfl | ⟨L, b, rfl⟩
  · simp at h
  · rw [List.concat_eq_append] at *
    rw [List.getLast?_concat] at h
    rw [List.dropLast_concat]
    simp at h
    rw [h]

theorem not_mem_of_not_dropLast_not_last (l : Text) (c : Char)
    (h1 : c ∉ l.dropLast) (h2 : l.getLast? ≠ some c) : c ∉ l := by
  rcases List.eq_nil_or_concat l with rfl | ⟨L, b, rfl⟩
  · simp
  · rw [List.concat_eq_append] at *
    rw [List.dropLast_concat] at h1
    rw [List.getLast?_concat] at h2
    intro hmem
    rcases List.mem_append.1 hmem with hm | hm
    · exact h1 hm
    · simp at hm
      exact h2 (by rw [hm])

theorem leadsWith_dropLast_false (p l : Text) (h : leadsWith p l = false) :
    leadsWith p l.dropLast = false := by
  cases hF : leadsWith p l.dropLast
  · rfl
  · rcases List.eq_nil_or_concat l with rfl | ⟨L, b, rfl⟩
    · cases p with
      | nil => simp [leadsWith] at h
      | cons c t => simp [leadsWith] at hF
    · rw [List.concat_eq_append] at *
      rw [List.dropLast_concat] at hF
      rw [leadsWith_mono_append p L [b] hF] at h
      simp at h

theorem pySplit_nl_nil : pySplit ['\n'] [] = [[]] := rfl

/-- The `'\n'`-split pieces of a prefixed line whose only possible
newline is terminal. -/
theorem pieces_prefixed (p : Char) (l : Text) (hp : p ≠ '\n')
    (hint : '\n' ∉ l.dropLast) :
    pySplit ['\n'] (p :: l) =
      if l.getLast? = some '\n' then [p :: l.dropLast, []] else [p :: l] := by
  by_cases hend : l.getLast? = some '\n'
  · rw [if_pos hend]
    conv_lhs => rw [concat_getLast? l hend]
    rw [show p :: (l.dropLast ++ ['\n']) = (p :: l.dropLast) ++ '\n' :: [] by simp,
      pySplit_nl_append]
    rw [pySplit_no_occurrence _ _ (containsSub_singleton_eq_false '\n' _ ?_)]
    · rw [pySplit_nl_nil]
      rfl
    · intro hmem
      rcases List.mem_cons.1 hmem with hm | hm
      · exact hp hm.symm
      · exact hint hm
  · rw [if_neg hend]
    refine pySplit_no_occurrence _ _ (containsSub_singleton_eq_false '\n' _ ?_)
    intro hmem
    rcases List.mem_cons.1 hmem with hm | hm
    · exact hp hm.symm
    · exact not_mem_of_not_dropLast_not_last l '\n' hint hend hm

namespace MergeCoordinator

theorem applyStep_nil (ol : List Text) (st : Nat × List Text) :
    applyStep ol st [] = some st := by
  simp [applyStep, leadsWith]

theorem applyStep_plus (ol : List Text) (st : Nat × List Text) (x : Text)
    (hpp : leadsWith ['+', '+'] x = false) :
    applyStep ol st ('+' :: x) = some (st.1, (x ++ ['\n']) :: st.2) := by
  have h1 : leadsWith ['@', '@'] ('+' :: x) = false := by simp [leadsWith]
  have h2 : leadsWith ['+'] ('+' :: x) = true := by simp [leadsWith]
  have h3 : leadsWith ['+', '+', '+'] ('+' :: x) = false := by
    simp [leadsWith, hpp]
  simp [applyStep, h1, h2, h3]

theorem applyStep_minus (ol : List Text) (st : Nat × List Text) (x : Text)
    (hmm : leadsWith ['-', '-'] x = false) :
    applyStep ol st ('-' :: x) = some (st.1 + 1, st.2) := by
  have h1 : leadsWith ['@', '@'] ('-' :: x) = false := by simp [leadsWith]
  have h2 : leadsWith ['+'] ('-' :: x) = false := by simp [leadsWith]
  have h3 : leadsWith ['-'] ('-' :: x) = true := by simp [leadsWith]
  have h4 : leadsWith ['-', '-', '-'] ('-' :: x) = false := by
    simp [leadsWith, hmm]
  simp [applyStep, h1, h2, h3, h4]

theorem applyStep_ctx (ol : List Text) (st : Nat × List Text) (x : Text)
    (hlt : st.1 < ol.length) :
    applyStep ol st (' ' :: x) = some (st.1 + 1, ol.getD st.1 [] :: st.2) := by
  have h1 : leadsWith ['@', '@'] (' ' :: x) = false := by simp [leadsWith]
  have h2 : leadsWith ['+'] (' ' :: x) = false := by simp [leadsWith]
  have h3 : leadsWith ['-'] (' ' :: x) = false := by simp [leadsWith]
  have h4 : leadsWith [' '] (' ' :: x) = true := by simp [leadsWith]
  simp [applyStep, h1, h2, h3, h4, hlt]

theorem applyStep_dashes (ol : List Text) (st : Nat × List Text) (x : Text) :
    applyStep ol st ('-' :: '-' :: '-' :: x) = some st := by
  have h1 : leadsWith ['@', '@'] ('-' :: '-' :: '-' :: x) = false := by simp [leadsWith]
  have h2 : leadsWith ['+'] ('-' :: '-' :: '-' :: x) = false := by simp [leadsWith]
  have h3 : leadsWith ['-', '-', '-'] ('-' :: '-' :: '-' :: x) = true := by simp [leadsWith]
  have h4 : leadsWith [' '] ('-' :: '-' :: '-' :: x) = false := by simp [leadsWith]
  simp [applyStep, h1, h2, h3, h4]

theorem applyStep_pluses (ol : List Text) (st : Nat × List Text) (x : Text) :
    applyStep ol st ('+' :: '+' :: '+' :: x) = some st := by
  have h1 : leadsWith ['@', '@'] ('+' :: '+' :: '+' :: x) = false := by simp [leadsWith]
  have h2 : leadsWith ['+', '+', '+'] ('+' :: '+' :: '+' :: x) = true := by simp [leadsWith]
  have h3 : leadsWith ['-'] ('+' :: '+' :: '+' :: x) = false := by simp [leadsWith]
  have h4 : leadsWith [' '] ('+' :: '+' :: '+' :: x) = false := by simp [leadsWith]
  simp [applyStep, h1, h2, h3, h4]

theorem applySteps_file_headers (ol : List Text) (ff tf : Text) (st : Nat × List Text)
    (hff : '\n' ∉ ff) (htf : '\n' ∉ tf) :
    applySteps ol
        (pySplit ['\n'] ("--- ".data ++ ff) ++ pySplit ['\n'] ("+++ ".data ++ tf)) st =
      some st := by
  have hf : pySplit ['\n'] ("--- ".data ++ ff) = ["--- ".data ++ ff] := by
    refine pySplit_no_occurrence _ _ (containsSub_singleton_eq_false '\n' _ ?_)
    intro hmem
    rcases List.mem_append.1 hmem with hm | hm
    · simp at hm
    · exact hff hm
  have ht : pySplit ['\n'] ("+++ ".data ++ tf) = ["+++ ".data ++ tf] := by
    refine pySplit_no_occurrence _ _ (containsSub_singleton_eq_false '\n' _ ?_)
    intro hmem
    rcases List.mem_append.1 hmem with hm | hm
    · simp at hm
    · exact htf hm
  rw [hf, ht]
  show applySteps ol ["--- ".data ++ ff, "+++ ".data ++ tf] st = some st
  simp only [applySteps]
  rw [show "--- ".data ++ ff = '-' :: '-' :: '-' :: (' ' :: ff) from rfl,
    applyStep_dashes]
  simp only [Option.some_bind]
  rw [show "+++ ".data ++ tf = '+' :: '+' :: '+' :: (' ' :: tf) from rfl,
    applyStep_pluses]
  simp [applySteps]

theorem applySteps_plus_lines (ol : List Text) : ∀ (ls : List Text) (i : Nat) (acc : List Text),
    (∀ l ∈ ls, '\n' ∉ l.dropLast) →
    (∀ l ∈ ls, leadsWith ['+', '+'] l = false) →
    applySteps ol (ls.flatMap fun l => pySplit ['\n'] ('+' :: l)) (i, acc) =
      some (i, (ls.map nlT).reverse ++ acc) := by
  intro ls
  induction ls with
  | nil => intro i acc _ _; simp [applySteps]
  | cons l ls ih =>
    intro i acc hint hpp
    rw [List.flatMap_cons, applySteps_append,
      pieces_prefixed '+' l (by decide) (hint l (by simp))]
    by_cases hend : l.getLast? = some '\n'
    · rw [if_pos hend]
      have hpp2 : leadsWith ['+', '+'] l.dropLast = false :=
        leadsWith_dropLast_false _ _ (hpp l (by simp))
      simp only [applySteps]
      rw [applyStep_plus ol (i, acc) l.dropLast hpp2]
      simp only [Option.some_bind]
      rw [applyStep_nil]
      simp only [Option.some_bind, applySteps]
      rw [ih i ((l.dropLast ++ ['\n']) :: acc) (fun x hx => hint x (by simp [hx]))
        (fun x hx => hpp x (by simp [hx]))]
      have hnl : nlT l = l.dropLast ++ ['\n'] := by
        rw [nlT, if_pos hend]
        exact concat_getLast? l hend
      simp [hnl]
    · rw [if_neg hend]
      simp only [applySteps]
      rw [applyStep_plus ol (i, acc) l (hpp l (by simp))]
      simp only [Option.some_bind]
      rw [ih i ((l ++ ['\n']) :: acc) (fun x hx => hint x (by simp [hx]))
        (fun x hx => hpp x (by simp [hx]))]
      have hnl : nlT l = l ++ ['\n'] := by
        rw [nlT, if_neg hend]
      simp [hnl]

theorem applySteps_minus_lines (ol : List Text) : ∀ (ls : List Text) (i : Nat) (acc : List Text),
    (∀ l ∈ ls, '\n' ∉ l.dropLast) →
    (∀ l ∈ ls, leadsWith ['-', '-'] l = false) →
    applySteps ol (ls.flatMap fun l => pySplit ['\n'] ('-' :: l)) (i, acc) =
      some (i + ls.length, acc) := by
  intro ls
  induction ls with
  | nil => intro i acc _ _; simp [applySteps]
  | cons l ls ih =>
    intro i acc hint hmm
    rw [List.flatMap_cons, applySteps_append,
      pieces_prefixed '-' l (by decide) (hint l (by simp))]
    have hstep : applyStep ol (i, acc) ('-' :: (if l.getLast? = some '\n' then l.dropLast else l)) = some (i + 1, acc) := by
      by_cases hend : l.getLast? = some '\n'
      · rw [if_pos hend]
        exact applyStep_minus ol (i, acc) l.dropLast
          (leadsWith_dropLast_false _ _ (hmm l (by simp)))
      · rw [if_neg hend]
        exact applyStep_minus ol (i, acc) l (hmm l (by simp))
    by_cases hend : l.getLast? = some '\n'
    · rw [if_pos hend]
      simp only [applySteps]
      rw [if_pos hend] at hstep
      rw [hstep]
      simp only [Option.some_bind]
      rw [applyStep_nil]
      simp only [Option.some_bind, applySteps]
      rw [ih (i + 1) acc (fun x hx => hint x (by simp [hx])) (fun x hx => hmm x (by simp [hx]))]
      have : i + 1 + ls.length = i + (l :: ls).length := by simp; omega
      rw [this]
    · rw [if_neg hend]
      simp only [applySteps]
      rw [if_neg hend] at hstep
      rw [hstep]
      simp only [Option.some_bind]
      rw [ih (i + 1) acc (fun x hx => hint x (by simp [hx])) (fun x hx => hmm x (by simp [hx]))]
      have : i + 1 + ls.length = i + (l :: ls).length := by simp; omega
      rw [this]

theorem sliceL_cons (l : List Text) (i k : Nat) (h1 : i < k) (h2 : i < l.length) :
    sliceL l i k = l.getD i [] :: sliceL l (i + 1) k := by
  unfold sliceL
  rw [List.drop_eq_getElem_cons h2, List.getD_eq_getElem _ _ h2]
  have hk : k - i = (k - (i + 1)) + 1 := by omega
  rw [hk, List.take_succ_cons]

theorem applySteps_ctx_lines (ol : List Text) : ∀ (n i : Nat) (acc : List Text),
    i + n ≤ ol.length →
    (∀ l ∈ sliceL ol i (i + n), '\n' ∉ l.dropLast) →
    applySteps ol ((sliceL ol i (i + n)).flatMap fun l => pySplit ['\n'] (' ' :: l)) (i, acc) =
      some (i + n, (sliceL ol i (i + n)).reverse ++ acc) := by
  intro n
  induction n with
  | zero => intro i acc _ _; simp [sliceL_self, applySteps]
  | succ n ih =>
    intro i acc hbound hint
    have hcons : sliceL ol i (i + (n + 1)) = ol.getD i [] :: sliceL ol (i + 1) (i + (n + 1)) :=
      sliceL_cons ol i (i + (n + 1)) (by omega) (by omega)
    rw [hcons, List.flatMap_cons, applySteps_append,
      pieces_prefixed ' ' (ol.getD i []) (by decide) (hint (ol.getD i []) (by rw [hcons]; simp))]
    have hteq : i + 1 + n = i + (n + 1) := by omega
    have hrest : ∀ l ∈ sliceL ol (i + 1) (i + 1 + n), '\n' ∉ l.dropLast := by
      intro x hx
      refine hint x ?_
      rw [hcons, hteq] at *
      simp [hx]
    by_cases hend : (ol.getD i []).getLast? = some '\n'
    · rw [if_pos hend]
      simp only [applySteps]
      rw [applyStep_ctx ol (i, acc) _ (by omega)]
      simp only [Option.some_bind]
      rw [applyStep_nil]
      simp only [Option.some_bind, applySteps]
      rw [show i + (n + 1) = i + 1 + n by omega] at *
      rw [ih (i + 1) (ol.getD i [] :: acc) (by omega) hrest]
      simp
    · rw [if_neg hend]
      simp only [applySteps]
      rw [applyStep_ctx ol (i, acc) _ (by omega)]
      simp only [Option.some_bind]
      rw [show i + (n + 1) = i + 1 + n by omega] at *
      rw [ih (i + 1) (ol.getD i [] :: acc) (by omega) hrest]
      simp

end MergeCoordinator

/-! ## Diff round-trip: hunk headers -/

namespace Difflib

theorem formatRangeUnified_eq_short (s k : Nat) (h : k - s = 1) :
    formatRangeUnified s k = natChars (s + 1) := by
  simp [formatRangeUnified, h]

theorem formatRangeUnified_eq_zero (s k : Nat) (h : k - s = 0) :
    formatRangeUnified s k = natChars s ++ ',' :: natChars 0 := by
  simp [formatRangeUnified, h]

theorem formatRangeUnified_eq_long (s k : Nat) (h : 2 ≤ k - s) :
    formatRangeUnified s k = natChars (s + 1) ++ ',' :: natChars (k - s) := by
  have h1 : ¬(k - s = 1) := by omega
  have h0 : ¬(k - s = 0) := by omega
  simp [formatRangeUnified, h1, h0]

theorem nl_not_mem_natChars (n : Nat) : '\n' ∉ natChars n :=
  fun h => absurd (natChars_all_digit n '\n' h) (by decide)

theorem nl_not_mem_formatRangeUnified (s k : Nat) : '\n' ∉ formatRangeUnified s k := by
  by_cases h1 : k - s = 1
  · rw [formatRangeUnified_eq_short _ _ h1]
    exact nl_not_mem_natChars (s + 1)
  · by_cases h0 : k - s = 0
    · rw [formatRangeUnified_eq_zero _ _ h0]
      intro hm
      rcases List.mem_append.1 hm with hm | hm
      · exact nl_not_mem_natChars s hm
      · rcases List.mem_cons.1 hm with hm | hm
        · simp at hm
        · exact nl_not_mem_natChars 0 hm
    · rw [formatRangeUnified_eq_long _ _ (by omega)]
      intro hm
      rcases List.mem_append.1 hm with hm | hm
      · exact nl_not_mem_natChars (s + 1) hm
      · rcases List.mem_cons.1 hm with hm | hm
        · simp at hm
        · exact nl_not_mem_natChars (k - s) hm

theorem nl_not_mem_headerForm (s k u v : Nat) :
    '\n' ∉ "@@ -".data ++ formatRangeUnified s k ++ " +".data ++
      formatRangeUnified u v ++ " @@".data := by
  intro hm
  rcases List.mem_append.1 hm with hm | hm
  · rcases List.mem_append.1 hm with hm | hm
    · rcases List.mem_append.1 hm with hm | hm
      · rcases List.mem_append.1 hm with hm | hm
        · simp at hm
        · exact nl_not_mem_formatRangeUnified s k hm
      · simp at hm
    · exact nl_not_mem_formatRangeUnified u v hm
  · simp at hm

theorem groupHeader_eq (g : List Opcode) (f l : Opcode)
    (hf : g.head? = some f) (hl : g.getLast? = some l) :
    groupHeader g = "@@ -".data ++ formatRangeUnified f.i1 l.i2 ++ " +".data ++
      formatRangeUnified f.j1 l.j2 ++ " @@".data := by
  unfold groupHeader
  rw [hf, hl]

end Difflib

namespace MergeCoordinator

theorem parseHunkHeader_short_old_none (w : Nat) (rest : Text) :
    parseHunkHeader ('@' :: '@' :: ' ' :: '-' :: (natChars w ++ ' ' :: rest)) = none := by
  have e1 := takeWhile_app Char.isDigit (natChars w) ' ' rest (natChars_all_digit w) (by decide)
  have e2 := dropWhile_app Char.isDigit (natChars w) ' ' rest (natChars_all_digit w) (by decide)
  have e0 : expectChar ',' (' ' :: rest) = none := by simp [expectChar]
  simp only [parseHunkHeader, Bind.bind, Option.bind, expectChar_cons_self,
    e1, e2, guard_pos (natChars_ne_nil w), e0]

theorem parseHunkHeader_short_new_none (w x y : Nat) (rest : Text) :
    parseHunkHeader ('@' :: '@' :: ' ' :: '-' ::
      (natChars w ++ ',' :: (natChars x ++ ' ' :: '+' :: (natChars y ++ ' ' :: rest)))) = none := by
  have e1 := takeWhile_app Char.isDigit (natChars w) ','
    (natChars x ++ ' ' :: '+' :: (natChars y ++ ' ' :: rest)) (natChars_all_digit w) (by decide)
  have e2 := dropWhile_app Char.isDigit (natChars w) ','
    (natChars x ++ ' ' :: '+' :: (natChars y ++ ' ' :: rest)) (natChars_all_digit w) (by decide)
  have e3 := takeWhile_app Char.isDigit (natChars x) ' '
    ('+' :: (natChars y ++ ' ' :: rest)) (natChars_all_digit x) (by decide)
  have e4 := dropWhile_app Char.isDigit (natChars x) ' '
    ('+' :: (natChars y ++ ' ' :: rest)) (natChars_all_digit x) (by decide)
  have e5 := takeWhile_app Char.isDigit (natChars y) ' ' rest (natChars_all_digit y) (by decide)
  have e6 := dropWhile_app Char.isDigit (natChars y) ' ' rest (natChars_all_digit y) (by decide)
  have e0 : expectChar ',' (' ' :: rest) = none := by simp [expectChar]
  simp only [parseHunkHeader, Bind.bind, Option.bind, expectChar_cons_self,
    e1, e2, e3, e4, e5, e6, guard_pos (natChars_ne_nil w), guard_pos (natChars_ne_nil x),
    guard_pos (natChars_ne_nil y), e0]

theorem parseHunkHeader_four (w x y z : Nat) :
    parseHunkHeader ("@@ -".data ++ (natChars w ++ ',' :: natChars x) ++ " +".data ++
      (natChars y ++ ',' :: natChars z) ++ " @@".data) = some (w, x, y, z) := by
  have hshape : "@@ -".data ++ (natChars w ++ ',' :: natChars x) ++ " +".data ++
      (natChars y ++ ',' :: natChars z) ++ " @@".data = mkHunkHeader w x y z := by
    simp [mkHunkHeader, List.append_assoc]
  rw [hshape, parseHunkHeader_mk]

theorem parseHunkHeader_fr (w x u v : Nat) (hn1 : v - u ≠ 1) :
    parseHunkHeader ("@@ -".data ++ (natChars w ++ ',' :: natChars x) ++ " +".data ++
      Difflib.formatRangeUnified u v ++ " @@".data) =
      some (w, x, (if v - u = 0 then u else u + 1), v - u) := by
  by_cases hn0 : v - u = 0
  · rw [Difflib.formatRangeUnified_eq_zero _ _ hn0, if_pos hn0, hn0, parseHunkHeader_four]
  · have h2 : 2 ≤ v - u := by omega
    rw [Difflib.formatRangeUnified_eq_long _ _ h2, if_neg hn0, parseHunkHeader_four]

theorem applySteps_header (a : List Text) (g : List Difflib.Opcode) (f l : Difflib.Opcode)
    (hf : g.head? = some f) (hl : g.getLast? = some l) (i : Nat) (acc : List Text)
    (hi : i ≤ f.i1) (hbound : f.i1 ≤ a.length)
    (hsf : (l.i2 - f.i1 ≤ 1 ∨ l.j2 - f.j1 ≤ 1) → f.i1 = i) :
    applySteps a (pySplit ['\n'] (Difflib.groupHeader g)) (i, acc) =
      some (f.i1, (sliceL a i f.i1).reverse ++ acc) := by
  rw [Difflib.groupHeader_eq g f l hf hl,
    pySplit_no_occurrence _ _ (containsSub_singleton_eq_false '\n' _
      (Difflib.nl_not_mem_headerForm f.i1 l.i2 f.j1 l.j2))]
  simp only [applySteps]
  by_cases ho1 : l.i2 - f.i1 = 1
  · have hshape : "@@ -".data ++ Difflib.formatRangeUnified f.i1 l.i2 ++ " +".data ++
        Difflib.formatRangeUnified f.j1 l.j2 ++ " @@".data =
        '@' :: '@' :: ' ' :: '-' :: (natChars (f.i1 + 1) ++ ' ' ::
          ('+' :: (Difflib.formatRangeUnified f.j1 l.j2 ++ " @@".data))) := by
      rw [Difflib.formatRangeUnified_eq_short _ _ ho1]
      simp [List.append_assoc]
    rw [hshape]
    unfold applyStep
    rw [if_pos (by simp [leadsWith]), parseHunkHeader_short_old_none]
    have hfi : f.i1 = i := hsf (Or.inl (by omega))
    rw [hfi, sliceL_self]
    simp [applySteps]
  · by_cases hn1 : l.j2 - f.j1 = 1
    · have hfi : f.i1 = i := hsf (Or.inr (by omega))
      by_cases ho0 : l.i2 - f.i1 = 0
      · have hshape : "@@ -".data ++ Difflib.formatRangeUnified f.i1 l.i2 ++ " +".data ++
            Difflib.formatRangeUnified f.j1 l.j2 ++ " @@".data =
            '@' :: '@' :: ' ' :: '-' :: (natChars f.i1 ++ ',' ::
              (natChars 0 ++ ' ' :: '+' :: (natChars (f.j1 + 1) ++ ' ' :: "@@".data))) := by
          rw [Difflib.formatRangeUnified_eq_zero _ _ ho0,
            Difflib.formatRangeUnified_eq_short _ _ hn1]
          simp [List.append_assoc]
        rw [hshape]
        unfold applyStep
        rw [if_pos (by simp [leadsWith]), parseHunkHeader_short_new_none]
        rw [hfi, sliceL_self]
        simp [applySteps]
      · have h2 : 2 ≤ l.i2 - f.i1 := by omega
        have hshape : "@@ -".data ++ Difflib.formatRangeUnified f.i1 l.i2 ++ " +".data ++
            Difflib.formatRangeUnified f.j1 l.j2 ++ " @@".data =
            '@' :: '@' :: ' ' :: '-' :: (natChars (f.i1 + 1) ++ ',' ::
              (natChars (l.i2 - f.i1) ++ ' ' :: '+' ::
                (natChars (f.j1 + 1) ++ ' ' :: "@@".data))) := by
          rw [Difflib.formatRangeUnified_eq_long _ _ h2,
            Difflib.formatRangeUnified_eq_short _ _ hn1]
          simp [List.append_assoc]
        rw [hshape]
        unfold applyStep
        rw [if_pos (by simp [leadsWith]), parseHunkHeader_short_new_none]
        rw [hfi, sliceL_self]
        simp [applySteps]
    · by_cases ho0 : l.i2 - f.i1 = 0
      · have hfi : f.i1 = i := hsf (Or.inl (by omega))
        have hshape : "@@ -".data ++ Difflib.formatRangeUnified f.i1 l.i2 ++ " +".data ++
            Difflib.formatRangeUnified f.j1 l.j2 ++ " @@".data =
            "@@ -".data ++ (natChars f.i1 ++ ',' :: natChars 0) ++ " +".data ++
              Difflib.formatRangeUnified f.j1 l.j2 ++ " @@".data := by
          rw [Difflib.formatRangeUnified_eq_zero _ _ ho0]
        rw [hshape]
        unfold applyStep
        rw [if_pos (by simp [leadsWith]), parseHunkHeader_fr f.i1 0 f.j1 l.j2 hn1]
        dsimp only
        rw [if_pos (show f.i1 - 1 ≤ a.length by omega)]
        have hmax : max i (f.i1 - 1) = i := by omega
        have htake : f.i1 - 1 - i = 0 := by omega
        rw [hmax, htake]
        rw [hfi, sliceL_self]
        simp [applySteps]
      · have h2 : 2 ≤ l.i2 - f.i1 := by omega
        have hshape : "@@ -".data ++ Difflib.formatRangeUnified f.i1 l.i2 ++ " +".data ++
            Difflib.formatRangeUnified f.j1 l.j2 ++ " @@".data =
            "@@ -".data ++ (natChars (f.i1 + 1) ++ ',' :: natChars (l.i2 - f.i1)) ++ " +".data ++
              Difflib.formatRangeUnified f.j1 l.j2 ++ " @@".data := by
          rw [Difflib.formatRangeUnified_eq_long _ _ h2]
        rw [hshape]
        unfold applyStep
        rw [if_pos (by simp [leadsWith]),
          parseHunkHeader_fr (f.i1 + 1) (l.i2 - f.i1) f.j1 l.j2 hn1]
        dsimp only
        rw [if_pos (show f.i1 + 1 - 1 ≤ a.length by omega)]
        have hmax : max i (f.i1 + 1 - 1) = f.i1 := by omega
        have hs1 : f.i1 + 1 - 1 - i = f.i1 - i := by omega
        rw [hmax, hs1]
        simp [applySteps, sliceL]

end MergeCoordinator

/-! ## Diff round-trip: the applier walks grouped opcodes -/

theorem flatMap_flatMap_eq {α β γ : Type} (ls : List α) (g : α → List β) (h : β → List γ) :
    (ls.flatMap g).flatMap h = ls.flatMap fun x => (g x).flatMap h := by
  induction ls with
  | nil => rfl
  | cons x xs ih => simp [List.flatMap_cons, List.flatMap_append, ih]

namespace Difflib

theorem chainSeg_nil (a b : List Text) (i j e f : Nat)
    (h : chainSeg a b i j [] e f = true) : i = e ∧ j = f := by
  simpa [chainSeg] using h

theorem chainSeg_nil_intro (a b : List Text) (i j : Nat) :
    chainSeg a b i j [] i j = true := by simp [chainSeg]

theorem chainSeg_cons_elim (a b : List Text) (i j e f : Nat) (op : Opcode)
    (rest : List Opcode) (h : chainSeg a b i j (op :: rest) e f = true) :
    op.i1 = i ∧ op.j1 = j ∧ i ≤ op.i2 ∧ j ≤ op.j2 ∧ op.i2 ≤ a.length ∧ op.j2 ≤ b.length ∧
      (op.tag = .equal → op.i2 - op.i1 = op.j2 - op.j1 ∧
        sliceL a op.i1 op.i2 = sliceL b op.j1 op.j2) ∧
      (op.tag = .insert → op.i2 = op.i1) ∧
      (op.tag = .delete → op.j2 = op.j1) ∧
      chainSeg a b op.i2 op.j2 rest e f = true := by
  simp only [chainSeg, Bool.and_eq_true, Bool.or_eq_true, decide_eq_true_eq] at h
  obtain ⟨⟨⟨⟨⟨⟨⟨⟨⟨h1, h2⟩, h3⟩, h4⟩, h5⟩, h6⟩, h7⟩, h8⟩, h9⟩, h10⟩ := h
  exact ⟨h1, h2, h3, h4, h5, h6,
    fun ht => h7.resolve_left (by simp [ht]),
    fun ht => h8.resolve_left (by simp [ht]),
    fun ht => h9.resolve_left (by simp [ht]), h10⟩

theorem chainSeg_cons_intro (a b : List Text) (i j e f : Nat) (op : Opcode)
    (rest : List Opcode)
    (h1 : op.i1 = i) (h2 : op.j1 = j) (h3 : i ≤ op.i2) (h4 : j ≤ op.j2)
    (h5 : op.i2 ≤ a.length) (h6 : op.j2 ≤ b.length)
    (heq : op.tag = .equal → op.i2 - op.i1 = op.j2 - op.j1 ∧
      sliceL a op.i1 op.i2 = sliceL b op.j1 op.j2)
    (hins : op.tag = .insert → op.i2 = op.i1)
    (hdel : op.tag = .delete → op.j2 = op.j1)
    (hrest : chainSeg a b op.i2 op.j2 rest e f = true) :
    chainSeg a b i j (op :: rest) e f = true := by
  simp only [chainSeg, Bool.and_eq_true, Bool.or_eq_true, decide_eq_true_eq]
  refine ⟨⟨⟨⟨⟨⟨⟨⟨⟨h1, h2⟩, h3⟩, h4⟩, h5⟩, h6⟩, ?_⟩, ?_⟩, ?_⟩, hrest⟩
  · by_cases ht : op.tag = .equal
    · exact Or.inr (heq ht)
    · exact Or.inl ht
  · by_cases ht : op.tag = .insert
    · exact Or.inr (hins ht)
    · exact Or.inl ht
  · by_cases ht : op.tag = .delete
    · exact Or.inr (hdel ht)
    · exact Or.inl ht

theorem chainSeg_append_intro (a b : List Text) : ∀ (xs ys : List Opcode) (i j k l e f : Nat),
    chainSeg a b i j xs k l = true → chainSeg a b k l ys e f = true →
    chainSeg a b i j (xs ++ ys) e f = true := by
  intro xs
  induction xs with
  | nil =>
    intro ys i j k l e f hx hy
    obtain ⟨hi, hj⟩ := chainSeg_nil a b i j k l hx
    rw [List.nil_append, hi, hj]
    exact hy
  | cons op rest ih =>
    intro ys i j k l e f hx hy
    simp only [List.cons_append, chainSeg, Bool.and_eq_true] at hx ⊢
    obtain ⟨hs, hrec⟩ := hx
    exact ⟨hs, ih ys op.i2 op.j2 k l e f hrec hy⟩

theorem chainSeg_mono (a b : List Text) : ∀ (ops : List Opcode) (i j e f : Nat),
    chainSeg a b i j ops e f = true → i ≤ e ∧ j ≤ f := by
  intro ops
  induction ops with
  | nil =>
    intro i j e f h
    obtain ⟨hi, hj⟩ := chainSeg_nil a b i j e f h
    omega
  | cons op rest ih =>
    intro i j e f h
    obtain ⟨_, _, h3, h4, _, _, _, _, _, hrest⟩ := chainSeg_cons_elim a b i j e f op rest h
    have := ih op.i2 op.j2 e f hrest
    omega

theorem chainSeg_getLast_elim (a b : List Text) : ∀ (ops : List Opcode) (l : Opcode)
    (i j e f : Nat), ops.getLast? = some l → chainSeg a b i j ops e f = true →
    l.i2 = e ∧ l.j2 = f := by
  intro ops
  induction ops with
  | nil => intro l i j e f hl; simp at hl
  | cons op rest ih =>
    intro l i j e f hl hch
    obtain ⟨_, _, _, _, _, _, _, _, _, hrest⟩ :=
      chainSeg_cons_elim a b i j e f op rest hch
    cases rest with
    | nil =>
      simp at hl
      obtain ⟨hi, hj⟩ := chainSeg_nil a b op.i2 op.j2 e f hrest
      rw [← hl, ← hi, ← hj]
      exact ⟨rfl, rfl⟩
    | cons r rs =>
      rw [List.getLast?_cons_cons] at hl
      exact ih l op.i2 op.j2 e f hl hrest

theorem chainSeg_end_le (a b : List Text) : ∀ (ops : List Opcode) (i j e f : Nat),
    ops ≠ [] → chainSeg a b i j ops e f = true → e ≤ a.length ∧ f ≤ b.length := by
  intro ops
  induction ops with
  | nil => intro i j e f hne; exact absurd rfl hne
  | cons op rest ih =>
    intro i j e f _ hch
    obtain ⟨_, _, _, _, h5, h6, _, _, _, hrest⟩ :=
      chainSeg_cons_elim a b i j e f op rest hch
    cases rest with
    | nil =>
      obtain ⟨hi, hj⟩ := chainSeg_nil a b op.i2 op.j2 e f hrest
      omega
    | cons r rs => exact ih op.i2 op.j2 e f (by simp) hrest

end Difflib

namespace MergeCoordinator

theorem flatten_map_nlT (ls : List Text)
    (hinit : ∀ k, k + 1 < ls.length → (ls.getD k []).getLast? = some '\n') :
    (ls.map nlT).flatten = ls.flatten ∨
      ((ls.map nlT).flatten = ls.flatten ++ ['\n'] ∧
        ∃ x, ls.getLast? = some x ∧ x.getLast? ≠ some '\n') := by
  induction ls with
  | nil => left; rfl
  | cons l ls ih =>
    cases ls with
    | nil =>
      by_cases h : l.getLast? = some '\n'
      · left; simp [nlT, h]
      · right
        refine ⟨by simp [nlT, h], l, rfl, h⟩
    | cons l2 ls2 =>
      have hg : l.getLast? = some '\n' := by
        have := hinit 0 (by simp)
        simpa using this
      have h0 : nlT l = l := by
        simp only [nlT]
        rw [if_pos hg]
      have hinit' : ∀ k, k + 1 < (l2 :: ls2).length →
          ((l2 :: ls2).getD k []).getLast? = some '\n' := by
        intro k hk
        have := hinit (k + 1) (by simp at hk ⊢; omega)
        simpa using this
      rcases ih hinit' with h | ⟨h, x, hx, hxn⟩
      · left
        calc (List.map nlT (l :: l2 :: ls2)).flatten
            = nlT l ++ (List.map nlT (l2 :: ls2)).flatten := rfl
          _ = l ++ (l2 :: ls2).flatten := by rw [h0, h]
          _ = (l :: l2 :: ls2).flatten := rfl
      · right
        refine ⟨?_, x, ?_, hxn⟩
        · calc (List.map nlT (l :: l2 :: ls2)).flatten
              = nlT l ++ (List.map nlT (l2 :: ls2)).flatten := rfl
            _ = l ++ ((l2 :: ls2).flatten ++ ['\n']) := by rw [h0, h]
            _ = (l :: l2 :: ls2).flatten ++ ['\n'] := by
                rw [← List.append_assoc]
                rfl
        · rw [List.getLast?_cons_cons]
          exact hx

theorem sliceL_getLast (b : List Text) (j k : Nat) (hjk : j < k) (hk : k ≤ b.length) :
    (sliceL b j k).getLast? = some (b.getD (k - 1) []) := by
  have hlen : (sliceL b j k).length = k - j := sliceL_length b j k (by omega) hk
  have hidx : k - j - 1 < (sliceL b j k).length := by omega
  rw [List.getLast?_eq_getElem?, hlen, List.getElem?_eq_getElem hidx]
  have hgd := sliceL_getD b j k (k - j - 1) (by omega) hk
  rw [List.getD_eq_getElem _ _ hidx] at hgd
  have hix : j + (k - j - 1) = k - 1 := by omega
  rw [hgd, hix]

theorem contentInv_copy (b : List Text) (j j2 : Nat) (acc : List Text)
    (h4 : j ≤ j2) (h6 : j2 ≤ b.length) (hInv : ContentInv b j acc) :
    ContentInv b j2 ((sliceL b j j2).reverse ++ acc) := by
  have hacc : (((sliceL b j j2)).reverse ++ acc).reverse.flatten =
      acc.reverse.flatten ++ (sliceL b j j2).flatten := by
    rw [List.reverse_append, List.reverse_reverse, List.flatten_append]
  rcases hInv with hflat | ⟨hj, hflat⟩
  · left
    rw [hacc, hflat, ← flatten_take_slice b j j2 h4]
  · have hj2 : j2 = b.length := by omega
    have hsl : sliceL b j j2 = [] := by rw [hj, hj2, sliceL_self]
    rw [hsl]
    right
    exact ⟨hj2, by simpa using hflat⟩

theorem contentInv_plus (b : List Text)
    (hbterm : ∀ k, k + 1 < b.length → (b.getD k []).getLast? = some '\n')
    (j j2 : Nat) (acc : List Text) (h4 : j ≤ j2) (h6 : j2 ≤ b.length)
    (hInv : ContentInv b j acc) :
    ContentInv b j2 (((sliceL b j j2).map nlT).reverse ++ acc) := by
  have hacc : ((((sliceL b j j2).map nlT)).reverse ++ acc).reverse.flatten =
      acc.reverse.flatten ++ ((sliceL b j j2).map nlT).flatten := by
    rw [List.reverse_append, List.reverse_reverse, List.flatten_append]
  rcases hInv with hflat | ⟨hj, hflat⟩
  · have hinit : ∀ k, k + 1 < (sliceL b j j2).length →
        ((sliceL b j j2).getD k []).getLast? = some '\n' := by
      intro k hk
      rw [sliceL_length b j j2 h4 h6] at hk
      rw [sliceL_getD b j j2 k (by omega) h6]
      exact hbterm (j + k) (by omega)
    rcases flatten_map_nlT (sliceL b j j2) hinit with h | ⟨h, x, hx, hxn⟩
    · left
      rw [hacc, h, hflat, ← flatten_take_slice b j j2 h4]
    · have hne : j < j2 := by
        by_contra hc
        have hjj : j2 = j := by omega
        rw [hjj, sliceL_self] at hx
        simp at hx
      have hlast := sliceL_getLast b j j2 hne h6
      rw [hx] at hlast
      have hx2 : x = b.getD (j2 - 1) [] := by
        injection hlast
      have hj2 : j2 = b.length := by
        by_contra hc
        have hlt : j2 - 1 + 1 < b.length := by omega
        have hterm := hbterm (j2 - 1) hlt
        rw [← hx2] at hterm
        exact hxn hterm
      right
      refine ⟨hj2, ?_⟩
      rw [hacc, h, hflat, ← List.append_assoc, ← flatten_take_slice b j j2 h4, hj2,
        List.take_length]
  · have hj2 : j2 = b.length := by omega
    have hsl : sliceL b j j2 = [] := by rw [hj, hj2, sliceL_self]
    rw [hsl]
    right
    exact ⟨hj2, by simpa using hflat⟩

theorem applySteps_opcode (a b : List Text)
    (haint : ∀ l ∈ a, '\n' ∉ l.dropLast)
    (hbint : ∀ l ∈ b, '\n' ∉ l.dropLast)
    (hbterm : ∀ k, k + 1 < b.length → (b.getD k []).getLast? = some '\n')
    (hamm : ∀ l ∈ a, leadsWith ['-', '-'] l = false)
    (hbpp : ∀ l ∈ b, leadsWith ['+', '+'] l = false)
    (op : Difflib.Opcode) (i j : Nat) (acc : List Text)
    (h1 : op.i1 = i) (h2 : op.j1 = j) (h3 : i ≤ op.i2) (h4 : j ≤ op.j2)
    (h5 : op.i2 ≤ a.length) (h6 : op.j2 ≤ b.length)
    (heq : op.tag = Difflib.Tag.equal → op.i2 - op.i1 = op.j2 - op.j1 ∧
      sliceL a op.i1 op.i2 = sliceL b op.j1 op.j2)
    (hins : op.tag = Difflib.Tag.insert → op.i2 = op.i1)
    (hdel : op.tag = Difflib.Tag.delete → op.j2 = op.j1)
    (hInv : ContentInv b j acc) :
    ∃ acc', applySteps a ((Difflib.opLines a b op).flatMap (pySplit ['\n'])) (i, acc) =
        some (op.i2, acc') ∧ ContentInv b op.j2 acc' := by
  have hctx : applySteps a ((sliceL a i op.i2).flatMap fun l => pySplit ['\n'] (' ' :: l))
      (i, acc) = some (op.i2, (sliceL a i op.i2).reverse ++ acc) := by
    have hbase := applySteps_ctx_lines a (op.i2 - i) i acc (by omega)
      (by
        intro x hx
        refine haint x (mem_of_mem_sliceL a i (i + (op.i2 - i)) x hx))
    rw [show i + (op.i2 - i) = op.i2 from by omega] at hbase
    exact hbase
  have hminus : applySteps a ((sliceL a i op.i2).flatMap fun l => pySplit ['\n'] ('-' :: l))
      (i, acc) = some (op.i2, acc) := by
    have hlen : (sliceL a i op.i2).length = op.i2 - i := sliceL_length a i op.i2 h3 h5
    have hbase := applySteps_minus_lines a (sliceL a i op.i2) i acc
      (fun x hx => haint x (mem_of_mem_sliceL a i op.i2 x hx))
      (fun x hx => hamm x (mem_of_mem_sliceL a i op.i2 x hx))
    rw [hlen, show i + (op.i2 - i) = op.i2 from by omega] at hbase
    exact hbase
  cases htag : op.tag with
  | equal =>
    obtain ⟨hlen, hslice⟩ := heq htag
    rw [h1, h2] at hslice
    refine ⟨(sliceL a i op.i2).reverse ++ acc, ?_, ?_⟩
    · have hop : Difflib.opLines a b op = (sliceL a op.i1 op.i2).map (fun l => ' ' :: l) := by
        unfold Difflib.opLines
        rw [htag]
      rw [hop, List.flatMap_map, h1]
      exact hctx
    · rw [hslice]
      exact contentInv_copy b j op.j2 acc h4 h6 hInv
  | delete =>
    have hjj : op.j2 = j := by rw [hdel htag, h2]
    refine ⟨acc, ?_, ?_⟩
    · have hop : Difflib.opLines a b op = (sliceL a op.i1 op.i2).map (fun l => '-' :: l) := by
        unfold Difflib.opLines
        rw [htag]
      rw [hop, List.flatMap_map, h1]
      exact hminus
    · rw [hjj]
      exact hInv
  | insert =>
    have hii : op.i2 = i := by rw [hins htag, h1]
    refine ⟨((sliceL b j op.j2).map nlT).reverse ++ acc, ?_, ?_⟩
    · have hop : Difflib.opLines a b op = (sliceL b op.j1 op.j2).map (fun l => '+' :: l) := by
        unfold Difflib.opLines
        rw [htag]
      rw [hop, List.flatMap_map, h2]
      have hbase := applySteps_plus_lines a (sliceL b j op.j2) i acc
        (fun x hx => hbint x (mem_of_mem_sliceL b j op.j2 x hx))
        (fun x hx => hbpp x (mem_of_mem_sliceL b j op.j2 x hx))
      rw [hii]
      exact hbase
    · exact contentInv_plus b hbterm j op.j2 acc h4 h6 hInv
  | replace =>
    refine ⟨((sliceL b j op.j2).map nlT).reverse ++ acc, ?_, ?_⟩
    · have hop : Difflib.opLines a b op =
          (sliceL a op.i1 op.i2).map (fun l => '-' :: l) ++
            (sliceL b op.j1 op.j2).map (fun l => '+' :: l) := by
        unfold Difflib.opLines
        rw [htag]
      rw [hop, List.flatMap_append, applySteps_append, List.flatMap_map, List.flatMap_map,
        h1, h2, hminus]
      simp only [Option.some_bind]
      exact applySteps_plus_lines a (sliceL b j op.j2) op.i2 acc
        (fun x hx => hbint x (mem_of_mem_sliceL b j op.j2 x hx))
        (fun x hx => hbpp x (mem_of_mem_sliceL b j op.j2 x hx))
    · exact contentInv_plus b hbterm j op.j2 acc h4 h6 hInv

theorem applySteps_ops (a b : List Text)
    (haint : ∀ l ∈ a, '\n' ∉ l.dropLast)
    (hbint : ∀ l ∈ b, '\n' ∉ l.dropLast)
    (hbterm : ∀ k, k + 1 < b.length → (b.getD k []).getLast? = some '\n')
    (hamm : ∀ l ∈ a, leadsWith ['-', '-'] l = false)
    (hbpp : ∀ l ∈ b, leadsWith ['+', '+'] l = false) :
    ∀ (g : List Difflib.Opcode) (i j e f : Nat) (acc : List Text),
    Difflib.chainSeg a b i j g e f = true → ContentInv b j acc →
    ∃ acc', applySteps a
        (g.flatMap fun op => (Difflib.opLines a b op).flatMap (pySplit ['\n'])) (i, acc) =
        some (e, acc') ∧ ContentInv b f acc' := by
  intro g
  induction g with
  | nil =>
    intro i j e f acc hch hInv
    obtain ⟨hi, hj⟩ := Difflib.chainSeg_nil a b i j e f hch
    rw [← hi]
    rw [← hj] at *
    exact ⟨acc, by simp [applySteps], hInv⟩
  | cons op rest ih =>
    intro i j e f acc hch hInv
    obtain ⟨h1, h2, h3, h4, h5, h6, heq, hins, hdel, hrest⟩ :=
      Difflib.chainSeg_cons_elim a b i j e f op rest hch
    rw [List.flatMap_cons, applySteps_append]
    obtain ⟨acc1, hstep, hInv1⟩ := applySteps_opcode a b haint hbint hbterm hamm hbpp
      op i j acc h1 h2 h3 h4 h5 h6 heq hins hdel hInv
    rw [hstep]
    simp only [Option.some_bind]
    exact ih op.i2 op.j2 e f acc1 hrest hInv1

theorem applySteps_groups (a b : List Text)
    (haint : ∀ l ∈ a, '\n' ∉ l.dropLast)
    (hbint : ∀ l ∈ b, '\n' ∉ l.dropLast)
    (hbterm : ∀ k, k + 1 < b.length → (b.getD k []).getLast? = some '\n')
    (hamm : ∀ l ∈ a, leadsWith ['-', '-'] l = false)
    (hbpp : ∀ l ∈ b, leadsWith ['+', '+'] l = false) :
    ∀ (gs : List (List Difflib.Opcode)) (i j : Nat) (acc : List Text),
    groupsOk a b i j gs → ContentInv b j acc → j ≤ b.length →
    ∃ i' j' acc', applySteps a
        (gs.flatMap fun g => (Difflib.groupElems a b g).flatMap (pySplit ['\n'])) (i, acc) =
        some (i', acc') ∧ ContentInv b j' acc' ∧ a.drop i' = b.drop j' := by
  intro gs
  induction gs with
  | nil =>
    intro i j acc hok hInv hjb
    exact ⟨i, j, acc, by simp [applySteps], hInv, hok⟩
  | cons g gs ih =>
    intro i j acc hok hInv hjb
    obtain ⟨f, l, hf, hl, hif, hjf, hfa, hfb, hgap, hchain, hsf, hrest⟩ := hok
    rw [List.flatMap_cons, applySteps_append]
    rw [show (Difflib.groupElems a b g).flatMap (pySplit ['\n']) =
        pySplit ['\n'] (Difflib.groupHeader g) ++
          (g.flatMap (Difflib.opLines a b)).flatMap (pySplit ['\n']) from by
      rw [Difflib.groupElems, List.flatMap_cons]]
    rw [applySteps_append, applySteps_header a g f l hf hl i acc hif hfa hsf]
    simp only [Option.some_bind]
    have hInv1 : ContentInv b f.j1 ((sliceL a i f.i1).reverse ++ acc) := by
      rw [hgap]
      exact contentInv_copy b j f.j1 acc hjf hfb hInv
    rw [flatMap_flatMap_eq]
    obtain ⟨acc2, hsteps2, hInv2⟩ := applySteps_ops a b haint hbint hbterm hamm hbpp
      g f.i1 f.j1 l.i2 l.j2 ((sliceL a i f.i1).reverse ++ acc) hchain hInv1
    rw [hsteps2]
    simp only [Option.some_bind]
    have hg_ne : g ≠ [] := by
      intro hg
      rw [hg] at hf
      simp at hf
    have hend := Difflib.chainSeg_end_le a b g f.i1 f.j1 l.i2 l.j2 hg_ne hchain
    exact ih l.i2 l.j2 acc2 hrest hInv2 hend.2

theorem applyDiffManual_of_groupsOk (O M ff tf : Text) (groups : List (List Difflib.Opcode))
    (hgOk : groupsOk (splitLinesKeep O) (splitLinesKeep M) 0 0 groups)
    (hM2 : ∀ c ∈ M, isLineBreak c = true → c = '\n')
    (hOline : ∀ l ∈ splitLinesKeep O, leadsWith ['-', '-'] l = false)
    (hMline : ∀ l ∈ splitLinesKeep M, leadsWith ['+', '+'] l = false)
    (hff : '\n' ∉ ff) (htf : '\n' ∉ tf) :
    applyDiffManual O (joinNl (Difflib.unifiedDiffLines ff tf
        (splitLinesKeep O) (splitLinesKeep M) groups)) = M ∨
      applyDiffManual O (joinNl (Difflib.unifiedDiffLines ff tf
        (splitLinesKeep O) (splitLinesKeep M) groups)) = M ++ ['\n'] := by
  by_cases hgs : groups = []
  · subst hgs
    left
    have hab : splitLinesKeep O = splitLinesKeep M := by
      have h0 : (splitLinesKeep O).drop 0 = (splitLinesKeep M).drop 0 := hgOk
      simpa using h0
    have hOM : O = M := by
      rw [← splitLinesKeep_flatten O, ← splitLinesKeep_flatten M, hab]
    rw [Difflib.unifiedDiffLines, if_pos rfl]
    have haux : applyDiffAux (splitLinesKeep O) (pySplit ['\n'] (joinNl [])) 0 [] =
        some (splitLinesKeep O) := by
      rw [show joinNl ([] : List Text) = [] from rfl,
        show pySplit ['\n'] ([] : Text) = [[]] from rfl,
        applyDiffAux_eq_applySteps]
      simp only [applySteps]
      rw [applyStep_nil]
      simp [applySteps]
    unfold applyDiffManual
    rw [haux]
    dsimp only
    rw [splitLinesKeep_flatten]
    exact hOM
  · rw [Difflib.unifiedDiffLines, if_neg hgs]
    obtain ⟨i', j', acc', hsteps, hInv, hdrop⟩ :=
      applySteps_groups (splitLinesKeep O) (splitLinesKeep M)
        (splitLinesKeep_interior O) (splitLinesKeep_interior M)
        (splitLinesKeep_pos_terminated M hM2) hOline hMline
        groups 0 0 [] hgOk (Or.inl rfl) (Nat.zero_le _)
    have haux : applyDiffAux (splitLinesKeep O)
        (pySplit ['\n'] (joinNl (("--- ".data ++ ff) :: ("+++ ".data ++ tf) ::
          groups.flatMap (Difflib.groupElems (splitLinesKeep O) (splitLinesKeep M))))) 0 [] =
        some (acc'.reverse ++ (splitLinesKeep O).drop i') := by
      rw [applyDiffAux_eq_applySteps, pySplit_joinNl_flatMap _ (by simp)]
      simp only [List.flatMap_cons]
      rw [← List.append_assoc, applySteps_append,
        applySteps_file_headers _ _ _ _ hff htf]
      simp only [Option.some_bind]
      rw [flatMap_flatMap_eq, hsteps]
      rfl
    unfold applyDiffManual
    rw [haux]
    dsimp only
    rcases hInv with hflat | ⟨hj, hflat⟩
    · left
      rw [List.flatten_append, hflat, hdrop, ← List.flatten_append,
        List.take_append_drop, splitLinesKeep_flatten]
    · right
      have hdrop2 : (splitLinesKeep O).drop i' = [] := by
        rw [hdrop, hj, List.drop_length]
      rw [List.flatten_append, hflat, hdrop2]
      rw [splitLinesKeep_flatten]
      simp

end MergeCoordinator

/-! ## Diff round-trip: grouped opcodes of a valid chain satisfy the applier invariant -/

namespace Difflib

theorem chainSeg_head_elim (a b : List Text) (g : List Opcode) (f0 : Opcode)
    (i j e f : Nat) (hh : g.head? = some f0) (hch : chainSeg a b i j g e f = true) :
    f0.i1 = i ∧ f0.j1 = j := by
  cases g with
  | nil => simp at hh
  | cons op rest =>
    simp at hh
    obtain ⟨h1, h2, _⟩ := chainSeg_cons_elim a b i j e f op rest hch
    rw [hh] at h1 h2
    exact ⟨h1, h2⟩

theorem chainSeg_single (a b : List Text) (op : Opcode) (i j : Nat)
    (h1 : op.i1 = i) (h2 : op.j1 = j) (h3 : i ≤ op.i2) (h4 : j ≤ op.j2)
    (h5 : op.i2 ≤ a.length) (h6 : op.j2 ≤ b.length)
    (heq : op.tag = .equal → op.i2 - op.i1 = op.j2 - op.j1 ∧
      sliceL a op.i1 op.i2 = sliceL b op.j1 op.j2)
    (hins : op.tag = .insert → op.i2 = op.i1)
    (hdel : op.tag = .delete → op.j2 = op.j1) :
    chainSeg a b i j [op] op.i2 op.j2 = true :=
  chainSeg_cons_intro a b i j op.i2 op.j2 op [] h1 h2 h3 h4 h5 h6 heq hins hdel
    (chainSeg_nil_intro a b op.i2 op.j2)

theorem fixHead_spec (a b : List Text) (c0 : Opcode) (rest : List Opcode)
    (h : chainSeg a b 0 0 (c0 :: rest) a.length b.length = true) :
    ∃ d0, fixHead 3 (c0 :: rest) = d0 :: rest ∧
      chainSeg a b d0.i1 d0.j1 (d0 :: rest) a.length b.length = true ∧
      sliceL a 0 d0.i1 = sliceL b 0 d0.j1 ∧
      (3 ≤ d0.i2 - d0.i1 ∧ 3 ≤ d0.j2 - d0.j1 ∨ d0.i1 = 0) := by
  obtain ⟨h1, h2, h3, h4, h5, h6, heq, hins, hdel, hrest⟩ :=
    chainSeg_cons_elim a b 0 0 a.length b.length c0 rest h
  by_cases ht : c0.tag = .equal
  · obtain ⟨hlen, hslice⟩ := heq ht
    rw [h1, h2] at hlen hslice
    have hij : c0.j2 = c0.i2 := by omega
    rw [hij] at hslice
    refine ⟨⟨c0.tag, max c0.i1 (c0.i2 - 3), c0.i2, max c0.j1 (c0.j2 - 3), c0.j2⟩, ?_, ?_, ?_, ?_⟩
    · rw [fixHead, if_pos ht]
    · refine chainSeg_cons_intro a b _ _ _ _ _ _ rfl rfl (by simp; omega) (by simp; omega)
        h5 h6 ?_ ?_ ?_ hrest
      · intro _
        refine ⟨by simp; omega, ?_⟩
        rw [show max c0.i1 (c0.i2 - 3) = c0.i2 - 3 from by omega,
          show max c0.j1 (c0.j2 - 3) = c0.i2 - 3 from by omega,
          show c0.j2 = c0.i2 from hij]
        have hres := sliceL_restrict a b 0 c0.i2 0 c0.i2 (c0.i2 - 3) c0.i2
          hslice (by omega) (by omega)
        simpa using hres
      · intro hc
        simp only at hc
        rw [ht] at hc
        simp at hc
      · intro hc
        simp only at hc
        rw [ht] at hc
        simp at hc
    · rw [show max c0.i1 (c0.i2 - 3) = c0.i2 - 3 from by omega,
        show max c0.j1 (c0.j2 - 3) = c0.i2 - 3 from by omega]
      have hres := sliceL_restrict a b 0 c0.i2 0 c0.i2 0 (c0.i2 - 3)
        hslice (by omega) (by omega)
      simpa using hres
    · by_cases hm : c0.i2 ≤ 3
      · right
        simp
        omega
      · left
        exact ⟨by simp; omega, by simp; omega⟩
  · refine ⟨c0, ?_, ?_, ?_, Or.inr h1⟩
    · rw [fixHead, if_neg ht]
    · rw [h1, h2]
      exact h
    · rw [h1, h2, sliceL_self, sliceL_self]

theorem fixLast_one (op : Opcode) (ht : op.tag = .equal) :
    fixLast 3 [op] = [⟨op.tag, op.i1, min op.i2 (op.i1 + 3), op.j1, min op.j2 (op.j1 + 3)⟩] := by
  rw [fixLast, if_pos ht]

theorem fixLast_spec (a b : List Text) : ∀ (codes : List Opcode) (i j e f : Nat),
    chainSeg a b i j codes e f = true →
    ∃ e2 f2, chainSeg a b i j (fixLast 3 codes) e2 f2 = true ∧
      sliceL a e2 e = sliceL b f2 f ∧ e2 ≤ e ∧ f2 ≤ f ∧
      (∀ d, (fixLast 3 codes).head? = some d → ∃ c, codes.head? = some c ∧
        d.i1 = c.i1 ∧ d.j1 = c.j1 ∧
        (3 ≤ c.i2 - c.i1 ∧ 3 ≤ c.j2 - c.j1 → 3 ≤ d.i2 - d.i1 ∧ 3 ≤ d.j2 - d.j1) ∧
        (c.i1 = 0 → d.i1 = 0)) := by
  intro codes
  induction codes with
  | nil =>
    intro i j e f hch
    obtain ⟨hi, hj⟩ := chainSeg_nil a b i j e f hch
    refine ⟨e, f, ?_, ?_, le_refl e, le_refl f, ?_⟩
    · rw [← hi, ← hj]
      exact chainSeg_nil_intro a b i j
    · rw [sliceL_self, sliceL_self]
    · intro d hd
      simp [fixLast] at hd
  | cons op rest ih =>
    intro i j e f hch
    obtain ⟨h1, h2, h3, h4, h5, h6, heq, hins, hdel, hrest⟩ :=
      chainSeg_cons_elim a b i j e f op rest hch
    cases rest with
    | nil =>
      obtain ⟨hi2, hj2⟩ := chainSeg_nil a b op.i2 op.j2 e f hrest
      by_cases ht : op.tag = .equal
      · obtain ⟨hlen, hslice⟩ := heq ht
        refine ⟨min op.i2 (op.i1 + 3), min op.j2 (op.j1 + 3), ?_, ?_, by omega, by omega, ?_⟩
        · rw [fixLast_one op ht]
          refine chainSeg_single a b _ i j h1 h2 (by simp; omega) (by simp; omega)
            (by simp; omega) (by simp; omega) ?_ ?_ ?_
          · intro _
            refine ⟨by simp; omega, ?_⟩
            simp only
            have hm1 : min op.i2 (op.i1 + 3) = op.i1 + min (op.i2 - op.i1) 3 := by omega
            have hm2 : min op.j2 (op.j1 + 3) = op.j1 + min (op.j2 - op.j1) 3 := by omega
            have hmm : min (op.j2 - op.j1) 3 = min (op.i2 - op.i1) 3 := by omega
            rw [hm1, hm2, hmm]
            have hres := sliceL_restrict a b op.i1 op.i2 op.j1 op.j2 0
              (min (op.i2 - op.i1) 3) hslice hlen (by omega)
            simpa using hres
          · intro hc
            simp only at hc
            rw [ht] at hc
            simp at hc
          · intro hc
            simp only at hc
            rw [ht] at hc
            simp at hc
        · have hm1 : min op.i2 (op.i1 + 3) = op.i1 + min (op.i2 - op.i1) 3 := by omega
          have hm2 : min op.j2 (op.j1 + 3) = op.j1 + min (op.j2 - op.j1) 3 := by omega
          have hmm : min (op.j2 - op.j1) 3 = min (op.i2 - op.i1) 3 := by omega
          rw [← hi2, ← hj2, hm1, hm2, hmm]
          have hres := sliceL_restrict a b op.i1 op.i2 op.j1 op.j2
            (min (op.i2 - op.i1) 3) (op.i2 - op.i1) hslice hlen (by omega)
          rw [show op.i1 + (op.i2 - op.i1) = op.i2 from by omega,
            show op.j1 + (op.i2 - op.i1) = op.j2 from by omega] at hres
          exact hres
        · intro d hd
          rw [fixLast_one op ht] at hd
          simp at hd
          refine ⟨op, by simp, ?_, ?_, ?_, ?_⟩
          · rw [← hd]
          · rw [← hd]
          · rw [← hd]
            intro hcc
            constructor
            · simp only
              omega
            · simp only
              omega
          · rw [← hd]
            exact fun hx => hx
      · refine ⟨e, f, ?_, ?_, le_refl e, le_refl f, ?_⟩
        · rw [show fixLast 3 [op] = [op] from by rw [fixLast, if_neg ht]]
          exact hch
        · rw [sliceL_self, sliceL_self]
        · intro d hd
          rw [show fixLast 3 [op] = [op] from by rw [fixLast, if_neg ht]] at hd
          simp at hd
          exact ⟨op, by simp, by rw [hd], by rw [hd], by rw [hd]; exact fun hx => hx,
            by rw [hd]; exact fun hx => hx⟩
    | cons r rs =>
      obtain ⟨e2, f2, hch2, hgap2, he2, hf2, hhead⟩ := ih op.i2 op.j2 e f hrest
      refine ⟨e2, f2, ?_, hgap2, ?_, ?_, ?_⟩
      · rw [show fixLast 3 (op :: r :: rs) = op :: fixLast 3 (r :: rs) from rfl]
        exact chainSeg_cons_intro a b i j e2 f2 op (fixLast 3 (r :: rs))
          h1 h2 h3 h4 h5 h6 heq hins hdel hch2
      · have := chainSeg_mono a b (fixLast 3 (r :: rs)) op.i2 op.j2 e2 f2 hch2
        have hm2 := chainSeg_mono a b (r :: rs) op.i2 op.j2 e f hrest
        omega
      · have := chainSeg_mono a b (fixLast 3 (r :: rs)) op.i2 op.j2 e2 f2 hch2
        have hm2 := chainSeg_mono a b (r :: rs) op.i2 op.j2 e f hrest
        omega
      · intro d hd
        rw [show fixLast 3 (op :: r :: rs) = op :: fixLast 3 (r :: rs) from rfl] at hd
        simp at hd
        exact ⟨op, by simp, by rw [hd], by rw [hd], by rw [hd]; exact fun hx => hx,
          by rw [hd]; exact fun hx => hx⟩

end Difflib

namespace MergeCoordinator

theorem drop_eq_of_slice_end (a b : List Text) (e f : Nat)
    (h : sliceL a e a.length = sliceL b f b.length) : a.drop e = b.drop f := by
  rw [← sliceL_to_end a e, ← sliceL_to_end b f]
  exact h

theorem drop_eq_compose (a b : List Text) (i0 j0 ientry jentry : Nat) (hie : ientry ≤ i0)
    (hje : jentry ≤ j0) (hgap : sliceL a ientry i0 = sliceL b jentry j0)
    (hdrop : a.drop i0 = b.drop j0) : a.drop ientry = b.drop jentry := by
  rw [drop_eq_slice_append a ientry i0 hie, drop_eq_slice_append b jentry j0 hje, hgap, hdrop]

theorem groupLoop_spec (a b : List Text) : ∀ (codes grp : List Difflib.Opcode)
    (i0 j0 icur jcur ientry jentry eEnd fEnd : Nat),
    Difflib.chainSeg a b i0 j0 grp.reverse icur jcur = true →
    Difflib.chainSeg a b icur jcur codes eEnd fEnd = true →
    ientry ≤ i0 → jentry ≤ j0 →
    sliceL a ientry i0 = sliceL b jentry j0 →
    (∀ f0, (grp.reverse ++ codes).head? = some f0 →
      3 ≤ f0.i2 - f0.i1 ∧ 3 ≤ f0.j2 - f0.j1 ∨ f0.i1 = ientry) →
    sliceL a eEnd a.length = sliceL b fEnd b.length →
    groupsOk a b ientry jentry (Difflib.groupLoop 3 codes grp) := by
  intro codes
  induction codes with
  | nil =>
    intro grp i0 j0 icur jcur ientry jentry eEnd fEnd hgrp hcodes hie hje hgap hguard htail
    obtain ⟨hiE, hjE⟩ := Difflib.chainSeg_nil a b icur jcur eEnd fEnd hcodes
    have htail2 : a.drop icur = b.drop jcur := by
      rw [hiE, hjE]
      exact drop_eq_of_slice_end a b eEnd fEnd htail
    match grp with
    | [] =>
      obtain ⟨hi0, hj0⟩ := Difflib.chainSeg_nil a b i0 j0 icur jcur hgrp
      show groupsOk a b ientry jentry []
      refine drop_eq_compose a b i0 j0 ientry jentry hie hje hgap ?_
      rw [hi0, hj0]
      exact htail2
    | [op] =>
      simp only [List.reverse_cons, List.reverse_nil, List.nil_append] at hgrp
      obtain ⟨h1, h2, h3, h4, h5, h6, heq, hins, hdel, hrest1⟩ :=
        Difflib.chainSeg_cons_elim a b i0 j0 icur jcur op [] hgrp
      obtain ⟨hi2, hj2⟩ := Difflib.chainSeg_nil a b op.i2 op.j2 icur jcur hrest1
      have htail3 : a.drop op.i2 = b.drop op.j2 := by
        rw [hi2, hj2]
        exact htail2
      by_cases ht : op.tag = Difflib.Tag.equal
      · obtain ⟨hlen, hslice⟩ := heq ht
        show groupsOk a b ientry jentry
          (if op.tag = Difflib.Tag.equal then [] else [[op]])
        rw [if_pos ht]
        show groupsOk a b ientry jentry []
        refine drop_eq_compose a b i0 j0 ientry jentry hie hje hgap ?_
        rw [← h1, ← h2]
        exact drop_eq_compose a b op.i2 op.j2 op.i1 op.j1 (by omega) (by omega) hslice htail3
      · show groupsOk a b ientry jentry
          (if op.tag = Difflib.Tag.equal then [] else [[op]])
        rw [if_neg ht]
        refine ⟨op, op, rfl, rfl, by omega, by omega, by omega, by omega, ?_, ?_, ?_, ?_⟩
        · rw [h1, h2]
          exact hgap
        · exact Difflib.chainSeg_single a b op op.i1 op.j1 rfl rfl (by omega) (by omega)
            h5 h6 heq hins hdel
        · intro hsf
          rcases hguard op (by simp) with ⟨g1, g2⟩ | hfi
          · rcases hsf with hsf | hsf <;> omega
          · omega
        · show a.drop op.i2 = b.drop op.j2
          exact htail3
    | op2 :: op1 :: grp' =>
      cases hrev : (op2 :: op1 :: grp').reverse with
      | nil => simp at hrev
      | cons f tl =>
        rw [hrev] at hgrp
        obtain ⟨h1, h2, h3, h4, h5, h6, heq, hins, hdel, hrest1⟩ :=
          Difflib.chainSeg_cons_elim a b i0 j0 icur jcur f tl hgrp
        have hmono := Difflib.chainSeg_mono a b tl f.i2 f.j2 icur jcur hrest1
        have hl2 : (op2 :: op1 :: grp').reverse.getLast? = some op2 := by
          rw [List.getLast?_reverse]
          rfl
        have hlast := Difflib.chainSeg_getLast_elim a b ((op2 :: op1 :: grp').reverse) op2
          i0 j0 icur jcur hl2 (by rw [hrev]; exact hgrp)
        show groupsOk a b ientry jentry [(op2 :: op1 :: grp').reverse]
        refine ⟨f, op2, by rw [hrev]; rfl, hl2, by omega, by omega, by omega, by omega,
          ?_, ?_, ?_, ?_⟩
        · rw [h1, h2]
          exact hgap
        · rw [hrev, hlast.1, hlast.2, h1, h2]
          exact hgrp
        · intro hsf
          rcases hguard f (by rw [List.append_nil, hrev]; rfl) with ⟨g1, g2⟩ | hfi
          · rw [hlast.1, hlast.2] at hsf
            rcases hsf with hsf | hsf <;> omega
          · omega
        · show a.drop op2.i2 = b.drop op2.j2
          rw [hlast.1, hlast.2]
          exact htail2
  | cons op rest ih =>
    intro grp i0 j0 icur jcur ientry jentry eEnd fEnd hgrp hcodes hie hje hgap hguard htail
    obtain ⟨h1, h2, h3, h4, h5, h6, heq, hins, hdel, hrest⟩ :=
      Difflib.chainSeg_cons_elim a b icur jcur eEnd fEnd op rest hcodes
    by_cases hsplit : op.tag = Difflib.Tag.equal ∧ op.i2 - op.i1 > 3 + 3
    · obtain ⟨ht, hbig⟩ := hsplit
      obtain ⟨hlen, hslice⟩ := heq ht
      rw [Difflib.groupLoop, if_pos ⟨ht, hbig⟩]
      have hm1 : min op.i2 (op.i1 + 3) = op.i1 + 3 := by omega
      have hm2 : min op.j2 (op.j1 + 3) = op.j1 + 3 := by omega
      have hm3 : max op.i1 (op.i2 - 3) = op.i2 - 3 := by omega
      have hm4 : max op.j1 (op.j2 - 3) = op.j2 - 3 := by omega
      rw [hm1, hm2, hm3, hm4]
      have hsliceL3 : sliceL a op.i1 (op.i1 + 3) = sliceL b op.j1 (op.j1 + 3) := by
        have hres := sliceL_restrict a b op.i1 op.i2 op.j1 op.j2 0 3 hslice hlen (by omega)
        simpa using hres
      have hsliceR3 : sliceL a (op.i2 - 3) op.i2 = sliceL b (op.j2 - 3) op.j2 := by
        have hres := sliceL_restrict a b op.i1 op.i2 op.j1 op.j2
          (op.i2 - op.i1 - 3) (op.i2 - op.i1) hslice hlen (by omega)
        rw [show op.i1 + (op.i2 - op.i1 - 3) = op.i2 - 3 from by omega,
          show op.i1 + (op.i2 - op.i1) = op.i2 from by omega,
          show op.j1 + (op.i2 - op.i1 - 3) = op.j2 - 3 from by omega,
          show op.j1 + (op.i2 - op.i1) = op.j2 from by omega] at hres
        exact hres
      have hsliceMid : sliceL a (op.i1 + 3) (op.i2 - 3) = sliceL b (op.j1 + 3) (op.j2 - 3) := by
        have hres := sliceL_restrict a b op.i1 op.i2 op.j1 op.j2 3
          (op.i2 - op.i1 - 3) hslice hlen (by omega)
        rw [show op.i1 + (op.i2 - op.i1 - 3) = op.i2 - 3 from by omega,
          show op.j1 + (op.i2 - op.i1 - 3) = op.j2 - 3 from by omega] at hres
        exact hres
      have hsingleL : Difflib.chainSeg a b icur jcur
          [⟨Difflib.Tag.equal, op.i1, op.i1 + 3, op.j1, op.j1 + 3⟩]
          (op.i1 + 3) (op.j1 + 3) = true := by
        refine Difflib.chainSeg_single a b _ icur jcur h1 h2 ?_ ?_ ?_ ?_ ?_ ?_ ?_
        · dsimp only
          omega
        · dsimp only
          omega
        · dsimp only
          omega
        · dsimp only
          omega
        · intro _
          constructor
          · dsimp only
            omega
          · dsimp only
            exact hsliceL3
        · intro hc
          simp at hc
        · intro hc
          simp at hc
      have hrec : groupsOk a b (op.i1 + 3) (op.j1 + 3)
          (Difflib.groupLoop 3 rest
            [⟨Difflib.Tag.equal, op.i2 - 3, op.i2, op.j2 - 3, op.j2⟩]) := by
        refine ih [⟨Difflib.Tag.equal, op.i2 - 3, op.i2, op.j2 - 3, op.j2⟩]
          (op.i2 - 3) (op.j2 - 3) op.i2 op.j2 (op.i1 + 3) (op.j1 + 3) eEnd fEnd
          ?_ hrest (by omega) (by omega) hsliceMid ?_ htail
        · simp only [List.reverse_cons, List.reverse_nil, List.nil_append]
          refine Difflib.chainSeg_single a b _ (op.i2 - 3) (op.j2 - 3) rfl rfl ?_ ?_ ?_ ?_
            ?_ ?_ ?_
          · dsimp only
            omega
          · dsimp only
            omega
          · dsimp only
            omega
          · dsimp only
            omega
          · intro _
            constructor
            · dsimp only
              omega
            · dsimp only
              exact hsliceR3
          · intro hc
            simp at hc
          · intro hc
            simp at hc
        · intro f0 hf0
          simp only [List.reverse_cons, List.reverse_nil, List.nil_append,
            List.cons_append, List.head?_cons, Option.some_inj] at hf0
          left
          rw [← hf0]
          constructor
          · dsimp only
            omega
          · dsimp only
            omega
      cases grp with
      | nil =>
        obtain ⟨hi0, hj0⟩ := Difflib.chainSeg_nil a b i0 j0 icur jcur hgrp
        refine ⟨⟨Difflib.Tag.equal, op.i1, op.i1 + 3, op.j1, op.j1 + 3⟩,
          ⟨Difflib.Tag.equal, op.i1, op.i1 + 3, op.j1, op.j1 + 3⟩, rfl, rfl, ?_, ?_, ?_, ?_,
          ?_, ?_, ?_, ?_⟩
        · dsimp only
          omega
        · dsimp only
          omega
        · dsimp only
          omega
        · dsimp only
          omega
        · dsimp only
          rw [h1, h2, ← hi0, ← hj0]
          exact hgap
        · dsimp only
          simp only [List.reverse_cons, List.reverse_nil, List.nil_append]
          rw [← h1, ← h2] at hsingleL
          exact hsingleL
        · intro hsf
          dsimp only at hsf
          omega
        · dsimp only
          exact hrec
      | cons g0 gtl =>
        cases hrev : (g0 :: gtl).reverse with
        | nil => simp at hrev
        | cons f tl =>
          rw [hrev] at hgrp
          obtain ⟨hg1, hg2, hg3, hg4, hg5, hg6, hgeq, hgins, hgdel, hgrest⟩ :=
            Difflib.chainSeg_cons_elim a b i0 j0 icur jcur f tl hgrp
          have hmono := Difflib.chainSeg_mono a b tl f.i2 f.j2 icur jcur hgrest
          refine ⟨f, ⟨Difflib.Tag.equal, op.i1, op.i1 + 3, op.j1, op.j1 + 3⟩, ?_, ?_,
            by omega, by omega, by omega, by omega, ?_, ?_, ?_, ?_⟩
          · rw [List.reverse_cons, hrev]
            rfl
          · rw [List.reverse_cons, hrev, List.getLast?_concat]
          · rw [hg1, hg2]
            exact hgap
          · dsimp only
            rw [List.reverse_cons, hrev]
            refine Difflib.chainSeg_append_intro a b (f :: tl) _ f.i1 f.j1 icur jcur _ _
              ?_ hsingleL
            rw [hg1, hg2]
            exact hgrp
          · intro hsf
            dsimp only at hsf
            rcases hguard f (by rw [hrev]; rfl) with ⟨gg1, gg2⟩ | hfi
            · rcases hsf with hsf | hsf <;> omega
            · omega
          · dsimp only
            exact hrec
    · rw [Difflib.groupLoop, if_neg hsplit]
      refine ih (op :: grp) i0 j0 op.i2 op.j2 ientry jentry eEnd fEnd ?_ hrest hie hje hgap
        ?_ htail
      · rw [List.reverse_cons]
        exact Difflib.chainSeg_append_intro a b grp.reverse [op] i0 j0 icur jcur _ _
          hgrp (Difflib.chainSeg_single a b op icur jcur h1 h2 h3 h4 h5 h6 heq hins hdel)
      · intro f0 hf0
        refine hguard f0 ?_
        rw [show grp.reverse ++ op :: rest = (grp.reverse ++ [op]) ++ rest from by
          rw [List.append_assoc]; rfl]
        rw [← List.reverse_cons]
        exact hf0

end MergeCoordinator

namespace Difflib

theorem commonPfxLen_le_left : ∀ xs ys : List Text, commonPfxLen xs ys ≤ xs.length := by
  intro xs
  induction xs with
  | nil => intro ys; rw [show commonPfxLen [] ys = 0 from by cases ys <;> rfl]; simp
  | cons x xs ih =>
    intro ys
    cases ys with
    | nil => rw [show commonPfxLen (x :: xs) [] = 0 from rfl]; simp
    | cons y ys =>
      rw [show commonPfxLen (x :: xs) (y :: ys) =
        if x = y then commonPfxLen xs ys + 1 else 0 from rfl]
      by_cases hxy : x = y
      · rw [if_pos hxy]
        have := ih ys
        simp
        omega
      · rw [if_neg hxy]
        simp

theorem commonPfxLen_le_right : ∀ xs ys : List Text, commonPfxLen xs ys ≤ ys.length := by
  intro xs
  induction xs with
  | nil => intro ys; rw [show commonPfxLen [] ys = 0 from by cases ys <;> rfl]; simp
  | cons x xs ih =>
    intro ys
    cases ys with
    | nil => rw [show commonPfxLen (x :: xs) [] = 0 from rfl]; simp
    | cons y ys =>
      rw [show commonPfxLen (x :: xs) (y :: ys) =
        if x = y then commonPfxLen xs ys + 1 else 0 from rfl]
      by_cases hxy : x = y
      · rw [if_pos hxy]
        have := ih ys
        simp
        omega
      · rw [if_neg hxy]
        simp

theorem commonPfxLen_take : ∀ xs ys : List Text,
    xs.take (commonPfxLen xs ys) = ys.take (commonPfxLen xs ys) := by
  intro xs
  induction xs with
  | nil => intro ys; rw [show commonPfxLen [] ys = 0 from by cases ys <;> rfl]; rfl
  | cons x xs ih =>
    intro ys
    cases ys with
    | nil => rw [show commonPfxLen (x :: xs) [] = 0 from rfl]; rfl
    | cons y ys =>
      rw [show commonPfxLen (x :: xs) (y :: ys) =
        if x = y then commonPfxLen xs ys + 1 else 0 from rfl]
      by_cases hxy : x = y
      · rw [if_pos hxy, List.take_succ_cons, List.take_succ_cons, ih ys, hxy]
      · rw [if_neg hxy]
        rfl

theorem commonSfx_drop (u v : List Text) :
    u.drop (u.length - commonPfxLen u.reverse v.reverse) =
      v.drop (v.length - commonPfxLen u.reverse v.reverse) := by
  have htake := commonPfxLen_take u.reverse v.reverse
  rw [List.take_reverse, List.take_reverse] at htake
  exact List.reverse_inj.mp htake

theorem sliceL_zero (l : List Text) (k : Nat) : sliceL l 0 k = l.take k := by
  simp [sliceL]

set_option maxHeartbeats 800000 in
theorem getOpcodes_valid (a b : List Text) :
    validOpcodes a b (getOpcodes a b) = true := by
  show chainSeg a b 0 0 (getOpcodes a b) a.length b.length = true
  unfold getOpcodes
  show chainSeg a b 0 0
    ((if 0 < commonPfxLen a b then
        [⟨Tag.equal, 0, commonPfxLen a b, 0, commonPfxLen a b⟩] else []) ++
      (if commonPfxLen a b <
            a.length - commonPfxLen (a.drop (commonPfxLen a b)).reverse
              (b.drop (commonPfxLen a b)).reverse ∧
          commonPfxLen a b <
            b.length - commonPfxLen (a.drop (commonPfxLen a b)).reverse
              (b.drop (commonPfxLen a b)).reverse then
        [⟨Tag.replace, commonPfxLen a b,
          a.length - commonPfxLen (a.drop (commonPfxLen a b)).reverse
            (b.drop (commonPfxLen a b)).reverse, commonPfxLen a b,
          b.length - commonPfxLen (a.drop (commonPfxLen a b)).reverse
            (b.drop (commonPfxLen a b)).reverse⟩]
      else if commonPfxLen a b <
            a.length - commonPfxLen (a.drop (commonPfxLen a b)).reverse
              (b.drop (commonPfxLen a b)).reverse then
        [⟨Tag.delete, commonPfxLen a b,
          a.length - commonPfxLen (a.drop (commonPfxLen a b)).reverse
            (b.drop (commonPfxLen a b)).reverse, commonPfxLen a b, commonPfxLen a b⟩]
      else if commonPfxLen a b <
            b.length - commonPfxLen (a.drop (commonPfxLen a b)).reverse
              (b.drop (commonPfxLen a b)).reverse then
        [⟨Tag.insert, commonPfxLen a b, commonPfxLen a b, commonPfxLen a b,
          b.length - commonPfxLen (a.drop (commonPfxLen a b)).reverse
            (b.drop (commonPfxLen a b)).reverse⟩]
      else []) ++
      (if 0 < commonPfxLen (a.drop (commonPfxLen a b)).reverse
            (b.drop (commonPfxLen a b)).reverse then
        [⟨Tag.equal,
          a.length - commonPfxLen (a.drop (commonPfxLen a b)).reverse
            (b.drop (commonPfxLen a b)).reverse, a.length,
          b.length - commonPfxLen (a.drop (commonPfxLen a b)).reverse
            (b.drop (commonPfxLen a b)).reverse, b.length⟩] else []))
    a.length b.length = true
  have hTake := commonPfxLen_take a b
  have hA := commonPfxLen_le_left a b
  have hB := commonPfxLen_le_right a b
  have hSufHalf := commonSfx_drop (a.drop (commonPfxLen a b)) (b.drop (commonPfxLen a b))
  have hQA : commonPfxLen (a.drop (commonPfxLen a b)).reverse
      (b.drop (commonPfxLen a b)).reverse ≤ a.length - commonPfxLen a b := by
    have := commonPfxLen_le_left (a.drop (commonPfxLen a b)).reverse
      (b.drop (commonPfxLen a b)).reverse
    simpa using this
  have hQB : commonPfxLen (a.drop (commonPfxLen a b)).reverse
      (b.drop (commonPfxLen a b)).reverse ≤ b.length - commonPfxLen a b := by
    have := commonPfxLen_le_right (a.drop (commonPfxLen a b)).reverse
      (b.drop (commonPfxLen a b)).reverse
    simpa using this
  generalize hq : commonPfxLen (a.drop (commonPfxLen a b)).reverse
    (b.drop (commonPfxLen a b)).reverse = q at *
  generalize hpv : commonPfxLen a b = p at *
  rw [List.length_drop, List.length_drop] at hSufHalf
  have hSuf : a.drop (a.length - q) = b.drop (b.length - q) := by
    rw [List.drop_drop, List.drop_drop] at hSufHalf
    rw [show a.length - q = p + (a.length - p - q) from by omega,
      show b.length - q = p + (b.length - p - q) from by omega]
    exact hSufHalf
  have hP : chainSeg a b 0 0 (if 0 < p then [⟨Tag.equal, 0, p, 0, p⟩] else []) p p = true := by
    by_cases h0 : 0 < p
    · rw [if_pos h0]
      refine chainSeg_single a b _ 0 0 rfl rfl (by dsimp only; omega) (by dsimp only; omega)
        (by dsimp only; exact hA) (by dsimp only; exact hB) ?_ ?_ ?_
      · intro _
        refine ⟨by dsimp only, ?_⟩
        dsimp only
        rw [sliceL_zero, sliceL_zero]
        exact hTake
      · intro hc
        simp at hc
      · intro hc
        simp at hc
    · rw [if_neg h0]
      rw [show p = 0 from by omega]
      exact chainSeg_nil_intro a b 0 0
  have hMid : chainSeg a b p p
      (if p < a.length - q ∧ p < b.length - q then
        [⟨Tag.replace, p, a.length - q, p, b.length - q⟩]
      else if p < a.length - q then
        [⟨Tag.delete, p, a.length - q, p, p⟩]
      else if p < b.length - q then
        [⟨Tag.insert, p, p, p, b.length - q⟩]
      else []) (a.length - q) (b.length - q) = true := by
    by_cases hpe : p < a.length - q <;> by_cases hpf : p < b.length - q
    · rw [if_pos ⟨hpe, hpf⟩]
      refine chainSeg_single a b _ p p rfl rfl (by dsimp only; omega) (by dsimp only; omega)
        (by dsimp only; omega) (by dsimp only; omega) ?_ ?_ ?_
      · intro hc
        simp at hc
      · intro hc
        simp at hc
      · intro hc
        simp at hc
    · rw [if_neg (by intro hcc; exact hpf hcc.2), if_pos hpe]
      have hf : b.length - q = p := by omega
      rw [hf]
      refine chainSeg_single a b _ p p rfl rfl (by dsimp only; omega) (by dsimp only; omega)
        (by dsimp only; omega) (by dsimp only; omega) ?_ ?_ ?_
      · intro hc
        simp at hc
      · intro hc
        simp at hc
      · intro _
        rfl
    · rw [if_neg (by intro hcc; exact hpe hcc.1), if_neg hpe, if_pos hpf]
      have he : a.length - q = p := by omega
      rw [he]
      refine chainSeg_single a b _ p p rfl rfl (by dsimp only; omega) (by dsimp only; omega)
        (by dsimp only; omega) (by dsimp only; omega) ?_ ?_ ?_
      · intro hc
        simp at hc
      · intro _
        rfl
      · intro hc
        simp at hc
    · rw [if_neg (by intro hcc; exact hpe hcc.1), if_neg hpe, if_neg hpf]
      rw [show a.length - q = p from by omega, show b.length - q = p from by omega]
      exact chainSeg_nil_intro a b p p
  have hS : chainSeg a b (a.length - q) (b.length - q)
      (if 0 < q then [⟨Tag.equal, a.length - q, a.length, b.length - q, b.length⟩] else [])
      a.length b.length = true := by
    by_cases h0 : 0 < q
    · rw [if_pos h0]
      refine chainSeg_single a b _ (a.length - q) (b.length - q) rfl rfl (by dsimp only; omega)
        (by dsimp only; omega) (by dsimp only; omega) (by dsimp only; omega) ?_ ?_ ?_
      · intro _
        refine ⟨by dsimp only; omega, ?_⟩
        dsimp only
        rw [sliceL_to_end, sliceL_to_end]
        exact hSuf
      · intro hc
        simp at hc
      · intro hc
        simp at hc
    · rw [if_neg h0]
      rw [show a.length - q = a.length from by omega, show b.length - q = b.length from by omega]
      exact chainSeg_nil_intro a b a.length b.length
  exact chainSeg_append_intro a b _ _ 0 0 (a.length - q) (b.length - q) a.length b.length
    (chainSeg_append_intro a b _ _ 0 0 p p (a.length - q) (b.length - q) hP hMid) hS

end Difflib

namespace MergeCoordinator

theorem groupsOk_of_validOpcodes (a b : List Text) (ops : List Difflib.Opcode)
    (h : Difflib.validOpcodes a b ops = true) :
    groupsOk a b 0 0 (Difflib.getGroupedOpcodes 3 ops) := by
  unfold Difflib.validOpcodes at h
  unfold Difflib.getGroupedOpcodes
  cases ops with
  | nil =>
    obtain ⟨ha, hb⟩ := Difflib.chainSeg_nil a b 0 0 a.length b.length h
    rw [if_pos rfl]
    rw [show Difflib.groupLoop 3 (Difflib.fixLast 3 (Difflib.fixHead 3
      [⟨Difflib.Tag.equal, 0, 1, 0, 1⟩])) [] = [] from rfl]
    show a.drop 0 = b.drop 0
    rw [List.eq_nil_of_length_eq_zero ha.symm, List.eq_nil_of_length_eq_zero hb.symm]
  | cons c0 rest =>
    rw [if_neg (by simp)]
    show groupsOk a b 0 0
      (Difflib.groupLoop 3 (Difflib.fixLast 3 (Difflib.fixHead 3 (c0 :: rest))) [])
    obtain ⟨d0, hfix, hchain0, hgap0, hguard0⟩ := Difflib.fixHead_spec a b c0 rest h
    rw [hfix]
    obtain ⟨e2, f2, hchain2, htail2, he2, hf2, hhead2⟩ :=
      Difflib.fixLast_spec a b (d0 :: rest) d0.i1 d0.j1 a.length b.length hchain0
    refine groupLoop_spec a b (Difflib.fixLast 3 (d0 :: rest)) [] d0.i1 d0.j1 d0.i1 d0.j1
      0 0 e2 f2 (Difflib.chainSeg_nil_intro a b d0.i1 d0.j1) hchain2 (Nat.zero_le _)
      (Nat.zero_le _) hgap0 ?_ ?_
    · intro f0 hf0
      rw [show (([] : List Difflib.Opcode).reverse ++ Difflib.fixLast 3 (d0 :: rest)) =
        Difflib.fixLast 3 (d0 :: rest) from by simp] at hf0
      obtain ⟨c, hc, hi1, hj1, hlen3, hz⟩ := hhead2 f0 hf0
      simp at hc
      rcases hguard0 with ⟨g1, g2⟩ | hz0
      · left
        refine hlen3 ?_
        rw [← hc]
        exact ⟨g1, g2⟩
      · right
        rw [hi1, ← hc]
        exact hz0
    · have hslice : sliceL a e2 a.length = sliceL b f2 b.length := htail2
      exact hslice

end MergeCoordinator

namespace MergeCoordinator

/-- Claim C3 counterexample: for O = `"a\n"` and M = `"++b\n"` the
generated diff renders M's line as `"+++b"`; the manual applier treats
that piece as a `+++` file header and drops it, yielding `""`, which
differs from M and from M with a trailing newline appended. -/
theorem diff_roundtrip_cex :
    ((WorkspaceManager.FileChange.from_diff "doc.md".data "a\n".data "++b\n".data).map
        (fun fc => applyDiffManual "a\n".data fc.unified_diff)) = some [] ∧
      ([] : Text) ≠ "++b\n".data ∧ ([] : Text) ≠ "++b\n".data ++ ['\n'] := by
  refine ⟨by decide, by decide, by decide⟩

/-- Claim C3 (amended): building a `FileChange` from original `O` and
modified `M` with `O ≠ M` and applying its `unified_diff` to `O` with
the coordinator's manual diff interpreter yields `M`, or `M` with one
trailing newline appended, provided the texts are benign for the
interpreter's prefix dispatch: `M` uses only `'\n'` line terminators, no
line of `M` starts with `"++"`, no line of `O` starts with `"--"`, and
the diff file labels contain no newline.  The first conjunct states the
round trip for every opcode list satisfying the documented
`SequenceMatcher.get_opcodes` contract — hence for the stdlib matcher's
actual output — and the second for the executable `from_diff` model.
Without the side conditions the round trip fails (see the
counterexample). -/
theorem diff_roundtrip_modulo_trailing_newline (name O M ff tf : Text)
    (ops : List Difflib.Opcode) (hne : O ≠ M)
    (hval : Difflib.validOpcodes (splitLinesKeep O) (splitLinesKeep M) ops = true)
    (hM2 : ∀ c ∈ M, isLineBreak c = true → c = '\n')
    (hOline : ∀ l ∈ splitLinesKeep O, leadsWith ['-', '-'] l = false)
    (hMline : ∀ l ∈ splitLinesKeep M, leadsWith ['+', '+'] l = false)
    (hff : '\n' ∉ ff) (htf : '\n' ∉ tf) (hname : '\n' ∉ name) :
    (applyDiffManual O (joinNl (Difflib.unifiedDiffLines ff tf (splitLinesKeep O)
        (splitLinesKeep M) (Difflib.getGroupedOpcodes 3 ops))) = M ∨
      applyDiffManual O (joinNl (Difflib.unifiedDiffLines ff tf (splitLinesKeep O)
        (splitLinesKeep M) (Difflib.getGroupedOpcodes 3 ops))) = M ++ ['\n']) ∧
    ∃ fc, WorkspaceManager.FileChange.from_diff name O M = some fc ∧
      (applyDiffManual O fc.unified_diff = M ∨
        applyDiffManual O fc.unified_diff = M ++ ['\n']) := by
  constructor
  · exact applyDiffManual_of_groupsOk O M ff tf _
      (groupsOk_of_validOpcodes _ _ ops hval) hM2 hOline hMline hff htf
  · have hfname : '\n' ∉ "original/".data ++ name := by
      intro hm
      rcases List.mem_append.1 hm with hm | hm
      · simp at hm
      · exact hname hm
    have htname : '\n' ∉ "workspace/".data ++ name := by
      intro hm
      rcases List.mem_append.1 hm with hm | hm
      · simp at hm
      · exact hname hm
    unfold WorkspaceManager.FileChange.from_diff
    rw [if_neg hne]
    refine ⟨_, rfl, ?_⟩
    show applyDiffManual O (joinNl (Difflib.unifiedDiffLines
        ("original/".data ++ name) ("workspace/".data ++ name)
        (splitLinesKeep O) (splitLinesKeep M)
        (Difflib.getGroupedOpcodes 3
          (Difflib.getOpcodes (splitLinesKeep O) (splitLinesKeep M))))) = M ∨
      applyDiffManual O (joinNl (Difflib.unifiedDiffLines
        ("original/".data ++ name) ("workspace/".data ++ name)
        (splitLinesKeep O) (splitLinesKeep M)
        (Difflib.getGroupedOpcodes 3
          (Difflib.getOpcodes (splitLinesKeep O) (splitLinesKeep M))))) = M ++ ['\n']
    exact applyDiffManual_of_groupsOk O M _ _ _
      (groupsOk_of_validOpcodes _ _ _
        (Difflib.getOpcodes_valid (splitLinesKeep O) (splitLinesKeep M)))
      hM2 hOline hMline hfname htname

/-- Witness for the C3 amended theorem at a concrete input. -/
theorem diff_roundtrip_modulo_trailing_newline_witness :
    (applyDiffManual "x\n".data (joinNl (Difflib.unifiedDiffLines "a".data "b".data
        (splitLinesKeep "x\n".data) (splitLinesKeep "y\n".data)
        (Difflib.getGroupedOpcodes 3 [⟨Difflib.Tag.replace, 0, 1, 0, 1⟩]))) = "y\n".data ∨
      applyDiffManual "x\n".data (joinNl (Difflib.unifiedDiffLines "a".data "b".data
        (splitLinesKeep "x\n".data) (splitLinesKeep "y\n".data)
        (Difflib.getGroupedOpcodes 3 [⟨Difflib.Tag.replace, 0, 1, 0, 1⟩]))) =
        "y\n".data ++ ['\n']) ∧
    ∃ fc, WorkspaceManager.FileChange.from_diff "f.md".data "x\n".data "y\n".data = some fc ∧
      (applyDiffManual "x\n".data fc.unified_diff = "y\n".data ∨
        applyDiffManual "x\n".data fc.unified_diff = "y\n".data ++ ['\n']) :=
  diff_roundtrip_modulo_trailing_newline "f.md".data "x\n".data "y\n".data "a".data "b".data
    [⟨Difflib.Tag.replace, 0, 1, 0, 1⟩] (by decide) (by decide) (by decide) (by decide)
    (by decide) (by decide) (by decide) (by decide)

end MergeCoordinator

end Harlowe
